import Mathlib

/-!
# Multicore Ising model: lattice engine, hart topology and static partition

A shallow embedding of `src/model/Model.hpp`, `src/model/ThreadCoreScalability.hpp`
and the worker loop and `main` of `src/model/model.cpp`.

Conventions of the embedding:

* a C `int` is an `Int` that is wrapped to 32 bits (`wrap32`) after every
  arithmetic operation that can leave the range; `/` and `%` are the truncating
  `Int.tdiv` and `Int.tmod`;
* a C `unsigned` is a `Nat` reduced modulo `2^32`;
* a `char` cell is an `Int` in `-128 .. 127`;
* `float` and `double` arithmetic are not interpreted: the operations the code
  uses are the fields of `FloatOps`, a parameter of the embedding;
* the random devices are streams of results, and the lattice counts how many
  results it has consumed;
* an access outside the allocated buffer is undefined behaviour in the source
  and `none` here.
-/

set_option maxRecDepth 100000

namespace Ising

/-! ## Machine integers -/

/-- Two's-complement wrap of an integer to the range of a 32-bit `int`. -/
def wrap32 (v : Int) : Int := (v + 2147483648) % 4294967296 - 2147483648

/-- Two's-complement wrap of an integer to the range of a signed `char`. -/
def wrap8 (v : Int) : Int := (v + 128) % 256 - 128

/-- The 32-bit pattern of an `int`, as a natural number below `2^32`. -/
def bits32 (v : Int) : Nat := (v % 4294967296).toNat

/-- The `&` of two `int`s: the bitwise and of their 32-bit patterns. -/
def and32 (a b : Int) : Int := wrap32 (Int.ofNat (Nat.land (bits32 a) (bits32 b)))

/-- The constant `CACHE_LINE_SIZE` of `ThreadCoreScalability.hpp`. -/
def CACHE_LINE_SIZE : Int := 128

/-! ## Floating point operations used by the lattice engine -/

/-- The `float` (`F`) and `double` (`D`) operations that `metropolis_sweep` uses. -/
structure FloatOps (F D : Type) where
  /-- Conversion of an `int` to `float`. -/
  ofInt : Int → F
  /-- The `float` sum. -/
  add : F → F → F
  /-- The `float` product. -/
  mul : F → F → F
  /-- The `float` negation. -/
  neg : F → F
  /-- The `float` comparison `a < b`. -/
  lt : F → F → Bool
  /-- Promotion of a `float` to `double`. -/
  toDouble : F → D
  /-- Conversion of a `double` to `float`. -/
  ofDouble : D → F
  /-- The `double` literal `2.0`. -/
  two : D
  /-- The `double` product. -/
  dmul : D → D → D
  /-- The `double` quotient. -/
  ddiv : D → D → D
  /-- The `double` function `exp`. -/
  dexp : D → D

/-! ## The lattice -/

/-- The random devices of a lattice: the successive results of `ints(rd)` (64-bit
integers) and of `floats(gen)`. -/
structure Draws (F : Type) where
  ints : Nat → Int
  floats : Nat → F

/-- The state of a `Lattice` object. `points` is the allocated buffer; `ints_used`
and `floats_used` count the results already taken from the random devices. -/
structure Lattice (F : Type) where
  size_x : Int
  size_y : Int
  size_z : Int
  points : List Int
  ints_used : Nat
  floats_used : Nat
  interactivity : F
  temperature : F
  field : F

variable {F D : Type}

/-- The number of cells `new char[sz_x * sz_y * sz_z + CACHE_LINE_SIZE]` allocates in
the constructor: the product is formed on `int`s, the sum with the `unsigned` constant
on `unsigned`s. -/
def Lattice.alloc_size (sz_x sz_y sz_z : Int) : Int :=
  (wrap32 (wrap32 (sz_x * sz_y) * sz_z) + CACHE_LINE_SIZE) % 4294967296

/-- The flat index `(a*size_y + b)*size_z + c` as the code computes it on `int`s. -/
def Lattice.flat (L : Lattice F) (a b c : Int) : Int :=
  wrap32 (wrap32 (wrap32 (wrap32 (a * L.size_y) + b) * L.size_z) + c)

/-- The method `Lattice::get`: the offset in `points` of the cell the returned reference
denotes. -/
def Lattice.get (L : Lattice F) (x y z : Int) : Int :=
  let fixed_x := Int.tmod (wrap32 (x + L.size_x)) L.size_x
  let fixed_y := Int.tmod (wrap32 (y + L.size_y)) L.size_y
  let fixed_z := Int.tmod (wrap32 (z + L.size_z)) L.size_z
  L.flat fixed_x fixed_y fixed_z

/-- Reading through a reference into `points`. -/
def Lattice.load (L : Lattice F) (i : Int) : Option Int :=
  if 0 ≤ i ∧ i < L.points.length then L.points[i.toNat]? else none

/-- Writing through a reference into `points`. -/
def Lattice.store (L : Lattice F) (i : Int) (v : Int) : Option (Lattice F) :=
  if 0 ≤ i ∧ i < L.points.length then
    some { L with points := L.points.set i.toNat v }
  else none

/-- One iteration of the innermost loop of `init_with_randoms`. The state is
`(cur_bit, cur_rand, lattice)`. -/
def Lattice.init_cell (dr : Draws F) (x y : Int)
    (st : Option (Int × Int × Lattice F)) (z : Int) : Option (Int × Int × Lattice F) :=
  match st with
  | none => none
  | some (cur_bit, cur_rand, L) =>
    let fresh := cur_bit == 0
    let cur_bit1 := if fresh then 1 else cur_bit
    let cur_rand1 := if fresh then wrap32 (dr.ints L.ints_used) else cur_rand
    let L1 := if fresh then { L with ints_used := L.ints_used + 1 } else L
    match L1.store (L1.flat x y z) (if and32 cur_rand1 cur_bit1 ≠ 0 then 1 else -1) with
    | none => none
    | some L2 => some (wrap32 (cur_bit1 * 2), cur_rand1, L2)

/-- The values `0, 1, .., n-1` of a loop counter `for (int i = 0; i < n; ++i)`. -/
def counter (n : Int) : List Int := (List.range n.toNat).map Int.ofNat

/-- The method `Lattice::init_with_randoms`; `none` is an access outside the buffer. -/
def Lattice.init_with_randoms (dr : Draws F) (L : Lattice F) : Option (Lattice F) :=
  let st := (counter L.size_x).foldl (fun st x =>
    (counter L.size_y).foldl (fun st y =>
      (counter L.size_z).foldl (Lattice.init_cell dr x y) st) st) (some (0, 0, L))
  st.map (fun s => s.2.2)

/-- The site coordinates `(altered_x, altered_y, altered_z)` that one iteration of
`metropolis_sweep` derives from the result `draw` of `ints(rd)`. -/
def Lattice.altered (L : Lattice F) (draw : Int) : Int × Int × Int :=
  let random_num := wrap32 draw
  let altered_z := Int.tmod (wrap32 (L.size_z + random_num)) L.size_z
  let random_num := Int.tdiv random_num L.size_z
  let altered_y := Int.tmod (wrap32 (L.size_y + random_num)) L.size_y
  let random_num := Int.tdiv random_num L.size_y
  let altered_x := Int.tmod (wrap32 (L.size_x + random_num)) L.size_x
  (altered_x, altered_y, altered_z)

/-- The `float` value `cur_energy` of one iteration of `metropolis_sweep`, from the
six neighbour spins and the spin of the site. -/
def Lattice.cur_energy (fl : FloatOps F D) (L : Lattice F)
    (spin_l spin_r spin_u spin_d spin_t spin_b cur_spin : Int) : F :=
  let interaction_vector := fl.add L.field
    (fl.mul L.interactivity (fl.ofInt (spin_l + spin_r + spin_u + spin_d + spin_t + spin_b)))
  fl.mul (fl.neg interaction_vector) (fl.ofInt cur_spin)

/-- The `float` value `acceptance_ratio`: `exp(2.0 * cur_energy / temperature)`,
computed in `double`. -/
def Lattice.acceptance_ratio (fl : FloatOps F D) (L : Lattice F) (e : F) : F :=
  fl.ofDouble (fl.dexp (fl.ddiv (fl.dmul fl.two (fl.toDouble e)) (fl.toDouble L.temperature)))

/-- One iteration of the loop of `metropolis_sweep`. -/
def Lattice.metropolis_step (fl : FloatOps F D) (dr : Draws F) (L : Lattice F) :
    Option (Lattice F) :=
  let draw := dr.ints L.ints_used
  let L := { L with ints_used := L.ints_used + 1 }
  let altered_x := (L.altered draw).1
  let altered_y := (L.altered draw).2.1
  let altered_z := (L.altered draw).2.2
  let cur := L.get altered_x altered_y altered_z
  match L.load cur,
        L.load (L.get (wrap32 (altered_x - 1)) altered_y altered_z),
        L.load (L.get (wrap32 (altered_x + 1)) altered_y altered_z),
        L.load (L.get altered_x (wrap32 (altered_y - 1)) altered_z),
        L.load (L.get altered_x (wrap32 (altered_y + 1)) altered_z),
        L.load (L.get altered_x altered_y (wrap32 (altered_z - 1))),
        L.load (L.get altered_x altered_y (wrap32 (altered_z + 1))) with
  | some cur_spin, some spin_l, some spin_r, some spin_u, some spin_d, some spin_t,
      some spin_b =>
    let cur_energy := L.cur_energy fl spin_l spin_r spin_u spin_d spin_t spin_b cur_spin
    if fl.lt (fl.ofInt 0) cur_energy then
      L.store cur (wrap8 (-cur_spin))
    else
      let acceptance_ratio := L.acceptance_ratio fl cur_energy
      let toss := dr.floats L.floats_used
      let L := { L with floats_used := L.floats_used + 1 }
      if fl.lt toss acceptance_ratio then
        L.store cur (wrap8 (-cur_spin))
      else some L
  | _, _, _, _, _, _, _ => none

/-- The method `Lattice::metropolis_sweep`: `steps` iterations of the loop. -/
def Lattice.metropolis_sweep (fl : FloatOps F D) (dr : Draws F) :
    Nat → Lattice F → Option (Lattice F)
  | 0, L => some L
  | steps + 1, L => (L.metropolis_step fl dr).bind (Lattice.metropolis_sweep fl dr steps)

/-- The constructor `Lattice::Lattice`: the members after construction. The allocated buffer is not
initialised by the constructor; its content `mem` is a parameter, cut to the
allocated size. -/
def Lattice.new (sz_x sz_y sz_z : Int) (mem : Nat → Int) (iact temp fld : F) : Lattice F :=
  { size_x := sz_x, size_y := sz_y, size_z := sz_z,
    points := (List.range (Lattice.alloc_size sz_x sz_y sz_z).toNat).map mem,
    ints_used := 0, floats_used := 0,
    interactivity := iact, temperature := temp, field := fld }

/-- A lattice as the constructor leaves it, for dimensions on which the `int`
arithmetic of the class does not overflow: positive dimensions of at most `2^30`
(a coordinate plus a dimension is an `int`), a cell count that is an `int`, and a
buffer of `size_x*size_y*size_z + CACHE_LINE_SIZE` cells. -/
structure Lattice.WF (L : Lattice F) : Prop where
  pos_x : 0 < L.size_x
  pos_y : 0 < L.size_y
  pos_z : 0 < L.size_z
  le_x : L.size_x ≤ 1073741824
  le_y : L.size_y ≤ 1073741824
  le_z : L.size_z ≤ 1073741824
  fits : L.size_x * L.size_y * L.size_z < 2147483648
  len : (L.points.length : Int) = L.size_x * L.size_y * L.size_z + CACHE_LINE_SIZE

/-- A lattice as the constructor leaves it, for dimensions on which the flat index of
a cell does not overflow: positive dimensions, a cell count that is an `int`, and a
buffer of `size_x*size_y*size_z + CACHE_LINE_SIZE` cells. -/
structure Lattice.Sized (L : Lattice F) : Prop where
  pos_x : 0 < L.size_x
  pos_y : 0 < L.size_y
  pos_z : 0 < L.size_z
  fits : L.size_x * L.size_y * L.size_z < 2147483648
  len : (L.points.length : Int) = L.size_x * L.size_y * L.size_z + CACHE_LINE_SIZE

/-- The number of cells of the lattice, `size_x*size_y*size_z`. -/
def Lattice.volume (L : Lattice F) : Int := L.size_x * L.size_y * L.size_z

/-- The cell of periodic coordinates `(x, y, z)`: the content of `points` at the flat
index of the coordinates reduced modulo the dimensions (mathematical `mod`, no
machine arithmetic). -/
def Lattice.cell (L : Lattice F) (x y z : Int) : Int :=
  L.points.getD (((x % L.size_x) * L.size_y + y % L.size_y) * L.size_z + z % L.size_z).toNat 0

/-- Every cell of the lattice (the first `size_x*size_y*size_z` cells of the buffer)
holds `+1` or `-1`. -/
def Lattice.Spins (L : Lattice F) : Prop :=
  ∀ i : Nat, (i : Int) < L.volume → L.points[i]? = some 1 ∨ L.points[i]? = some (-1)

/-- The energy `e = -(field + interactivity * (sum of the six periodic neighbour
spins)) * spin` of the site of periodic coordinates `(x, y, z)`, in the `float`
operations of the code. -/
def Lattice.site_energy (fl : FloatOps F D) (L : Lattice F) (x y z : Int) : F :=
  fl.mul (fl.neg (fl.add L.field (fl.mul L.interactivity (fl.ofInt
    (L.cell (x - 1) y z + L.cell (x + 1) y z + L.cell x (y - 1) z + L.cell x (y + 1) z +
      L.cell x y (z - 1) + L.cell x y (z + 1)))))) (fl.ofInt (L.cell x y z))

/-- The acceptance rule at the site `(x, y, z)` for the uniform draw `u`: `e > 0`, or
`u < exp(2*e/temperature)`. -/
def Lattice.accepts (fl : FloatOps F D) (L : Lattice F) (x y z : Int) (u : F) : Bool :=
  fl.lt (fl.ofInt 0) (L.site_energy fl x y z) ||
    fl.lt u (L.acceptance_ratio fl (L.site_energy fl x y z))

/-- An instance of the floating point operations on the integers, on which the
definitions can be evaluated: sums, products and comparisons are those of the
integers, the quotient is the integer quotient and `exp` is `fun v => v + 1`. -/
def intOps : FloatOps Int Int :=
  { ofInt := id, add := fun a b => a + b, mul := fun a b => a * b, neg := fun a => -a,
    lt := fun a b => decide (a < b), toDouble := id, ofDouble := id, two := 2,
    dmul := fun a b => a * b, ddiv := fun a b => a / b, dexp := fun v => v + 1 }

/-- The `2 x 2 x 2` lattice with every cell of the buffer `+1`, on `intOps`. -/
def lattice222 : Lattice Int := Lattice.new 2 2 2 (fun _ => 1) 1 1 0

/-- Random devices whose every integer result is `5` and every real result is `0`. -/
def draws5 : Draws Int := { ints := fun _ => 5, floats := fun _ => 0 }

/-- A sequence of calls `metropolis_sweep(n)`, one for each `n` of the list, in order. -/
def Lattice.sweeps (fl : FloatOps F D) (dr : Draws F) :
    List Nat → Lattice F → Option (Lattice F)
  | [], L => some L
  | n :: ns, L => (L.metropolis_sweep fl dr n).bind (Lattice.sweeps fl dr ns)

/-- The value `init_with_randoms` gives to the cell of flat index `i`: the cell
consumes the bit `i mod 32` of the random word number `i div 32` of the call. -/
def Lattice.word_bit (dr : Draws F) (L : Lattice F) (i : Nat) : Int :=
  if and32 (wrap32 (dr.ints (L.ints_used + i / 32))) (wrap32 (2 ^ (i % 32))) ≠ 0 then 1
  else -1

/-- The state `(cur_bit, cur_rand, lattice)` of the loops of `init_with_randoms` on
`L` after the cells of flat index below `n` have been written. -/
def InitInv (dr : Draws F) (L : Lattice F) (n : Nat)
    (st : Option (Int × Int × Lattice F)) : Prop :=
  ∃ cb cr M, st = some (cb, cr, M) ∧ M.size_x = L.size_x ∧ M.size_y = L.size_y ∧
    M.size_z = L.size_z ∧ M.points.length = L.points.length ∧
    M.ints_used = L.ints_used + (n + 31) / 32 ∧
    cb = (if n % 32 = 0 then 0 else wrap32 (2 ^ (n % 32))) ∧
    (n % 32 ≠ 0 → cr = wrap32 (dr.ints (L.ints_used + n / 32))) ∧
    ∀ i : Nat, i < n → M.points[i]? = some (L.word_bit dr i)


/-- The states of the loops of `init_with_randoms` on `L`: the dimensions and the
size of the buffer are those of `L`. -/
def InitDims (L : Lattice F) (st : Option (Int × Int × Lattice F)) : Prop :=
  ∀ cb cr M, st = some (cb, cr, M) → M.size_x = L.size_x ∧ M.size_y = L.size_y ∧
    M.size_z = L.size_z ∧ M.points.length = L.points.length


/-! ## Hart topology (`ThreadCoreScalability.hpp`) -/

/-- The capacity `CPU_SETSIZE` of a `cpu_set_t`. -/
def CPU_SETSIZE : Nat := 1024

/-- The macro `CPU_ZERO`: the empty set of harts. A `cpu_set_t` is the finite set of the hart
indices whose bit is set. -/
def CPU_ZERO : Finset Nat := ∅

/-- The macro `CPU_SET`: sets the bit of `cpu`; a no-op for an index outside the capacity. -/
def CPU_SET (cpu : Nat) (set : Finset Nat) : Finset Nat :=
  if cpu < CPU_SETSIZE then insert cpu set else set

/-- The macro `CPU_ISSET`: whether the bit of `cpu` is set; false outside the capacity. -/
def CPU_ISSET (cpu : Nat) (set : Finset Nat) : Bool :=
  decide (cpu < CPU_SETSIZE) && decide (cpu ∈ set)

/-- The macro `CPU_COUNT`: the number of bits set, an `int`. -/
def CPU_COUNT (set : Finset Nat) : Int := (set.card : Int)

/-- The `struct CpuInfo`. -/
structure CpuInfo where
  online_harts : Finset Nat
  hart_arr_size : Nat
  current_hart : Nat
  assigned_harts : Int
deriving DecidableEq

/-- The update `current_hart = (current_hart + 1) % hart_arr_size` on `unsigned`. -/
def CpuInfo.advance (ci : CpuInfo) : CpuInfo :=
  { ci with current_hart := (ci.current_hart + 1) % 4294967296 % ci.hart_arr_size }

/-- The loop of `assign_hardware_thread`, with `left` iterations left
(`hart_arr_size - passed_harts`); returns the structure and `assigned_hart`. -/
def assign_scan : Nat → CpuInfo → CpuInfo × Finset Nat
  | 0, ci => (ci, CPU_ZERO)
  | left + 1, ci =>
    if CPU_ISSET ci.current_hart ci.online_harts then
      ({ ci with assigned_harts := wrap32 (ci.assigned_harts + 1) }.advance,
        CPU_SET ci.current_hart CPU_ZERO)
    else assign_scan left ci.advance

/-- The function `assign_hardware_thread`, for a non-null `cpu_info`. -/
def assign_hardware_thread (ci : CpuInfo) : CpuInfo × Finset Nat :=
  assign_scan ci.hart_arr_size ci

/-- The structure after `k` successive calls of `assign_hardware_thread` (the loop of
`main` that starts the workers), and the masks the calls returned, in order. -/
def assign_calls : Nat → CpuInfo → CpuInfo × List (Finset Nat)
  | 0, ci => (ci, [])
  | k + 1, ci =>
    ((assign_hardware_thread (assign_calls k ci).1).1,
      (assign_calls k ci).2 ++ [(assign_hardware_thread (assign_calls k ci).1).2])

/-- The results of the `pthread` calls that set up and create the parasite thread
for a hart: `true` is success (return value `0`). -/
structure Pthreads where
  attr_init : Nat → Bool
  attr_setaffinity_np : Nat → Bool
  attr_setdetachstate : Nat → Bool
  create : Nat → Bool

/-- The loop of `fill_with_parasite_threads`, with fuel. The state is the structure,
`parasites_spawned` and the affinity masks of the threads created so far; `none` is
`exit(EXIT_FAILURE)`. -/
def parasite_loop (pt : Pthreads) :
    Nat → CpuInfo → Int → List (Finset Nat) → Option (CpuInfo × Int × List (Finset Nat))
  | 0, ci, spawned, threads => some (ci, spawned, threads)
  | fuel + 1, ci, spawned, threads =>
    if wrap32 (ci.assigned_harts + spawned) < CPU_COUNT ci.online_harts ∧
        ci.current_hart < ci.hart_arr_size then
      if ¬ CPU_ISSET ci.current_hart ci.online_harts then
        parasite_loop pt fuel
          { ci with current_hart := (ci.current_hart + 1) % 4294967296 } spawned threads
      else if ¬ pt.attr_init ci.current_hart then none
      else if ¬ pt.attr_setaffinity_np ci.current_hart then none
      else if ¬ pt.attr_setdetachstate ci.current_hart then none
      else if ¬ pt.create ci.current_hart then none
      else
        parasite_loop pt fuel
          { ci with current_hart := (ci.current_hart + 1) % 4294967296 }
          (wrap32 (spawned + 1)) (threads ++ [CPU_SET ci.current_hart CPU_ZERO])
    else some (ci, spawned, threads)

/-- The function `fill_with_parasite_threads`, for a non-null `cpu_info`: the structure after the
call and the affinity masks of the parasite threads it created, in order; `none` is
`exit(EXIT_FAILURE)`. The loop runs at most `hart_arr_size - current_hart` times. -/
def fill_with_parasite_threads (pt : Pthreads) (ci : CpuInfo) :
    Option (CpuInfo × List (Finset Nat)) :=
  if ci.assigned_harts > CPU_COUNT ci.online_harts then some (ci, [])
  else
    (parasite_loop pt (ci.hart_arr_size - ci.current_hart + 1) ci 0 []).map
      (fun r => ({ r.1 with assigned_harts := wrap32 (r.1.assigned_harts + r.2.1),
                            current_hart := 0 }, r.2.2))

/-- Thread setup that always succeeds. -/
def pthreads_ok : Pthreads :=
  { attr_init := fun _ => true, attr_setaffinity_np := fun _ => true,
    attr_setdetachstate := fun _ => true, create := fun _ => true }

/-- The online harts below `hart_arr_size`, in ascending order. -/
def CpuInfo.online_list (ci : CpuInfo) : List Nat :=
  (List.range ci.hart_arr_size).filter (fun h => CPU_ISSET h ci.online_harts)

/-- A topology whose online harts are all below `hart_arr_size`; the set is a
`cpu_set_t` (indices below `CPU_SETSIZE`) and `hart_arr_size` is an `unsigned`. -/
structure CpuInfo.WF (ci : CpuInfo) : Prop where
  online_lt : ∀ h ∈ ci.online_harts, h < ci.hart_arr_size
  online_cap : ∀ h ∈ ci.online_harts, h < CPU_SETSIZE
  size_lt : ci.hart_arr_size < 4294967296

/-- The number of online harts below `h`. -/
def CpuInfo.below (ci : CpuInfo) (h : Nat) : Nat :=
  ((List.range h).filter (fun x => CPU_ISSET x ci.online_harts)).length

/-- The topology of four harts `0 .. 3`, all online, with a fresh cursor. -/
def topology4 : CpuInfo := ⟨{0, 1, 2, 3}, 4, 0, 0⟩

/-- A topology with gaps: harts `0, 1, 3, 6` online of eight, with a fresh cursor. -/
def topology_gaps : CpuInfo := ⟨{0, 1, 3, 6}, 8, 0, 0⟩

/-- The online harts from `a` up to `hart_arr_size - 1`, in ascending order. -/
def CpuInfo.online_from (ci : CpuInfo) (a : Nat) : List Nat :=
  (List.range' a (ci.hart_arr_size - a)).filter (fun h => CPU_ISSET h ci.online_harts)

/-! ## Topology discovery (`online_hardware_threads`) -/

/-- The bound `LONG_MAX` of a 64-bit `long`. -/
def LONG_MAX : Int := 9223372036854775807

/-- The C library predicate `isspace` in the "C" locale. -/
def isspace (c : Char) : Bool :=
  c.toNat = 32 || (9 ≤ c.toNat && c.toNat ≤ 13)

/-- The C library function `strtol(s, &end_ptr, 10)` on the characters `s` that
follow the pointer: the `long` it returns and the number of characters `end_ptr` lies
behind the pointer (zero when no digits are found). White space is skipped, one sign
is accepted, and a value outside the range of `long` is clamped. -/
def strtol (s : List Char) : Int × Nat :=
  let spaces := (s.takeWhile isspace).length
  let s1 := s.drop spaces
  let negative := s1.head? = some '-'
  let sign := if s1.head? = some '-' ∨ s1.head? = some '+' then 1 else 0
  let digits := (s1.drop sign).takeWhile Char.isDigit
  if digits = [] then (0, 0)
  else
    let value : Int := digits.foldl (fun acc c => 10 * acc + ((c.toNat : Int) - 48)) 0
    (if negative then max (-value) (-LONG_MAX - 1) else min value LONG_MAX,
      spaces + sign + digits.length)

/-- The result of `online_hardware_threads`: the structure it returns,
`exit(EXIT_FAILURE)`, or no return at all (the loop over a range of harts cannot end
when the upper bound is `INT_MAX`). -/
inductive Discovery where
  | topology (ci : CpuInfo)
  | exit_failure
  | diverges
deriving DecidableEq

/-- The loop `for (int hart = hart_id_1; hart <= hart_id_2; ++hart) CPU_SET(hart, ..)`
for `0 ≤ hart_id_1` and `hart_id_2 < INT_MAX`. -/
def set_harts (hart_id_1 hart_id_2 : Int) (set : Finset Nat) : Finset Nat :=
  (List.range' hart_id_1.toNat (hart_id_2 + 1 - hart_id_1).toNat).foldl
    (fun s hart => CPU_SET hart s) set

/-- The parsing loop of `online_hardware_threads` over the memory `mem` that starts
at `online_hart_buf`, of which the first `len` bytes were read; `cur` is the offset
of `cur_char`. A byte outside `mem` reads as `0`. Every iteration advances `cur_char`,
so `len + 1` iterations of fuel suffice. -/
def parse_loop (mem : List Char) (len : Nat) : Nat → Nat → CpuInfo → Discovery
  | 0, _, ci => Discovery.topology ci
  | fuel + 1, cur, ci =>
    if cur < len ∧ mem.getD cur (Char.ofNat 0) ≠ Char.ofNat 0 then
      let hart_id_1 := wrap32 (strtol (mem.drop cur)).1
      if (strtol (mem.drop cur)).2 = 0 ∨ hart_id_1 < 0 then Discovery.exit_failure
      else
        let cur1 := cur + (strtol (mem.drop cur)).2
        if mem.getD cur1 (Char.ofNat 0) = '-' then
          let cur2 := cur1 + 1
          let hart_id_2 := wrap32 (strtol (mem.drop cur2)).1
          if (strtol (mem.drop cur2)).2 = 0 ∨ hart_id_2 < 0 then Discovery.exit_failure
          else if hart_id_2 = 2147483647 ∧ hart_id_1 ≤ hart_id_2 then Discovery.diverges
          else
            let cur3 := cur2 + (strtol (mem.drop cur2)).2
            parse_loop mem len fuel (cur3 + 1)
              { ci with online_harts := set_harts hart_id_1 hart_id_2 ci.online_harts,
                        hart_arr_size := (wrap32 (hart_id_2 + 1) % 4294967296).toNat }
        else if mem.getD cur1 (Char.ofNat 0) = ',' ∨
            mem.getD cur1 (Char.ofNat 0) = Char.ofNat 0 then
          let cur2 := cur1 + 1
          parse_loop mem len fuel (cur2 + 1)
            { ci with online_harts := CPU_SET hart_id_1.toNat ci.online_harts,
                      hart_arr_size := (wrap32 (hart_id_1 + 1) % 4294967296).toNat }
        else parse_loop mem len fuel (cur1 + 1) ci
    else Discovery.topology ci

/-- The file `/sys/devices/system/cpu/online` as `online_hardware_threads` sees it:
whether `open` succeeds, the bytes one `read` delivers (`none` when `read` fails) and
the content of the memory behind the bytes read, which the function does not
initialise. -/
structure OnlineFile where
  open_ok : Bool
  content : Option (List Char)
  rest : List Char

/-- The function `online_hardware_threads`. -/
def online_hardware_threads (f : OnlineFile) : Discovery :=
  if ¬ f.open_ok then Discovery.exit_failure
  else
    match f.content with
    | none => Discovery.exit_failure
    | some content =>
      let online_harts_buf_len := (content.take 256).length
      if online_harts_buf_len = 256 then Discovery.exit_failure
      else
        parse_loop (content.take 256 ++ f.rest) online_harts_buf_len
          (online_harts_buf_len + 1) 0
          { online_harts := CPU_ZERO, hart_arr_size := 0, current_hart := 0,
            assigned_harts := 0 }

/-- The file whose one `read` delivers the characters `text`, followed in memory by
`rest`. -/
def online_file (text : List Char) (rest : List Char) : OnlineFile :=
  { open_ok := true, content := some text, rest := rest }

/-- The line feed that ends the file `/sys/devices/system/cpu/online`. -/
def line_feed : Char := Char.ofNat 10

/-- The online harts, in ascending order, and `hart_arr_size` of a returned topology. -/
def Discovery.harts : Discovery → Option (List Nat × Nat)
  | Discovery.topology ci =>
    some ((List.range CPU_SETSIZE).filter (fun h => CPU_ISSET h ci.online_harts),
      ci.hart_arr_size)
  | _ => none

/-! ## The worker loop (`compute_ising_model_sample`) -/

/-- The members of `ComputationParams` that decide which samples a worker computes.
`temps` and `fields` are the successive values of `temp_cur` and of `field_cur` for
which the bodies of the two outer loops run (the same in every worker). -/
structure ComputationParams (F : Type) where
  temps : List F
  fields : List F
  samples_per_point : Nat
  num_threads : Int

/-- What a worker stores in one cell of `samples_to_save`: `temp_cur`, `field_cur`, or
the magnetization `magnetic_moment * calculate_average_spin()` of the lattice it has
run at `(temp_cur, field_cur)`; the value of the latter is not modelled. -/
inductive Stored (F : Type) where
  | temperature (temp_cur : F)
  | field (field_cur : F)
  | magnetization (temp_cur field_cur : F)

/-- One iteration of the innermost loop of `compute_ising_model_sample`. The state is
`total_sample` and the stores into `samples_to_save` done so far (offset and value),
in order. The lattice computation between the test and the three stores does not
change `total_sample` and is left out. -/
def sample_step (p : ComputationParams F) (thread_index : Int) (temp_cur field_cur : F)
    (st : Int × List (Int × Stored F)) (_sample : Nat) : Int × List (Int × Stored F) :=
  if Int.tmod st.1 p.num_threads ≠ thread_index then (wrap32 (st.1 + 1), st.2)
  else
    (wrap32 (st.1 + 1),
      st.2 ++ [(wrap32 (wrap32 (3 * st.1) + 0), Stored.temperature temp_cur),
        (wrap32 (wrap32 (3 * st.1) + 1), Stored.field field_cur),
        (wrap32 (wrap32 (3 * st.1) + 2), Stored.magnetization temp_cur field_cur)])

/-- The loops of `compute_ising_model_sample` for the worker `thread_index`: the
stores into `samples_to_save` it does, in order. -/
def compute_ising_model_sample (p : ComputationParams F) (thread_index : Int) :
    List (Int × Stored F) :=
  (p.temps.foldl (fun st temp_cur =>
    p.fields.foldl (fun st field_cur =>
      (List.range p.samples_per_point).foldl
        (sample_step p thread_index temp_cur field_cur) st) st)
    ((0 : Int), ([] : List (Int × Stored F)))).2

/-- The sample space in the order of the sample indices: temperature-major, then
field, then replicate; each sample with its temperature and field. -/
def ComputationParams.samples (p : ComputationParams F) : List (F × F) :=
  p.temps.flatMap (fun temp => p.fields.flatMap (fun fld =>
    List.replicate p.samples_per_point (temp, fld)))

/-- The number of samples of the sample space. -/
def ComputationParams.num_samples (p : ComputationParams F) : Nat :=
  p.temps.length * p.fields.length * p.samples_per_point

/-- The output triple of the sample of index `i`, temperature `s.1` and field `s.2`:
the cells `3*i`, `3*i+1`, `3*i+2` of `samples_to_save`. -/
def triple (i : Nat) (s : F × F) : List (Int × Stored F) :=
  [(3 * (i : Int), Stored.temperature s.1), (3 * (i : Int) + 1, Stored.field s.2),
    (3 * (i : Int) + 2, Stored.magnetization s.1 s.2)]

/-- The output triples of those samples of the list `l`, whose sample indices start at
`start`, that belong to the worker `t`: the samples of index `i` with
`i mod num_threads = t`. -/
def owned_writes (num_threads t : Int) (start : Nat) (l : List (F × F)) :
    List (Int × Stored F) :=
  ((l.enumFrom start).filter (fun e => decide ((e.1 : Int) % num_threads = t))).flatMap
    (fun e => triple e.1 e.2)

/-- Three workers and a sample space of seven samples (one temperature, one field
value, seven replicates). -/
def partition_3_7 : ComputationParams Unit :=
  { temps := [()], fields := [()], samples_per_point := 7, num_threads := 3 }

/-- One worker and a sample space of `715827883` samples (one temperature, one field
value): the least number of samples for which `3*n` exceeds `2^31`. -/
def partition_overflow : ComputationParams Unit :=
  { temps := [()], fields := [()], samples_per_point := 715827883, num_threads := 1 }

/-! ## Cell accesses of an update attempt -/

/-- The arguments of the seven calls of `get` in one iteration of `metropolis_sweep`
whose random number is `draw`: the site, then its neighbours `spin_l`, `spin_r`,
`spin_u`, `spin_d`, `spin_t` and `spin_b`. -/
def Lattice.accesses (L : Lattice F) (draw : Int) : List (Int × Int × Int) :=
  let altered_x := (L.altered draw).1
  let altered_y := (L.altered draw).2.1
  let altered_z := (L.altered draw).2.2
  [(altered_x, altered_y, altered_z),
   (wrap32 (altered_x - 1), altered_y, altered_z),
   (wrap32 (altered_x + 1), altered_y, altered_z),
   (altered_x, wrap32 (altered_y - 1), altered_z),
   (altered_x, wrap32 (altered_y + 1), altered_z),
   (altered_x, altered_y, wrap32 (altered_z - 1)),
   (altered_x, altered_y, wrap32 (altered_z + 1))]

/-- The lattice of dimensions `65536 x 65536 x 1` as the constructor builds it: the
cell count `2^32` is not an `int`. -/
def lattice_wide : Lattice Int := Lattice.new 65536 65536 1 (fun _ => 1) 1 1 0

/-! ## Failing thread setup -/

/-- Whether the four pthread calls of the loop body of `fill_with_parasite_threads`
(`pthread_attr_init`, `pthread_attr_setaffinity_np`, `pthread_attr_setdetachstate`,
`pthread_create`) all return `0` for the hart `hart`. -/
def Pthreads.ok (pt : Pthreads) (hart : Nat) : Bool :=
  pt.attr_init hart && pt.attr_setaffinity_np hart && pt.attr_setdetachstate hart &&
    pt.create hart

/-- The pthread library in which the call number `call` of the loop body (`0` for
`pthread_attr_init`, `1` for `pthread_attr_setaffinity_np`, `2` for
`pthread_attr_setdetachstate`, `3` for `pthread_create`) fails for the hart `hart`,
and every other call succeeds. -/
def pthreads_failing (call hart : Nat) : Pthreads :=
  { attr_init := fun h => decide (¬ (call = 0 ∧ h = hart)),
    attr_setaffinity_np := fun h => decide (¬ (call = 1 ∧ h = hart)),
    attr_setdetachstate := fun h => decide (¬ (call = 2 ∧ h = hart)),
    create := fun h => decide (¬ (call = 3 ∧ h = hart)) }

/-! ## Returned topologies -/

/-- The affinity masks the first `k` calls of `assign_hardware_thread` return on a
returned topology. -/
def Discovery.assigned (k : Nat) : Discovery → Option (List (Finset Nat))
  | Discovery.topology ci => some (assign_calls k ci).2
  | _ => none

/-! ## The program (`main`) -/

/-- How a run of `main` ends: `return EXIT_SUCCESS`, `exit(EXIT_FAILURE)`, or not at
all. -/
inductive Exit where
  | success
  | failure
  | no_return
deriving DecidableEq

/-- What `main` does that the claims speak of, in the order of the source: the three
successful `calloc` calls (with their first argument), the worker threads started
(index and affinity mask), the parasite threads created (affinity mask), the worker
threads joined, and the writing of the log (with the number of threads it prints). -/
inductive Action where
  | calloc_samples (cells : Nat)
  | calloc_thread_params (n : Int)
  | calloc_thread_table (n : Int)
  | worker (thr : Nat) (harts : Finset Nat)
  | parasite (harts : Finset Nat)
  | join (thr : Nat)
  | log (num_threads : Int)
deriving DecidableEq

/-- What `main` gets from outside: the structure `parse_config_file` returns (`none`
when the configuration file cannot be opened, in which case it exits), the topology
file, whether each of the three `calloc` calls returns memory, the results of the
pthread calls for the worker of each index and for the parasite of each hart, whether
`pthread_join` succeeds for each worker, and whether the log file can be opened. -/
structure Environment (F : Type) where
  config : Option (ComputationParams F)
  online : OnlineFile
  calloc_samples : Bool
  calloc_thread_params : Bool
  calloc_thread_table : Bool
  worker_threads : Pthreads
  parasite_threads : Pthreads
  join : Nat → Bool
  log_file : Bool

/-- The function `create_anchored_thread` for the worker of index `thr`, with non-null
arguments: `true` when it returns, `false` when it calls `exit(EXIT_FAILURE)`. -/
def create_anchored_thread (pt : Pthreads) (thr : Nat) : Bool :=
  if ¬ pt.attr_init thr then false
  else if ¬ pt.attr_setaffinity_np thr then false
  else if ¬ pt.create thr then false
  else true

/-- The loop of `main` that starts the workers, with `left` iterations left
(`num_threads - thr`): the structure after the loop (`none` when
`create_anchored_thread` exits) and the workers started. -/
def start_workers (pt : Pthreads) : Nat → Nat → CpuInfo → Option CpuInfo × List Action
  | 0, _, online_harts => (some online_harts, [])
  | left + 1, thr, online_harts =>
    let availible_harts := (assign_hardware_thread online_harts).2
    if create_anchored_thread pt thr then
      let rest := start_workers pt left (thr + 1) (assign_hardware_thread online_harts).1
      (rest.1, Action.worker thr availible_harts :: rest.2)
    else (none, [])

/-- The loop of `main` that joins the workers, with `left` iterations left: whether
every `pthread_join` succeeded (`false` is `exit(EXIT_FAILURE)`) and the workers
joined. -/
def join_workers (join : Nat → Bool) : Nat → Nat → Bool × List Action
  | 0, _ => (true, [])
  | left + 1, thr =>
    if join thr then
      let rest := join_workers join left (thr + 1)
      (rest.1, Action.join thr :: rest.2)
    else (false, [])

/-- The function `main` from the call of `parse_config_file` on, for the value
`num_threads` of the first argument. The computations of the worker threads (which
run concurrently and write the samples) and the time measurements are not part of
the result; when `fill_with_parasite_threads` exits, the parasite threads it had
created are not listed. -/
def main_body (env : Environment F) (num_threads : Int) : List Action × Exit :=
  match env.config with
  | none => ([], Exit.failure)
  | some comp_info =>
    match online_hardware_threads env.online with
    | Discovery.exit_failure => ([], Exit.failure)
    | Discovery.diverges => ([], Exit.no_return)
    | Discovery.topology online_harts =>
      let num_samples := comp_info.num_samples % 4294967296
      if ¬ env.calloc_samples then ([], Exit.failure)
      else
        let a1 := [Action.calloc_samples (3 * num_samples % 4294967296)]
        if ¬ env.calloc_thread_params then (a1, Exit.failure)
        else
          let a2 := a1 ++ [Action.calloc_thread_params num_threads]
          if ¬ env.calloc_thread_table then (a2, Exit.failure)
          else
            let a3 := a2 ++ [Action.calloc_thread_table num_threads]
            let started := start_workers env.worker_threads num_threads.toNat 0 online_harts
            match started.1 with
            | none => (a3 ++ started.2, Exit.failure)
            | some online_harts =>
              let a4 := a3 ++ started.2
              match fill_with_parasite_threads env.parasite_threads online_harts with
              | none => (a4, Exit.failure)
              | some filled =>
                let a5 := a4 ++ filled.2.map Action.parasite
                let joined := join_workers env.join num_threads.toNat 0
                if ¬ joined.1 then (a5 ++ joined.2, Exit.failure)
                else if ¬ env.log_file then (a5 ++ joined.2, Exit.failure)
                else (a5 ++ joined.2 ++ [Action.log num_threads], Exit.success)

/-- The function `main` for the arguments `argv` (the program name first; each
argument without its final zero byte): what it does and how it ends. -/
def main (env : Environment F) (argv : List (List Char)) : List Action × Exit :=
  if argv.length ≠ 5 then ([], Exit.failure)
  else
    let arg := argv.getD 1 []
    let num_threads := wrap32 (strtol arg).1
    if arg.getD 0 (Char.ofNat 0) = Char.ofNat 0 ∨
        arg.getD (strtol arg).2 (Char.ofNat 0) ≠ Char.ofNat 0 ∨ num_threads < 0 then
      ([], Exit.failure)
    else main_body env num_threads

/-- The value of a list of decimal digits. -/
def decimal (digits : List Char) : Int :=
  digits.foldl (fun acc c => 10 * acc + ((c.toNat : Int) - 48)) 0

/-- An environment in which every call succeeds: seven samples, the topology file
`0-3` with its line feed. -/
def environment_ok : Environment Unit :=
  { config := some partition_3_7,
    online := online_file (("0-3").toList ++ [line_feed]) [],
    calloc_samples := true, calloc_thread_params := true, calloc_thread_table := true,
    worker_threads := pthreads_ok, parasite_threads := pthreads_ok,
    join := fun _ => true, log_file := true }

/-- The command line `model <count> config.txt out.npy log.txt`. -/
def command_line (count : String) : List (List Char) :=
  [("model").toList, count.toList, ("config.txt").toList, ("out.npy").toList,
    ("log.txt").toList]

/-! ## Lattices outside the `int` range -/

/-- The lattice of dimensions `1291 x 1291 x 1291` as the constructor builds it, every
cell of the buffer `+1`: the cell count `2151685171` is not an `int`; the buffer has
`2151685171 + 128` cells. -/
def lattice_1291 : Lattice Int := Lattice.new 1291 1291 1291 (fun _ => 1) 1 1 0

/-- The lattice of dimensions `(2^30 + 1) x 1 x 1` as the constructor builds it, every
cell of the buffer `+1`. -/
def lattice_long : Lattice Int := Lattice.new 1073741825 1 1 (fun _ => 1) 1 1 0

/-- Random devices whose every integer result is `r` and every real result is `0`. -/
def draws_const (r : Int) : Draws Int := { ints := fun _ => r, floats := fun _ => 0 }

/-! ## The bits of a random word -/

/-- The value `(cur_rand & cur_bit) ? 1 : -1` that `init_with_randoms` gives to a cell
that consumes the bit `k` (`cur_bit = 1 << k`) of the drawn word `w`. -/
def cell_of_word (w : Int) (k : Nat) : Int :=
  if and32 (wrap32 w) (wrap32 (2 ^ k)) ≠ 0 then 1 else -1

/-- The number below `2^m` whose bits `0 .. m-1` are given by `s`. -/
def pattern (s : Nat → Bool) : Nat → Nat
  | 0 => 0
  | m + 1 => 2 ^ m * (if s m then 1 else 0) + pattern s m

/-- The `1 x 1 x 32` lattice, whose 32 cells consume the 32 bits of one word. -/
def lattice_word : Lattice Int := Lattice.new 1 1 32 (fun _ => 1) 1 1 0

/-! ## Machine integer lemmas -/

theorem wrap32_id {v : Int} (h0 : -2147483648 ≤ v) (h1 : v < 2147483648) : wrap32 v = v := by
  unfold wrap32; omega

theorem wrap32_range (v : Int) : -2147483648 ≤ wrap32 v ∧ wrap32 v < 2147483648 := by
  unfold wrap32; omega

theorem tmod_nonneg_eq {a b : Int} (ha : 0 ≤ a) (hb : 0 < b) : Int.tmod a b = a % b :=
  Int.tmod_eq_emod ha (le_of_lt hb)

/-- The coordinate fix of `get` on one axis, for a coordinate not below `-size`. -/
theorem fixed_coord {c size : Int} (hs : 0 < size) (h0 : -size ≤ c)
    (h1 : c + size < 2147483648) : Int.tmod (wrap32 (c + size)) size = c % size := by
  rw [wrap32_id (by omega) h1, tmod_nonneg_eq (by omega) hs]
  exact Int.add_emod_self

theorem tmod_bounds (a : Int) {b : Int} (hb : 0 < b) : -b < a.tmod b ∧ a.tmod b < b := by
  refine ⟨?_, Int.tmod_lt_of_pos a hb⟩
  obtain ⟨k, rfl⟩ := Int.eq_ofNat_of_zero_le (le_of_lt hb)
  cases a with
  | ofNat m =>
    have : 0 ≤ Int.tmod (Int.ofNat m) (k : Int) := Int.tmod_nonneg _ (Int.ofNat_nonneg m)
    omega
  | negSucc m =>
    have hk : 0 < k := by exact_mod_cast hb
    have h1 : Int.tmod (Int.negSucc m) (k : Int) = -Int.ofNat (Nat.succ m % k) := rfl
    have h2 : Nat.succ m % k < k := Nat.mod_lt _ hk
    rw [h1]
    simp only [Int.ofNat_eq_coe]
    omega

/-- The coordinate fix of `get` on one axis, for a coordinate between `-size` and
`size` and a dimension of at most `2^30`. -/
theorem fixed_coord_eq {c size : Int} (hs : 0 < size) (hs2 : size ≤ 1073741824)
    (h0 : -size ≤ c) (h1 : c ≤ size) : Int.tmod (wrap32 (c + size)) size = c % size := by
  by_cases h : c + size < 2147483648
  · exact fixed_coord hs h0 h
  · have hc : c = 1073741824 := by omega
    have hsz : size = 1073741824 := by omega
    subst hc hsz
    decide

theorem fixed_coord_range {c size : Int} (hs : 0 < size) (hs2 : size ≤ 1073741824)
    (h0 : -size ≤ c) (h1 : c ≤ size) :
    0 ≤ Int.tmod (wrap32 (c + size)) size ∧ Int.tmod (wrap32 (c + size)) size < size := by
  rw [fixed_coord_eq hs hs2 h0 h1]
  exact ⟨Int.emod_nonneg _ (by omega), Int.emod_lt_of_pos _ hs⟩

/-! ## Addressing lemmas -/

theorem WF.sized {L : Lattice F} (h : L.WF) : L.Sized :=
  ⟨h.pos_x, h.pos_y, h.pos_z, h.fits, h.len⟩

theorem flat_eq_sized (L : Lattice F) (h : L.Sized) {a b c : Int} (ha : 0 ≤ a)
    (ha1 : a < L.size_x)
    (hb : 0 ≤ b) (hb1 : b < L.size_y) (hc : 0 ≤ c) (hc1 : c < L.size_z) :
    L.flat a b c = (a * L.size_y + b) * L.size_z + c ∧
    0 ≤ (a * L.size_y + b) * L.size_z + c ∧
    (a * L.size_y + b) * L.size_z + c < L.volume := by
  have hx := h.pos_x
  have hy := h.pos_y
  have hz := h.pos_z
  have hf := h.fits
  have e1 : 0 ≤ a * L.size_y := by positivity
  have e2 : a * L.size_y + b + 1 ≤ L.size_x * L.size_y := by nlinarith
  have e3 : 0 ≤ (a * L.size_y + b) * L.size_z := by positivity
  have e4 : (a * L.size_y + b) * L.size_z + L.size_z ≤ L.size_x * L.size_y * L.size_z := by
    nlinarith
  have e5 : L.size_x * L.size_y ≤ L.size_x * L.size_y * L.size_z := by
    have : 0 < L.size_x * L.size_y := by positivity
    nlinarith
  refine ⟨?_, by omega, by simp only [Lattice.volume]; omega⟩
  have w1 : wrap32 (a * L.size_y) = a * L.size_y := wrap32_id (by omega) (by omega)
  have w2 : wrap32 (a * L.size_y + b) = a * L.size_y + b := wrap32_id (by omega) (by omega)
  have w3 : wrap32 ((a * L.size_y + b) * L.size_z) = (a * L.size_y + b) * L.size_z :=
    wrap32_id (by omega) (by omega)
  have w4 : wrap32 ((a * L.size_y + b) * L.size_z + c) = (a * L.size_y + b) * L.size_z + c :=
    wrap32_id (by omega) (by omega)
  simp only [Lattice.flat, w1, w2, w3, w4]

theorem flat_eq (L : Lattice F) (h : L.WF) {a b c : Int} (ha : 0 ≤ a) (ha1 : a < L.size_x)
    (hb : 0 ≤ b) (hb1 : b < L.size_y) (hc : 0 ≤ c) (hc1 : c < L.size_z) :
    L.flat a b c = (a * L.size_y + b) * L.size_z + c ∧
    0 ≤ (a * L.size_y + b) * L.size_z + c ∧
    (a * L.size_y + b) * L.size_z + c < L.volume :=
  flat_eq_sized L (WF.sized h) ha ha1 hb hb1 hc hc1

theorem volume_lt_length_sized (L : Lattice F) (h : L.Sized) :
    L.volume < (L.points.length : Int) := by
  have := h.len
  simp only [CACHE_LINE_SIZE] at this
  simp only [Lattice.volume]
  omega

theorem Sized_of_step {L L1 : Lattice F} (h : L.Sized) (ex : L1.size_x = L.size_x)
    (ey : L1.size_y = L.size_y) (ez : L1.size_z = L.size_z)
    (el : L1.points.length = L.points.length) : L1.Sized :=
  ⟨ex ▸ h.pos_x, ey ▸ h.pos_y, ez ▸ h.pos_z, by rw [ex, ey, ez]; exact h.fits,
    by rw [ex, ey, ez, el]; exact h.len⟩

/-- The offset `get` yields for coordinates between `-size` and `size`: the flat
index of the coordinates reduced modulo the dimensions, inside the lattice. -/
theorem get_eq (L : Lattice F) (h : L.WF) {x y z : Int}
    (hx0 : -L.size_x ≤ x) (hx1 : x ≤ L.size_x) (hy0 : -L.size_y ≤ y) (hy1 : y ≤ L.size_y)
    (hz0 : -L.size_z ≤ z) (hz1 : z ≤ L.size_z) :
    L.get x y z = ((x % L.size_x) * L.size_y + y % L.size_y) * L.size_z + z % L.size_z ∧
    0 ≤ L.get x y z ∧ L.get x y z < L.volume := by
  have ex := fixed_coord_eq h.pos_x h.le_x hx0 hx1
  have ey := fixed_coord_eq h.pos_y h.le_y hy0 hy1
  have ez := fixed_coord_eq h.pos_z h.le_z hz0 hz1
  have f := flat_eq L h (Int.emod_nonneg x (ne_of_gt h.pos_x)) (Int.emod_lt_of_pos x h.pos_x)
    (Int.emod_nonneg y (ne_of_gt h.pos_y)) (Int.emod_lt_of_pos y h.pos_y)
    (Int.emod_nonneg z (ne_of_gt h.pos_z)) (Int.emod_lt_of_pos z h.pos_z)
  simp only [Lattice.get, ex, ey, ez]
  exact ⟨f.1, f.1 ▸ f.2.1, f.1 ▸ f.2.2⟩

theorem volume_lt_length (L : Lattice F) (h : L.WF) : L.volume < (L.points.length : Int) := by
  have := h.len
  simp only [CACHE_LINE_SIZE] at this
  simp only [Lattice.volume]
  omega

/-- Reading the reference `get` returns, for coordinates between `-size` and `size`,
yields the periodic cell. -/
theorem load_get (L : Lattice F) (h : L.WF) {x y z : Int}
    (hx0 : -L.size_x ≤ x) (hx1 : x ≤ L.size_x) (hy0 : -L.size_y ≤ y) (hy1 : y ≤ L.size_y)
    (hz0 : -L.size_z ≤ z) (hz1 : z ≤ L.size_z) :
    L.load (L.get x y z) = some (L.cell x y z) := by
  obtain ⟨e, g0, g1⟩ := get_eq L h hx0 hx1 hy0 hy1 hz0 hz1
  have hl := volume_lt_length L h
  have hlt : (L.get x y z).toNat < L.points.length := by omega
  unfold Lattice.load
  rw [if_pos ⟨g0, by omega⟩, List.getElem?_eq_getElem hlt]
  simp only [Lattice.cell, ← e, List.getD_eq_getElem?_getD, List.getElem?_eq_getElem hlt,
    Option.getD_some]

theorem store_get (L : Lattice F) (h : L.WF) {x y z : Int} (v : Int)
    (hx0 : -L.size_x ≤ x) (hx1 : x ≤ L.size_x) (hy0 : -L.size_y ≤ y) (hy1 : y ≤ L.size_y)
    (hz0 : -L.size_z ≤ z) (hz1 : z ≤ L.size_z) :
    L.store (L.get x y z) v =
      some { L with points := L.points.set (L.get x y z).toNat v } := by
  obtain ⟨_, g0, g1⟩ := get_eq L h hx0 hx1 hy0 hy1 hz0 hz1
  have hl := volume_lt_length L h
  unfold Lattice.store
  rw [if_pos ⟨g0, by omega⟩]

/-- The coordinates `metropolis_sweep` selects lie strictly between `-size` and
`size` on each axis, whatever the drawn number. -/
theorem altered_range (L : Lattice F) (h : L.WF) (draw : Int) :
    (-L.size_x < (L.altered draw).1 ∧ (L.altered draw).1 < L.size_x) ∧
    (-L.size_y < (L.altered draw).2.1 ∧ (L.altered draw).2.1 < L.size_y) ∧
    (-L.size_z < (L.altered draw).2.2 ∧ (L.altered draw).2.2 < L.size_z) :=
  ⟨tmod_bounds _ h.pos_x, tmod_bounds _ h.pos_y, tmod_bounds _ h.pos_z⟩

/-! ## C2: periodicity of `get` -/

/-- C2 (as stated, refuted): on the lattice of dimensions `3 x 1 x 1`, the coordinate
`1 + (-2)*3 = -5` does not address the cell of coordinate `1`: `get` yields the
offset `-2`, outside the buffer. Nor does the coordinate `0 + 715827882*3`, for which
the sum with the dimension is not an `int`, address the cell of coordinate `0`; and
for the dimension `2^30 + 1` the coordinate `2^30 + (-1)*(2^30 + 1)` does not address
the cell of coordinate `2^30`. -/
theorem get_not_periodic_below_minus_size :
    (Lattice.new 3 1 1 (fun _ => 1) () () ()).get (1 + (-2) * 3) 0 0 ≠
      (Lattice.new 3 1 1 (fun _ => 1) () () ()).get 1 0 0 ∧
    (Lattice.new 3 1 1 (fun _ => 1) () () ()).get (1 + (-2) * 3) 0 0 = -2 ∧
    (Lattice.new 3 1 1 (fun _ => 1) () () ()).get (0 + 715827882 * 3) 0 0 ≠
      (Lattice.new 3 1 1 (fun _ => 1) () () ()).get 0 0 0 ∧
    (Lattice.new 1073741825 1 1 (fun _ => 1) () () ()).get
        (1073741824 + (-1) * 1073741825) 0 0 ≠
      (Lattice.new 1073741825 1 1 (fun _ => 1) () () ()).get 1073741824 0 0 := by
  decide

/-- C2 (amended): for positive dimensions of at most `2^30`, an in-range `(x, y, z)`
and every `k ≥ -1`, on each of the three axes on which the shifted coordinate plus
the dimension is below `2^31` (whatever holds on the other two), `get` addresses
the same cell at the coordinate shifted by `k` periods as at the coordinate itself;
in particular the coordinate `-1` addresses the cell of `size - 1`. -/
theorem get_periodic (L : Lattice F) (x y z k : Int)
    (hx : 0 < L.size_x) (hy : 0 < L.size_y) (hz : 0 < L.size_z)
    (hx2 : L.size_x ≤ 1073741824) (hy2 : L.size_y ≤ 1073741824)
    (hz2 : L.size_z ≤ 1073741824)
    (hx0 : 0 ≤ x) (hx1 : x < L.size_x) (hy0 : 0 ≤ y) (hy1 : y < L.size_y)
    (hz0 : 0 ≤ z) (hz1 : z < L.size_z) (hk : -1 ≤ k) :
    (x + k * L.size_x + L.size_x < 2147483648 →
      L.get (x + k * L.size_x) y z = L.get x y z) ∧
    (y + k * L.size_y + L.size_y < 2147483648 →
      L.get x (y + k * L.size_y) z = L.get x y z) ∧
    (z + k * L.size_z + L.size_z < 2147483648 →
      L.get x y (z + k * L.size_z) = L.get x y z) ∧
    L.get (-1) y z = L.get (L.size_x - 1) y z ∧
    L.get x (-1) z = L.get x (L.size_y - 1) z ∧
    L.get x y (-1) = L.get x y (L.size_z - 1) := by
  have key : ∀ (c size : Int), 0 < size → size ≤ 1073741824 → 0 ≤ c → c < size →
      c + k * size + size < 2147483648 →
      Int.tmod (wrap32 (c + k * size + size)) size = Int.tmod (wrap32 (c + size)) size := by
    intro c size hs hs2 h0 h1 h2
    have hks : -size ≤ k * size := by nlinarith
    have : c + size < 2147483648 := by omega
    rw [fixed_coord hs (by omega) h2, fixed_coord hs (by omega) this]
    exact Int.add_mul_emod_self
  have neg1 : ∀ (size : Int), 0 < size → size ≤ 1073741824 →
      Int.tmod (wrap32 (-1 + size)) size = Int.tmod (wrap32 (size - 1 + size)) size := by
    intro size hs h2
    rw [fixed_coord hs (by omega) (by omega), fixed_coord hs (by omega) (by omega)]
    have : size - 1 = -1 + 1 * size := by ring
    rw [this, Int.add_mul_emod_self]
  refine ⟨?_, ?_, ?_, ?_, ?_, ?_⟩
  · intro hxk
    simp only [Lattice.get, key x L.size_x hx hx2 hx0 hx1 hxk]
  · intro hyk
    simp only [Lattice.get, key y L.size_y hy hy2 hy0 hy1 hyk]
  · intro hzk
    simp only [Lattice.get, key z L.size_z hz hz2 hz0 hz1 hzk]
  · simp only [Lattice.get, neg1 L.size_x hx hx2]
  · simp only [Lattice.get, neg1 L.size_y hy hy2]
  · simp only [Lattice.get, neg1 L.size_z hz hz2]

/-- Witness of `get_periodic`: the `3 x 4 x 5` lattice, the cell `(2, 3, 4)`, shifted
by `k = 7` periods; and the `1 x 2^30 x 1` lattice, the cell `(0, 0, 0)`, shifted by
`k = 3` periods on the first axis, where the bound of the second axis fails. -/
theorem get_periodic_witness :
    (Lattice.new 3 4 5 (fun _ => 1) () () ()).get (2 + 7 * 3) 3 4 = 59 ∧
    (Lattice.new 3 4 5 (fun _ => 1) () () ()).get 2 3 4 = 59 ∧
    (Lattice.new 3 4 5 (fun _ => 1) () () ()).get (-1) 3 4 = 59 ∧
    (Lattice.new 1 1073741824 1 (fun _ => 1) () () ()).get (0 + 3 * 1) 0 0 =
      (Lattice.new 1 1073741824 1 (fun _ => 1) () () ()).get 0 0 0 :=
  have h := get_periodic (Lattice.new 3 4 5 (fun _ => 1) () () ()) 2 3 4 7
    (by decide) (by decide) (by decide) (by decide) (by decide) (by decide) (by decide)
    (by decide) (by decide) (by decide) (by decide) (by decide) (by decide)
  have g := get_periodic (Lattice.new 1 1073741824 1 (fun _ => 1) () () ()) 0 0 0 3
    (by decide) (by decide) (by decide) (by decide) (by decide) (by decide) (by decide)
    (by decide) (by decide) (by decide) (by decide) (by decide) (by decide)
  ⟨(h.1 (by decide)).trans (by decide), by decide, h.2.2.2.1.trans (by decide),
    g.1 (by decide)⟩

/-! ## One update attempt -/

theorem WF_with_ints (L : Lattice F) (h : L.WF) (n : Nat) :
    ({ L with ints_used := n } : Lattice F).WF :=
  ⟨h.pos_x, h.pos_y, h.pos_z, h.le_x, h.le_y, h.le_z, h.fits, h.len⟩

/-- What one iteration of `metropolis_sweep` computes on a well-formed lattice. -/
theorem metropolis_step_eq (fl : FloatOps F D) (dr : Draws F) (L : Lattice F) (h : L.WF) :
    L.metropolis_step fl dr =
      some (
        if fl.lt (fl.ofInt 0) (L.site_energy fl (L.altered (dr.ints L.ints_used)).1
            (L.altered (dr.ints L.ints_used)).2.1 (L.altered (dr.ints L.ints_used)).2.2) then
          { L with
            ints_used := L.ints_used + 1
            points := L.points.set
              (L.get (L.altered (dr.ints L.ints_used)).1 (L.altered (dr.ints L.ints_used)).2.1
                (L.altered (dr.ints L.ints_used)).2.2).toNat
              (wrap8 (-L.cell (L.altered (dr.ints L.ints_used)).1
                (L.altered (dr.ints L.ints_used)).2.1 (L.altered (dr.ints L.ints_used)).2.2)) }
        else if fl.lt (dr.floats L.floats_used) (L.acceptance_ratio fl (L.site_energy fl
            (L.altered (dr.ints L.ints_used)).1 (L.altered (dr.ints L.ints_used)).2.1
            (L.altered (dr.ints L.ints_used)).2.2)) then
          { L with
            ints_used := L.ints_used + 1
            floats_used := L.floats_used + 1
            points := L.points.set
              (L.get (L.altered (dr.ints L.ints_used)).1 (L.altered (dr.ints L.ints_used)).2.1
                (L.altered (dr.ints L.ints_used)).2.2).toNat
              (wrap8 (-L.cell (L.altered (dr.ints L.ints_used)).1
                (L.altered (dr.ints L.ints_used)).2.1 (L.altered (dr.ints L.ints_used)).2.2)) }
        else { L with ints_used := L.ints_used + 1, floats_used := L.floats_used + 1 }) := by
  have h1 := WF_with_ints L h (L.ints_used + 1)
  obtain ⟨⟨x0, x1⟩, ⟨y0, y1⟩, ⟨z0, z1⟩⟩ := altered_range L h (dr.ints L.ints_used)
  have bx := h.le_x
  have by1 := h.le_y
  have bz := h.le_z
  generalize hs : L.altered (dr.ints L.ints_used) = s at *
  obtain ⟨ax, ay, az⟩ := s
  simp only at x0 x1 y0 y1 z0 z1
  have wxm : wrap32 (ax - 1) = ax - 1 := wrap32_id (by omega) (by omega)
  have wxp : wrap32 (ax + 1) = ax + 1 := wrap32_id (by omega) (by omega)
  have wym : wrap32 (ay - 1) = ay - 1 := wrap32_id (by omega) (by omega)
  have wyp : wrap32 (ay + 1) = ay + 1 := wrap32_id (by omega) (by omega)
  have wzm : wrap32 (az - 1) = az - 1 := wrap32_id (by omega) (by omega)
  have wzp : wrap32 (az + 1) = az + 1 := wrap32_id (by omega) (by omega)
  have hs1 : ({ L with ints_used := L.ints_used + 1 } : Lattice F).altered
      (dr.ints L.ints_used) = (ax, ay, az) := hs
  have lg : ∀ x y z : Int, -L.size_x ≤ x → x ≤ L.size_x → -L.size_y ≤ y → y ≤ L.size_y →
      -L.size_z ≤ z → z ≤ L.size_z →
      ({ L with ints_used := L.ints_used + 1 } : Lattice F).load
        (({ L with ints_used := L.ints_used + 1 } : Lattice F).get x y z) =
        some (L.cell x y z) := fun x y z a b c d e f => load_get _ h1 a b c d e f
  have sg : ∀ (M : Lattice F) (v : Int), M.size_x = L.size_x → M.size_y = L.size_y →
      M.size_z = L.size_z → M.points = L.points →
      M.store (M.get ax ay az) v =
        some { M with points := L.points.set (L.get ax ay az).toNat v } := by
    intro M v e1 e2 e3 e4
    have hM : M.WF := ⟨e1 ▸ h.pos_x, e2 ▸ h.pos_y, e3 ▸ h.pos_z, e1 ▸ h.le_x, e2 ▸ h.le_y,
      e3 ▸ h.le_z, by rw [e1, e2, e3]; exact h.fits, by rw [e1, e2, e3, e4]; exact h.len⟩
    have := store_get M hM v (x := ax) (y := ay) (z := az) (by omega) (by omega) (by omega)
      (by omega) (by omega) (by omega)
    rw [this]
    simp only [Lattice.get, Lattice.flat, e1, e2, e3, e4]
  unfold Lattice.metropolis_step
  simp only [hs1, wxm, wxp, wym, wyp, wzm, wzp]
  rw [lg ax ay az (by omega) (by omega) (by omega) (by omega) (by omega) (by omega),
    lg (ax - 1) ay az (by omega) (by omega) (by omega) (by omega) (by omega) (by omega),
    lg (ax + 1) ay az (by omega) (by omega) (by omega) (by omega) (by omega) (by omega),
    lg ax (ay - 1) az (by omega) (by omega) (by omega) (by omega) (by omega) (by omega),
    lg ax (ay + 1) az (by omega) (by omega) (by omega) (by omega) (by omega) (by omega),
    lg ax ay (az - 1) (by omega) (by omega) (by omega) (by omega) (by omega) (by omega),
    lg ax ay (az + 1) (by omega) (by omega) (by omega) (by omega) (by omega) (by omega)]
  simp only [Lattice.cur_energy, Lattice.site_energy, Lattice.acceptance_ratio]
  split
  · exact sg _ _ rfl rfl rfl rfl
  · split
    · exact sg _ _ rfl rfl rfl rfl
    · rfl

/-- The members of the lattice after one iteration of `metropolis_sweep`: only
`points` and the counters of the random devices change, and `points` only at the
selected site and only when the acceptance rule holds. -/
theorem metropolis_step_points (fl : FloatOps F D) (dr : Draws F) (L : Lattice F)
    (h : L.WF) :
    ∃ L1, L.metropolis_step fl dr = some L1 ∧
      L1.size_x = L.size_x ∧ L1.size_y = L.size_y ∧ L1.size_z = L.size_z ∧
      L1.interactivity = L.interactivity ∧ L1.temperature = L.temperature ∧
      L1.field = L.field ∧
      L1.points =
        if L.accepts fl (L.altered (dr.ints L.ints_used)).1
            (L.altered (dr.ints L.ints_used)).2.1 (L.altered (dr.ints L.ints_used)).2.2
            (dr.floats L.floats_used) then
          L.points.set
            (L.get (L.altered (dr.ints L.ints_used)).1 (L.altered (dr.ints L.ints_used)).2.1
              (L.altered (dr.ints L.ints_used)).2.2).toNat
            (wrap8 (-L.cell (L.altered (dr.ints L.ints_used)).1
              (L.altered (dr.ints L.ints_used)).2.1 (L.altered (dr.ints L.ints_used)).2.2))
        else L.points := by
  rw [metropolis_step_eq fl dr L h]
  refine ⟨_, rfl, ?_⟩
  unfold Lattice.accepts
  by_cases c1 : fl.lt (fl.ofInt 0) (L.site_energy fl (L.altered (dr.ints L.ints_used)).1
      (L.altered (dr.ints L.ints_used)).2.1 (L.altered (dr.ints L.ints_used)).2.2) = true
  · rw [if_pos c1, c1, Bool.true_or, if_pos rfl]
    exact ⟨rfl, rfl, rfl, rfl, rfl, rfl, rfl⟩
  · rw [if_neg c1]
    rw [Bool.not_eq_true] at c1
    rw [c1, Bool.false_or]
    by_cases c2 : fl.lt (dr.floats L.floats_used) (L.acceptance_ratio fl (L.site_energy fl
        (L.altered (dr.ints L.ints_used)).1 (L.altered (dr.ints L.ints_used)).2.1
        (L.altered (dr.ints L.ints_used)).2.2)) = true
    · rw [if_pos c2, if_pos c2]
      exact ⟨rfl, rfl, rfl, rfl, rfl, rfl, rfl⟩
    · rw [if_neg c2, if_neg c2]
      exact ⟨rfl, rfl, rfl, rfl, rfl, rfl, rfl⟩

theorem WF_of_step {L L1 : Lattice F} (h : L.WF) (ex : L1.size_x = L.size_x)
    (ey : L1.size_y = L.size_y) (ez : L1.size_z = L.size_z)
    (el : L1.points.length = L.points.length) : L1.WF :=
  ⟨ex ▸ h.pos_x, ey ▸ h.pos_y, ez ▸ h.pos_z, ex ▸ h.le_x, ey ▸ h.le_y, ez ▸ h.le_z,
    by rw [ex, ey, ez]; exact h.fits, by rw [ex, ey, ez, el]; exact h.len⟩

theorem metropolis_sweep_succ (fl : FloatOps F D) (dr : Draws F) (steps : Nat)
    (L : Lattice F) :
    Lattice.metropolis_sweep fl dr (steps + 1) L =
      (L.metropolis_step fl dr).bind (Lattice.metropolis_sweep fl dr steps) := by
  rw [Lattice.metropolis_sweep]

theorem metropolis_sweep_iterate (fl : FloatOps F D) (dr : Draws F) (steps : Nat)
    (o : Option (Lattice F)) :
    o.bind (Lattice.metropolis_sweep fl dr steps) =
      (fun (o : Option (Lattice F)) => o.bind (Lattice.metropolis_step fl dr))^[steps] o := by
  induction steps generalizing o with
  | zero =>
    cases o <;> rfl
  | succ n ih =>
    rw [Function.iterate_succ_apply, ← ih]
    cases o with
    | none => rfl
    | some L =>
      simp only [Option.some_bind]
      exact metropolis_sweep_succ fl dr n L

/-- A cell of valid coordinates of a lattice of spins holds `+1` or `-1`. -/
theorem cell_spin (L : Lattice F) (h : L.WF) (hs : L.Spins) (x y z : Int) :
    L.cell x y z = 1 ∨ L.cell x y z = -1 := by
  have f := flat_eq L h (Int.emod_nonneg x (ne_of_gt h.pos_x)) (Int.emod_lt_of_pos x h.pos_x)
    (Int.emod_nonneg y (ne_of_gt h.pos_y)) (Int.emod_lt_of_pos y h.pos_y)
    (Int.emod_nonneg z (ne_of_gt h.pos_z)) (Int.emod_lt_of_pos z h.pos_z)
  have hi := hs (((x % L.size_x) * L.size_y + y % L.size_y) * L.size_z + z % L.size_z).toNat
    (by rw [Int.toNat_of_nonneg f.2.1]; exact f.2.2)
  unfold Lattice.cell
  rw [List.getD_eq_getElem?_getD]
  rcases hi with hi | hi
  · left; rw [hi]; rfl
  · right; rw [hi]; rfl

/-! ## C1: the acceptance rule of one update attempt -/

theorem metropolis_step_spins (fl : FloatOps F D) (dr : Draws F) (L : Lattice F)
    (h : L.WF) (hs : L.Spins) :
    ∃ L1, L.metropolis_step fl dr = some L1 ∧ L1.WF ∧ L1.Spins := by
  obtain ⟨L1, e1, ex, ey, ez, _, _, _, ep⟩ := metropolis_step_points fl dr L h
  have hspin := cell_spin L h hs (L.altered (dr.ints L.ints_used)).1
    (L.altered (dr.ints L.ints_used)).2.1 (L.altered (dr.ints L.ints_used)).2.2
  have hlen : L1.points.length = L.points.length := by
    rw [ep]; split
    · exact List.length_set _ _ _
    · rfl
  refine ⟨L1, e1, WF_of_step h ex ey ez hlen, ?_⟩
  intro i hi
  have hi2 : (i : Int) < L.volume := by
    simp only [Lattice.volume, ex, ey, ez] at hi
    exact hi
  rw [ep]
  split
  · rw [List.getElem?_set]
    split
    · split
      · unfold wrap8
        rcases hspin with e | e <;> rw [e]
        · right; rfl
        · left; rfl
      · have := hs i hi2
        rename_i hlt
        rw [List.getElem?_eq_none (by omega)] at this
        simp at this
    · exact hs i hi2
  · exact hs i hi2

theorem metropolis_sweep_spins (fl : FloatOps F D) (dr : Draws F) (steps : Nat)
    (L : Lattice F) (h : L.WF) (hs : L.Spins) :
    ∃ L1, L.metropolis_sweep fl dr steps = some L1 ∧ L1.WF ∧ L1.Spins := by
  induction steps generalizing L with
  | zero => exact ⟨L, rfl, h, hs⟩
  | succ n ih =>
    obtain ⟨L1, e1, h1, s1⟩ := metropolis_step_spins fl dr L h hs
    obtain ⟨L2, e2, h2, s2⟩ := ih L1 h1 s1
    exact ⟨L2, by rw [metropolis_sweep_succ, e1, Option.some_bind, e2], h2, s2⟩

/-- One update attempt on a well-formed lattice of spins, with the energy `e` and the
acceptance ratio written out in the float operations. -/
theorem attempt_rule (fl : FloatOps F D) (dr : Draws F) (L : Lattice F)
    (h : L.WF) (hs : L.Spins) (x y z : Int) (u e : F)
    (hsite : L.altered (dr.ints L.ints_used) = (x, y, z))
    (hu : dr.floats L.floats_used = u)
    (he : e = fl.mul (fl.neg (fl.add L.field (fl.mul L.interactivity (fl.ofInt
      (L.cell (x - 1) y z + L.cell (x + 1) y z + L.cell x (y - 1) z + L.cell x (y + 1) z +
        L.cell x y (z - 1) + L.cell x y (z + 1)))))) (fl.ofInt (L.cell x y z))) :
    ∃ L1, L.metropolis_step fl dr = some L1 ∧
      (L1.size_x = L.size_x ∧ L1.size_y = L.size_y ∧ L1.size_z = L.size_z ∧
        L1.interactivity = L.interactivity ∧ L1.temperature = L.temperature ∧
        L1.field = L.field ∧ L1.points.length = L.points.length) ∧
      (∀ i : Nat,
        (i : Int) ≠ ((x % L.size_x) * L.size_y + y % L.size_y) * L.size_z + z % L.size_z →
        L1.points[i]? = L.points[i]?) ∧
      (L1.cell x y z = -L.cell x y z ↔
        (fl.lt (fl.ofInt 0) e = true ∨
          fl.lt u (fl.ofDouble (fl.dexp (fl.ddiv (fl.dmul fl.two (fl.toDouble e))
            (fl.toDouble L.temperature)))) = true)) ∧
      (L1.cell x y z = L.cell x y z ↔
        ¬ (fl.lt (fl.ofInt 0) e = true ∨
          fl.lt u (fl.ofDouble (fl.dexp (fl.ddiv (fl.dmul fl.two (fl.toDouble e))
            (fl.toDouble L.temperature)))) = true)) := by
  obtain ⟨L1, e1, ex, ey, ez, ei, et, ef, ep⟩ := metropolis_step_points fl dr L h
  rw [hsite, hu] at ep
  simp only at ep
  obtain ⟨⟨x0, x1⟩, ⟨y0, y1⟩, ⟨z0, z1⟩⟩ := altered_range L h (dr.ints L.ints_used)
  rw [hsite] at x0 x1 y0 y1 z0 z1
  simp only at x0 x1 y0 y1 z0 z1
  obtain ⟨g, g0, g1⟩ := get_eq L h (x := x) (y := y) (z := z) (by omega) (by omega)
    (by omega) (by omega) (by omega) (by omega)
  have hl := volume_lt_length L h
  have hcell : L.cell x y z = L.points.getD (L.get x y z).toNat 0 := by
    rw [g]; rfl
  have hcell1 : L1.cell x y z = L1.points.getD (L.get x y z).toNat 0 := by
    rw [g]; unfold Lattice.cell; rw [ex, ey, ez]
  have hacc : L.accepts fl x y z u = true ↔
      (fl.lt (fl.ofInt 0) e = true ∨
        fl.lt u (fl.ofDouble (fl.dexp (fl.ddiv (fl.dmul fl.two (fl.toDouble e))
          (fl.toDouble L.temperature)))) = true) := by
    rw [he]
    unfold Lattice.accepts Lattice.acceptance_ratio Lattice.site_energy
    exact Bool.or_eq_true_iff
  have hspin := cell_spin L h hs x y z
  refine ⟨L1, e1, ⟨ex, ey, ez, ei, et, ef, ?_⟩, ?_, ?_, ?_⟩
  · rw [ep]; split
    · exact List.length_set _ _ _
    · rfl
  · intro i hi
    rw [ep]; split
    · rw [List.getElem?_set]
      have : (L.get x y z).toNat ≠ i := by omega
      rw [if_neg this]
    · rfl
  · rw [← hacc, hcell1, ep]
    by_cases c : L.accepts fl x y z u = true
    · rw [if_pos c, List.getD_eq_getElem?_getD, List.getElem?_set, if_pos rfl,
        if_pos (by omega)]
      simp only [Option.getD_some, c, iff_true]
      unfold wrap8
      rcases hspin with e | e <;> rw [e] <;> decide
    · rw [if_neg c, ← hcell]
      simp only [c, iff_false]
      rcases hspin with e | e <;> rw [e] <;> decide
  · rw [← hacc, hcell1, ep]
    by_cases c : L.accepts fl x y z u = true
    · rw [if_pos c, List.getD_eq_getElem?_getD, List.getElem?_set, if_pos rfl,
        if_pos (by omega)]
      simp only [Option.getD_some, c, not_true_eq_false, iff_false]
      unfold wrap8
      rcases hspin with e | e <;> rw [e] <;> decide
    · rw [if_neg c, ← hcell]
      exact iff_of_true rfl c

/-- C1 (amended): on a lattice with positive dimensions of at most `2^30` and a cell
count below `2^31` (buffer as the constructor allocates it) whose cells are spins,
one update attempt of `metropolis_sweep`, with selected site `(x, y, z)` and uniform
draw `u`, succeeds; it keeps the dimensions, the parameters and every cell other than
the selected one, and it negates the spin of the selected site if and only if `e > 0`
or `u < exp(2*e/temperature)` (the `float` value of the `double` expression), where
`e = -(field + interactivity * (sum of the six periodic neighbour spins)) * spin` in
`float` arithmetic (otherwise the spin is unchanged); and `metropolis_sweep(steps)`
is `steps` such attempts in sequence, each of them again on such a lattice of spins,
and returns. -/
theorem metropolis_attempt_rule (fl : FloatOps F D) (dr : Draws F) (L : Lattice F)
    (h : L.WF) (hs : L.Spins) (x y z : Int) (u e : F)
    (hsite : L.altered (dr.ints L.ints_used) = (x, y, z))
    (hu : dr.floats L.floats_used = u)
    (he : e = fl.mul (fl.neg (fl.add L.field (fl.mul L.interactivity (fl.ofInt
      (L.cell (x - 1) y z + L.cell (x + 1) y z + L.cell x (y - 1) z + L.cell x (y + 1) z +
        L.cell x y (z - 1) + L.cell x y (z + 1)))))) (fl.ofInt (L.cell x y z))) :
    ∃ L1, L.metropolis_step fl dr = some L1 ∧
      (L1.size_x = L.size_x ∧ L1.size_y = L.size_y ∧ L1.size_z = L.size_z ∧
        L1.interactivity = L.interactivity ∧ L1.temperature = L.temperature ∧
        L1.field = L.field ∧ L1.points.length = L.points.length) ∧
      (∀ i : Nat,
        (i : Int) ≠ ((x % L.size_x) * L.size_y + y % L.size_y) * L.size_z + z % L.size_z →
        L1.points[i]? = L.points[i]?) ∧
      (L1.cell x y z = -L.cell x y z ↔
        (fl.lt (fl.ofInt 0) e = true ∨
          fl.lt u (fl.ofDouble (fl.dexp (fl.ddiv (fl.dmul fl.two (fl.toDouble e))
            (fl.toDouble L.temperature)))) = true)) ∧
      (L1.cell x y z = L.cell x y z ↔
        ¬ (fl.lt (fl.ofInt 0) e = true ∨
          fl.lt u (fl.ofDouble (fl.dexp (fl.ddiv (fl.dmul fl.two (fl.toDouble e))
            (fl.toDouble L.temperature)))) = true)) ∧
      (∀ steps : Nat, L.metropolis_sweep fl dr steps =
        (fun (o : Option (Lattice F)) => o.bind (Lattice.metropolis_step fl dr))^[steps]
          (some L)) ∧
      ∀ steps : Nat, ∃ Ln, L.metropolis_sweep fl dr steps = some Ln ∧ Ln.WF ∧ Ln.Spins := by
  obtain ⟨L1, e1, hd, hp, hflip, hkeep⟩ := attempt_rule fl dr L h hs x y z u e hsite hu he
  exact ⟨L1, e1, hd, hp, hflip, hkeep,
    fun steps => metropolis_sweep_iterate fl dr steps (some L),
    fun steps => metropolis_sweep_spins fl dr steps L h hs⟩

/-! ## Lattices built by the constructor -/

theorem new_WF (sx sy sz : Int) (mem : Nat → Int) (iact temp fld : F)
    (hx : 0 < sx) (hy : 0 < sy) (hz : 0 < sz) (lx : sx ≤ 1073741824) (ly : sy ≤ 1073741824)
    (lz : sz ≤ 1073741824) (hf : sx * sy * sz < 2147483648) :
    (Lattice.new sx sy sz mem iact temp fld).WF := by
  refine ⟨hx, hy, hz, lx, ly, lz, hf, ?_⟩
  have e0 : 0 < sx * sy := by positivity
  have e1 : sx * sy ≤ sx * sy * sz := by nlinarith
  have e2 : 0 < sx * sy * sz := by positivity
  have w1 : wrap32 (sx * sy) = sx * sy := wrap32_id (by omega) (by omega)
  have w2 : wrap32 (sx * sy * sz) = sx * sy * sz := wrap32_id (by omega) (by omega)
  simp only [Lattice.new, Lattice.alloc_size, CACHE_LINE_SIZE, w1, w2, List.length_map,
    List.length_range]
  omega

theorem new_Spins (sx sy sz : Int) (mem : Nat → Int) (iact temp fld : F)
    (hm : ∀ i, mem i = 1 ∨ mem i = -1)
    (hv : sx * sy * sz ≤ Lattice.alloc_size sx sy sz) :
    (Lattice.new sx sy sz mem iact temp fld).Spins := by
  intro i hi
  have hi2 : i < (Lattice.alloc_size sx sy sz).toNat := by
    simp only [Lattice.volume, Lattice.new] at hi
    omega
  simp only [Lattice.new, List.getElem?_map, List.getElem?_range hi2, Option.map_some']
  rcases hm i with e | e
  · left; rw [e]
  · right; rw [e]

theorem lattice222_WF : lattice222.WF :=
  new_WF 2 2 2 _ _ _ _ (by decide) (by decide) (by decide) (by decide) (by decide)
    (by decide) (by decide)

theorem lattice222_Spins : lattice222.Spins :=
  new_Spins 2 2 2 _ _ _ _ (fun _ => Or.inl rfl) (by decide)

/-- Witness of `metropolis_attempt_rule`: the `2 x 2 x 2` lattice of `+1` spins, drawn
integer `5` (site `(1, 0, 1)`) and uniform draw `0`. -/
theorem metropolis_attempt_rule_witness :
    lattice222.WF ∧ lattice222.Spins ∧
    lattice222.altered (draws5.ints lattice222.ints_used) = (1, 0, 1) ∧
    ∃ L1, lattice222.metropolis_step intOps draws5 = some L1 ∧
      L1.points.length = lattice222.points.length :=
  ⟨lattice222_WF, lattice222_Spins, by decide,
    (metropolis_attempt_rule intOps draws5 lattice222 lattice222_WF lattice222_Spins
      1 0 1 0 _ (by decide) (by decide) rfl).imp
      (fun _ hL => ⟨hL.1, hL.2.1.2.2.2.2.2.2⟩)⟩

/-- An update attempt one of whose seven cell accesses lies outside the buffer. -/
theorem metropolis_step_none (fl : FloatOps F D) (dr : Draws F) (L : Lattice F)
    (hbad : ∃ c ∈ L.accesses (dr.ints L.ints_used), L.load (L.get c.1 c.2.1 c.2.2) = none) :
    L.metropolis_step fl dr = none := by
  obtain ⟨c, hc, hload⟩ := hbad
  unfold Lattice.metropolis_step
  simp only []
  split
  · rename_i h1 h2 h3 h4 h5 h6 h7
    simp only [Lattice.accesses, List.mem_cons, List.mem_singleton, List.not_mem_nil,
      or_false] at hc
    have e : ∀ (i : Int), ({ L with ints_used := L.ints_used + 1 } : Lattice F).load i
        = L.load i := fun _ => rfl
    have g : ∀ (a b c : Int), ({ L with ints_used := L.ints_used + 1 } : Lattice F).get a b c
        = L.get a b c := fun _ _ _ => rfl
    have a : ({ L with ints_used := L.ints_used + 1 } : Lattice F).altered
        (dr.ints L.ints_used) = L.altered (dr.ints L.ints_used) := rfl
    rw [e, g, a] at h1 h2 h3 h4 h5 h6 h7
    rcases hc with rfl | rfl | rfl | rfl | rfl | rfl | rfl <;> simp_all
  · rfl

/-- C1 (as stated, refuted): two lattices of `+1` spins with positive dimensions and
temperature `1` on which an update attempt reads outside the buffer. On the
`1291 x 1291 x 1291` lattice (cell count above `2^31`, buffer of the right size) the
drawn number `2146685128` selects the site `(1288, 0, 0)` and `get(1289, 0, 0)`
computes the flat index `1289 * 1291 * 1291`, which wraps to `-2146615487`. On the
`(2^30 + 1) x 1 x 1` lattice the drawn number `2^30 - 2` selects the site
`(2^30 - 2, 0, 0)` and `get(2^30 - 1, 0, 0)` adds the dimension, which wraps, and
yields the offset `-1073741823`. -/
theorem attempt_reads_outside_buffer :
    (0 < lattice_1291.size_x ∧ 0 < lattice_1291.size_y ∧ 0 < lattice_1291.size_z ∧
      lattice_1291.temperature ≠ 0 ∧ lattice_1291.Spins ∧
      lattice_1291.points.length = 2151685171 + 128 ∧
      lattice_1291.altered 2146685128 = (1288, 0, 0) ∧
      lattice_1291.get 1289 0 0 = -2146615487 ∧
      lattice_1291.metropolis_step intOps (draws_const 2146685128) = none) ∧
    (0 < lattice_long.size_x ∧ 0 < lattice_long.size_y ∧ 0 < lattice_long.size_z ∧
      lattice_long.temperature ≠ 0 ∧ lattice_long.Spins ∧
      lattice_long.points.length = 1073741825 + 128 ∧
      lattice_long.altered 1073741822 = (1073741822, 0, 0) ∧
      lattice_long.get 1073741823 0 0 = -1073741823 ∧
      lattice_long.metropolis_step intOps (draws_const 1073741822) = none) := by
  refine ⟨⟨by decide, by decide, by decide, by decide,
      new_Spins 1291 1291 1291 _ _ _ _ (fun _ => Or.inl rfl) (by decide), ?_, by decide,
      by decide, ?_⟩,
    ⟨by decide, by decide, by decide, by decide,
      new_Spins 1073741825 1 1 _ _ _ _ (fun _ => Or.inl rfl) (by decide), ?_, by decide,
      by decide, ?_⟩⟩
  · simp only [lattice_1291, Lattice.new, List.length_map, List.length_range]
    decide
  · exact metropolis_step_none _ _ _ ⟨(1289, 0, 0), by decide, by decide⟩
  · simp only [lattice_long, Lattice.new, List.length_map, List.length_range]
    decide
  · exact metropolis_step_none _ _ _ ⟨(1073741823, 0, 0), by decide, by decide⟩

/-! ## C8: the decoupled-field limit -/

/-- A loop `for (int i = 0; i < n; ++i)` establishes `Q n` from `Q 0` when each
iteration takes `Q k` to `Q (k + 1)`. -/
theorem foldl_counter_inv {S : Type} (f : S → Int → S) (Q : Int → S → Prop) (n : Int)
    (s : S) (h0 : Q 0 s)
    (hstep : ∀ (k : Int) (t : S), 0 ≤ k → k < n → Q k t → Q (k + 1) (f t k)) :
    Q (max n 0) ((counter n).foldl f s) := by
  have key : ∀ m : Nat, (m : Int) ≤ max n 0 →
      Q (m : Int) (((List.range m).map Int.ofNat).foldl f s) := by
    intro m
    induction m with
    | zero => intro _; exact h0
    | succ m ih =>
      intro hm
      rw [List.range_succ, List.map_append, List.foldl_append]
      have := ih (by omega)
      simp only [List.map_cons, List.map_nil, List.foldl_cons, List.foldl_nil]
      have hq := hstep (m : Int) _ (by omega) (by omega) this
      simpa using hq
  have := key n.toNat (by omega)
  unfold counter
  have e : ((n.toNat : Nat) : Int) = max n 0 := by omega
  rw [e] at this
  exact this

theorem wrap32_pow_ne_zero (r : Nat) (h : r < 32) : wrap32 (2 ^ r) ≠ 0 := by
  interval_cases r <;> decide

theorem wrap32_pow_shift (r : Nat) (h : r < 32) :
    wrap32 (wrap32 (2 ^ r) * 2) = if (r + 1) % 32 = 0 then 0 else wrap32 (2 ^ ((r + 1) % 32)) := by
  interval_cases r <;> decide

theorem init_cell_inv (dr : Draws F) (L : Lattice F) (h : L.Sized) (x y z : Int) (n : Nat)
    (hx0 : 0 ≤ x) (hx1 : x < L.size_x) (hy0 : 0 ≤ y) (hy1 : y < L.size_y)
    (hz0 : 0 ≤ z) (hz1 : z < L.size_z) (hn : (n : Int) = (x * L.size_y + y) * L.size_z + z)
    (st : Option (Int × Int × Lattice F)) (hst : InitInv dr L n st) :
    InitInv dr L (n + 1) (Lattice.init_cell dr x y st z) := by
  obtain ⟨cb, cr, M, rfl, ex, ey, ez, el, hu, hcb, hcr, hc⟩ := hst
  have key : ∀ (M1 : Lattice F) (v : Int), v = L.word_bit dr n → M1.size_x = L.size_x →
      M1.size_y = L.size_y → M1.size_z = L.size_z → M1.points = M.points →
      ∃ M2, M1.store (M1.flat x y z) v = some M2 ∧ M2.size_x = L.size_x ∧
        M2.size_y = L.size_y ∧ M2.size_z = L.size_z ∧
        M2.points.length = L.points.length ∧ M2.ints_used = M1.ints_used ∧
        ∀ i : Nat, i < n + 1 → M2.points[i]? = some (L.word_bit dr i) := by
    intro M1 v hv e1 e2 e3 e4
    have hM1 : M1.Sized := Sized_of_step h e1 e2 e3 (by rw [e4, el])
    obtain ⟨f, f0, f1⟩ := flat_eq_sized M1 hM1 hx0 (e1 ▸ hx1) hy0 (e2 ▸ hy1) hz0 (e3 ▸ hz1)
    have hl := volume_lt_length_sized M1 hM1
    rw [e2, e3, ← hn] at f f0 f1
    refine ⟨{ M1 with points := M1.points.set (M1.flat x y z).toNat v }, ?_, e1, e2, e3, ?_,
      rfl, ?_⟩
    · unfold Lattice.store
      rw [if_pos ⟨by omega, by omega⟩]
    · simp only [List.length_set, e4, el]
    · intro i hi
      simp only [List.getElem?_set, e4]
      by_cases c : (M1.flat x y z).toNat = i
      · have hin : i = n := by omega
        rw [if_pos c, if_pos (by rw [← e4]; omega), hv, hin]
      · rw [if_neg c]
        exact hc i (by omega)
  unfold Lattice.init_cell
  by_cases c : n % 32 = 0
  · rw [if_pos c] at hcb
    have hfresh : (cb == 0) = true := by rw [hcb]; rfl
    have e32 : (n + 31) / 32 = n / 32 := by omega
    have hv : (if and32 (wrap32 (dr.ints M.ints_used)) 1 ≠ 0 then (1 : Int) else -1)
        = L.word_bit dr n := by
      unfold Lattice.word_bit
      rw [hu, e32, c]
      rfl
    obtain ⟨M2, e, r1, r2, r3, r4, r5, r6⟩ :=
      key { M with ints_used := M.ints_used + 1 } _ hv ex ey ez rfl
    simp only [hfresh, if_true, e]
    refine ⟨_, _, M2, rfl, r1, r2, r3, r4, ?_, ?_, ?_, r6⟩
    · rw [r5]; simp only [hu]; omega
    · have : (n + 1) % 32 = 1 := by omega
      rw [this]; decide
    · intro _
      have : (n + 1) / 32 = n / 32 := by omega
      rw [this, hu, e32]
  · rw [if_neg c] at hcb
    have hr : n % 32 < 32 := Nat.mod_lt _ (by decide)
    have hfresh : (cb == 0) = false := by
      rw [hcb]
      exact beq_false_of_ne (wrap32_pow_ne_zero _ hr)
    have hcr1 := hcr c
    have hv : (if and32 cr cb ≠ 0 then (1 : Int) else -1) = L.word_bit dr n := by
      unfold Lattice.word_bit
      rw [hcr1, hcb]
    obtain ⟨M2, e, r1, r2, r3, r4, r5, r6⟩ := key M _ hv ex ey ez rfl
    simp only [hfresh, Bool.false_eq_true, if_false, e]
    refine ⟨_, _, M2, rfl, r1, r2, r3, r4, ?_, ?_, ?_, r6⟩
    · rw [r5, hu]
      have : (n + 1 + 31) / 32 = (n + 31) / 32 := by omega
      rw [this]
    · rw [hcb, wrap32_pow_shift _ hr]
      have : (n % 32 + 1) % 32 = (n + 1) % 32 := by omega
      rw [this]
    · intro hne
      have : (n + 1) / 32 = n / 32 := by omega
      rw [this, hcr1]

/-- What `init_with_randoms` leaves on a lattice whose cell count is an `int`: it
returns, the dimensions and the buffer size are unchanged, and the cell of flat index
`i` holds the value of the bit `i mod 32` of the word number `i div 32`. -/
theorem init_with_randoms_cells_sized (dr : Draws F) (L : Lattice F) (h : L.Sized) :
    ∃ L1, L.init_with_randoms dr = some L1 ∧ L1.points.length = L.points.length ∧
      L1.size_x = L.size_x ∧ L1.size_y = L.size_y ∧ L1.size_z = L.size_z ∧
      ∀ i : Nat, (i : Int) < L.volume → L1.points[i]? = some (L.word_bit dr i) := by
  have px := h.pos_x
  have py := h.pos_y
  have pz := h.pos_z
  have hx := foldl_counter_inv
    (fun st x => (counter L.size_y).foldl (fun st y =>
      (counter L.size_z).foldl (Lattice.init_cell dr x y) st) st)
    (fun k st => InitInv dr L (k * L.size_y * L.size_z).toNat st) L.size_x (some (0, 0, L))
    ⟨0, 0, L, rfl, rfl, rfl, rfl, rfl, by simp, by simp, by simp, fun i hi => by simp at hi⟩
    (by
      intro x st hx0 hx1 hst
      have hy := foldl_counter_inv
        (fun st y => (counter L.size_z).foldl (Lattice.init_cell dr x y) st)
        (fun k st => InitInv dr L ((x * L.size_y + k) * L.size_z).toNat st) L.size_y st
        (by simpa using hst)
        (by
          intro y st hy0 hy1 hst
          have hz := foldl_counter_inv (Lattice.init_cell dr x y)
            (fun k st => InitInv dr L ((x * L.size_y + y) * L.size_z + k).toNat st)
            L.size_z st (by simpa using hst)
            (fun z st hz0 hz1 hst => by
              have e0 : 0 ≤ (x * L.size_y + y) * L.size_z := by positivity
              have := init_cell_inv dr L h x y z _ hx0 hx1 hy0 hy1 hz0 hz1
                (Int.toNat_of_nonneg (by omega)) st hst
              have e : ((x * L.size_y + y) * L.size_z + (z + 1)).toNat
                  = ((x * L.size_y + y) * L.size_z + z).toNat + 1 := by omega
              show InitInv dr L ((x * L.size_y + y) * L.size_z + (z + 1)).toNat _
              rw [e]
              exact this)
          have hm : max L.size_z 0 = L.size_z := max_eq_left (le_of_lt h.pos_z)
          rw [hm] at hz
          have e : (x * L.size_y + (y + 1)) * L.size_z
              = (x * L.size_y + y) * L.size_z + L.size_z := by ring
          simp only [e]
          exact hz)
      have hm : max L.size_y 0 = L.size_y := max_eq_left (le_of_lt h.pos_y)
      rw [hm] at hy
      have e : (x + 1) * L.size_y * L.size_z = (x * L.size_y + L.size_y) * L.size_z := by
        ring
      simp only [e]
      exact hy)
  have hm : max L.size_x 0 = L.size_x := max_eq_left (le_of_lt h.pos_x)
  rw [hm] at hx
  obtain ⟨cb, cr, M, e, ex, ey, ez, el, _, _, _, hc⟩ := hx
  refine ⟨M, ?_, el, ex, ey, ez, ?_⟩
  · unfold Lattice.init_with_randoms
    simp only [e, Option.map_some']
  · intro i hi
    apply hc i
    simp only [Lattice.volume] at hi
    omega

/-- What `init_with_randoms` leaves on a well-formed lattice. -/
theorem init_with_randoms_cells (dr : Draws F) (L : Lattice F) (h : L.WF) :
    ∃ L1, L.init_with_randoms dr = some L1 ∧ L1.WF ∧ L1.size_x = L.size_x ∧
      L1.size_y = L.size_y ∧ L1.size_z = L.size_z ∧
      ∀ i : Nat, (i : Int) < L.volume → L1.points[i]? = some (L.word_bit dr i) := by
  obtain ⟨L1, e, el, ex, ey, ez, hc⟩ := init_with_randoms_cells_sized dr L (WF.sized h)
  exact ⟨L1, e, WF_of_step h ex ey ez el, ex, ey, ez, hc⟩

theorem word_bit_spin (dr : Draws F) (L : Lattice F) (i : Nat) :
    L.word_bit dr i = 1 ∨ L.word_bit dr i = -1 := by
  unfold Lattice.word_bit
  split
  · left; rfl
  · right; rfl

theorem init_with_randoms_spins (dr : Draws F) (L : Lattice F) (h : L.WF) :
    ∃ L1, L.init_with_randoms dr = some L1 ∧ L1.WF ∧ L1.Spins := by
  obtain ⟨L1, e, h1, ex, ey, ez, hc⟩ := init_with_randoms_cells dr L h
  refine ⟨L1, e, h1, fun i hi => ?_⟩
  simp only [Lattice.volume, ex, ey, ez] at hi
  rw [hc i hi]
  rcases word_bit_spin dr L i with e | e
  · left; rw [e]
  · right; rw [e]

theorem sweeps_spins (fl : FloatOps F D) (dr : Draws F) (ns : List Nat)
    (L : Lattice F) (h : L.WF) (hs : L.Spins) :
    ∃ L1, L.sweeps fl dr ns = some L1 ∧ L1.WF ∧ L1.Spins := by
  induction ns generalizing L with
  | nil => exact ⟨L, rfl, h, hs⟩
  | cons n ns ih =>
    obtain ⟨L1, e1, h1, s1⟩ := metropolis_sweep_spins fl dr n L h hs
    obtain ⟨L2, e2, h2, s2⟩ := ih L1 h1 s1
    exact ⟨L2, by rw [Lattice.sweeps, e1, Option.some_bind, e2], h2, s2⟩

/-- C3 (amended): on a lattice with positive dimensions of at most `2^30` and a cell
count below `2^31` (buffer of `size_x*size_y*size_z + 128` cells), for every sequence of random
draws, `init_with_randoms` returns a lattice whose every cell is `+1` or `-1`, and
every sequence of calls `metropolis_sweep(n)` after it returns a lattice whose every
cell is `+1` or `-1`. -/
theorem spin_domain_closure (fl : FloatOps F D) (dr dr1 : Draws F) (L : Lattice F)
    (h : L.WF) :
    ∃ L1, L.init_with_randoms dr = some L1 ∧ L1.Spins ∧
      ∀ ns : List Nat, ∃ L2, L1.sweeps fl dr1 ns = some L2 ∧ L2.Spins := by
  obtain ⟨L1, e1, h1, s1⟩ := init_with_randoms_spins dr L h
  refine ⟨L1, e1, s1, fun ns => ?_⟩
  obtain ⟨L2, e2, _, s2⟩ := sweeps_spins fl dr1 ns L1 h1 s1
  exact ⟨L2, e2, s2⟩

/-- Witness of `spin_domain_closure`: the `2 x 2 x 2` lattice, every drawn integer
`5`; after `init_with_randoms` and the calls `metropolis_sweep(3)`,
`metropolis_sweep(2)` the eight cells are `1, -1, 1, -1, -1, -1, -1, -1`. -/
theorem spin_domain_closure_witness :
    lattice222.WF ∧
    ((lattice222.init_with_randoms draws5).bind
      (Lattice.sweeps intOps draws5 [3, 2])).map (fun L => L.points.take 8)
      = some [1, -1, 1, -1, -1, -1, -1, -1] ∧
    ∃ L1, lattice222.init_with_randoms draws5 = some L1 ∧ L1.Spins :=
  ⟨lattice222_WF, by decide,
    (spin_domain_closure intOps draws5 draws5 lattice222 lattice222_WF).imp
      (fun _ hL => ⟨hL.1, hL.2.1⟩)⟩

theorem foldl_none_of_absorbing {S A : Type} (f : Option S → A → Option S)
    (hnone : ∀ a, f none a = none) (l : List A) : l.foldl f none = none := by
  induction l with
  | nil => rfl
  | cons a l ih => rw [List.foldl_cons, hnone, ih]

/-- A loop whose body fails at one of its values, on every state that satisfies an
invariant of the loop, fails. -/
theorem foldl_fails_at {S A : Type} (f : Option S → A → Option S)
    (hnone : ∀ a, f none a = none) (I : Option S → Prop) (hI : ∀ s a, I s → I (f s a))
    (a0 : A) (hbad : ∀ s, I s → f s a0 = none) :
    ∀ (l : List A), a0 ∈ l → ∀ s, I s → l.foldl f s = none := by
  intro l
  induction l with
  | nil => intro h; cases h
  | cons a l ih =>
    intro hmem s hs
    rw [List.foldl_cons]
    rcases List.mem_cons.mp hmem with e | hl
    · rw [← e, hbad s hs]
      exact foldl_none_of_absorbing f hnone l
    · exact ih hl _ (hI s a hs)

theorem foldl_keeps {S A : Type} (f : S → A → S) (I : S → Prop) (hI : ∀ s a, I s → I (f s a)) :
    ∀ (l : List A) (s : S), I s → I (l.foldl f s) := by
  intro l
  induction l with
  | nil => intro s hs; exact hs
  | cons a l ih => intro s hs; exact ih _ (hI s a hs)

theorem mem_counter {n k : Int} (h0 : 0 ≤ k) (h1 : k < n) : k ∈ counter n := by
  unfold counter
  rw [List.mem_map]
  exact ⟨k.toNat, List.mem_range.mpr (by omega), by
    show ((k.toNat : Nat) : Int) = k
    omega⟩

theorem init_cell_none (dr : Draws F) (x y z : Int) :
    Lattice.init_cell dr x y none z = none := rfl

theorem store_dims {L M : Lattice F} {i v : Int} (h : L.store i v = some M) :
    M.size_x = L.size_x ∧ M.size_y = L.size_y ∧ M.size_z = L.size_z ∧
      M.points.length = L.points.length := by
  unfold Lattice.store at h
  split at h
  · simp only [Option.some.injEq] at h
    subst h
    exact ⟨rfl, rfl, rfl, List.length_set _ _ _⟩
  · cases h

theorem store_none {L : Lattice F} {i : Int} (v : Int)
    (h : ¬ (0 ≤ i ∧ i < L.points.length)) : L.store i v = none := by
  unfold Lattice.store
  rw [if_neg h]

theorem flat_congr {L M : Lattice F} (ey : M.size_y = L.size_y) (ez : M.size_z = L.size_z)
    (a b c : Int) : M.flat a b c = L.flat a b c := by
  unfold Lattice.flat
  rw [ey, ez]

theorem init_cell_dims (dr : Draws F) (L : Lattice F) (x y z : Int)
    (st : Option (Int × Int × Lattice F)) (hst : InitDims L st) :
    InitDims L (Lattice.init_cell dr x y st z) := by
  match st, hst with
  | none, _ => intro cb cr M hM; cases hM
  | some (b, r, N), hst =>
    obtain ⟨ex, ey, ez, el⟩ := hst b r N rfl
    have key : ∀ (L1 : Lattice F) (v cb1 cr1 : Int), L1.size_x = L.size_x →
        L1.size_y = L.size_y → L1.size_z = L.size_z → L1.points.length = L.points.length →
        InitDims L (match L1.store (L1.flat x y z) v with
          | none => none
          | some L2 => some (cb1, cr1, L2)) := by
      intro L1 v cb1 cr1 e1 e2 e3 e4 cb cr M hM
      cases hs : L1.store (L1.flat x y z) v with
      | none => rw [hs] at hM; cases hM
      | some L2 =>
        rw [hs] at hM
        simp only [Option.some.injEq, Prod.mk.injEq] at hM
        obtain ⟨_, _, rfl⟩ := hM
        obtain ⟨d1, d2, d3, d4⟩ := store_dims hs
        exact ⟨d1.trans e1, d2.trans e2, d3.trans e3, d4.trans e4⟩
    unfold Lattice.init_cell
    by_cases hb : (b == 0) = true
    · simp only [hb, if_true]
      exact key _ _ _ _ ex ey ez el
    · simp only [hb, if_false]
      exact key _ _ _ _ ex ey ez el

theorem init_cell_fails (dr : Draws F) (L : Lattice F) (x y z : Int)
    (hbad : ¬ (0 ≤ L.flat x y z ∧ L.flat x y z < L.points.length))
    (st : Option (Int × Int × Lattice F)) (hst : InitDims L st) :
    Lattice.init_cell dr x y st z = none := by
  match st, hst with
  | none, _ => rfl
  | some (b, r, N), hst =>
    obtain ⟨ex, ey, ez, el⟩ := hst b r N rfl
    have key : ∀ (L1 : Lattice F) (v cb1 cr1 : Int),
        L1.size_y = L.size_y → L1.size_z = L.size_z → L1.points.length = L.points.length →
        (match L1.store (L1.flat x y z) v with
          | none => none
          | some L2 => some (cb1, cr1, L2)) = none := by
      intro L1 v cb1 cr1 e2 e3 e4
      rw [store_none v (by rw [flat_congr e2 e3, e4]; exact hbad)]
    unfold Lattice.init_cell
    by_cases hb : (b == 0) = true
    · simp only [hb, if_true]
      exact key _ _ _ _ ey ez el
    · simp only [hb, if_false]
      exact key _ _ _ _ ey ez el

/-- When the flat index of a cell `(x, y, z)` of the lattice, as the code computes
it, lies outside the buffer, `init_with_randoms` accesses the buffer outside its
bounds. -/
theorem init_with_randoms_none (dr : Draws F) (L : Lattice F) (x y z : Int)
    (hx0 : 0 ≤ x) (hx1 : x < L.size_x) (hy0 : 0 ≤ y) (hy1 : y < L.size_y)
    (hz0 : 0 ≤ z) (hz1 : z < L.size_z)
    (hbad : ¬ (0 ≤ L.flat x y z ∧ L.flat x y z < L.points.length)) :
    L.init_with_randoms dr = none := by
  have hz : ∀ s, InitDims L s →
      (counter L.size_z).foldl (Lattice.init_cell dr x y) s = none :=
    foldl_fails_at _ (fun _ => rfl) (InitDims L) (fun s a hs => init_cell_dims dr L x y a s hs)
      z (fun s hs => init_cell_fails dr L x y z hbad s hs) _ (mem_counter hz0 hz1)
  have keepz : ∀ (x1 y1 : Int) s, InitDims L s →
      InitDims L ((counter L.size_z).foldl (Lattice.init_cell dr x1 y1) s) :=
    fun x1 y1 => foldl_keeps _ (InitDims L) (fun s a hs => init_cell_dims dr L x1 y1 a s hs) _
  have hy : ∀ s, InitDims L s →
      (counter L.size_y).foldl (fun st y1 =>
        (counter L.size_z).foldl (Lattice.init_cell dr x y1) st) s = none :=
    foldl_fails_at (fun st y1 => (counter L.size_z).foldl (Lattice.init_cell dr x y1) st)
      (fun _ => foldl_none_of_absorbing _ (fun _ => rfl) _) (InitDims L)
      (fun s a hs => keepz x a s hs) y hz _ (mem_counter hy0 hy1)
  have keepy : ∀ (x1 : Int) s, InitDims L s →
      InitDims L ((counter L.size_y).foldl (fun st y1 =>
        (counter L.size_z).foldl (Lattice.init_cell dr x1 y1) st) s) :=
    fun x1 => foldl_keeps
      (fun st y1 => (counter L.size_z).foldl (Lattice.init_cell dr x1 y1) st)
      (InitDims L) (fun s a hs => keepz x1 a s hs) _
  have hx := foldl_fails_at (fun st x1 => (counter L.size_y).foldl (fun st y1 =>
      (counter L.size_z).foldl (Lattice.init_cell dr x1 y1) st) st)
    (fun x1 => foldl_none_of_absorbing
      (fun st y1 => (counter L.size_z).foldl (Lattice.init_cell dr x1 y1) st)
      (fun _ => foldl_none_of_absorbing _ (fun _ => rfl) _) _)
    (InitDims L) (fun s a hs => keepy a s hs) x hy _ (mem_counter hx0 hx1)
    (some (0, 0, L)) (by
      intro cb cr M hM
      simp only [Option.some.injEq, Prod.mk.injEq] at hM
      obtain ⟨_, _, rfl⟩ := hM
      exact ⟨rfl, rfl, rfl, rfl⟩)
  unfold Lattice.init_with_randoms
  simp only [hx, Option.map_none']

/-- C3 (as stated, refuted): on the `1291 x 1291 x 1291` lattice (positive
dimensions, buffer of `1291^3 + 128` cells) `init_with_randoms` computes the flat
index of the cell `(1288, 671, 0)` on `int`s, where it wraps to `-2147415907`, and
writes outside the buffer. On the `(2^30 + 1) x 1 x 1` lattice with every cell `+1`
(a state `init_with_randoms` leaves) `metropolis_sweep(1)` with the drawn number
`2^30 - 2` reads outside the buffer. -/
theorem init_writes_outside_buffer :
    (0 < lattice_1291.size_x ∧ 0 < lattice_1291.size_y ∧ 0 < lattice_1291.size_z) ∧
    lattice_1291.points.length = 2151685171 + 128 ∧
    lattice_1291.flat 1288 671 0 = -2147415907 ∧
    lattice_1291.init_with_randoms draws5 = none ∧
    (0 < lattice_long.size_x ∧ 0 < lattice_long.size_y ∧ 0 < lattice_long.size_z) ∧
    lattice_long.Spins ∧
    lattice_long.metropolis_sweep intOps (draws_const 1073741822) 1 = none := by
  refine ⟨⟨by decide, by decide, by decide⟩, ?_, by decide, ?_,
    ⟨by decide, by decide, by decide⟩,
    new_Spins 1073741825 1 1 _ _ _ _ (fun _ => Or.inl rfl) (by decide), ?_⟩
  · simp only [lattice_1291, Lattice.new, List.length_map, List.length_range]
    decide
  · exact init_with_randoms_none draws5 lattice_1291 1288 671 0 (by decide) (by decide)
      (by decide) (by decide) (by decide) (by decide) (fun h => absurd h.1 (by decide))
  · rw [Lattice.metropolis_sweep,
      metropolis_step_none _ _ _ ⟨(1073741823, 0, 0), by decide, by decide⟩]
    rfl

/-! ## C9: the bits `init_with_randoms` consumes -/

theorem and32_sign_bit (w : Int) (hw0 : 0 ≤ w) (hw1 : w ≤ 2147483648) :
    and32 (wrap32 w) (wrap32 (2 ^ 31)) ≠ 0 ↔ w = 2147483648 := by
  by_cases c : w = 2147483648
  · subst c
    simp only [iff_true]
    decide
  · have hlt : w < 2147483648 := by omega
    simp only [c, iff_false, not_not]
    have e1 : wrap32 w = w := wrap32_id (by omega) hlt
    have e2 : bits32 w = w.toNat := by
      unfold bits32
      rw [Int.emod_eq_of_lt hw0 (by omega)]
    have e3 : bits32 (wrap32 (2 ^ 31)) = 2 ^ 31 := by decide
    have e4 : w.toNat < 2 ^ 31 := by omega
    unfold and32
    rw [e1, e2, e3]
    have : Nat.land w.toNat (2 ^ 31) = 0 := by
      show w.toNat &&& 2 ^ 31 = 0
      rw [Nat.and_two_pow, Nat.testBit_lt_two_pow e4]
      rfl
    rw [this]
    decide

/-- On every well-formed lattice, a cell whose flat index `i` is `31` modulo `32`
consumes the bit 31 of its random word `w`; for `w` in the range `0 .. 2^31` the cell
is `+1` only for the single value `w = 2^31` and `-1` for each of the `2^31` other
values. -/
theorem init_with_randoms_bit31 (dr : Draws F) (L : Lattice F) (h : L.WF) (i : Nat) (w : Int)
    (hi : (i : Int) < L.volume) (h31 : i % 32 = 31)
    (hw : dr.ints (L.ints_used + i / 32) = w) (hw0 : 0 ≤ w) (hw1 : w ≤ 2147483648) :
    ∃ L1, L.init_with_randoms dr = some L1 ∧
      (L1.points[i]? = some 1 ↔ w = 2147483648) ∧
      (L1.points[i]? = some (-1) ↔ w < 2147483648) := by
  obtain ⟨L1, e, _, _, _, _, hc⟩ := init_with_randoms_cells dr L h
  refine ⟨L1, e, ?_⟩
  rw [hc i hi]
  unfold Lattice.word_bit
  rw [hw, h31]
  have key := and32_sign_bit w hw0 hw1
  by_cases c : w = 2147483648
  · rw [if_pos (key.mpr c)]
    simp only [c, true_iff, iff_true]
    decide
  · rw [if_neg (fun hh => c (key.mp hh))]
    have : w < 2147483648 := by omega
    simp only [c, this, iff_false, iff_true]
    decide

theorem and32_low_bit (w : Int) (k : Nat) (hk : k < 31) (hw0 : 0 ≤ w)
    (hw1 : w ≤ 2147483648) :
    and32 (wrap32 w) (wrap32 (2 ^ k)) ≠ 0 ↔ w.toNat.testBit k = true := by
  have hpow : (2 : Int) ^ k < 2147483648 := by
    have : (2 : Int) ^ k ≤ 2 ^ 30 := pow_le_pow_right₀ (by decide) (by omega)
    have h30 : (2 : Int) ^ 30 = 1073741824 := by norm_num
    omega
  have hpos : (0 : Int) < 2 ^ k := by positivity
  have e2 : bits32 (wrap32 (2 ^ k)) = 2 ^ k := by
    rw [wrap32_id (by omega) hpow]
    unfold bits32
    rw [Int.emod_eq_of_lt (by omega) (by omega)]
    have : ((2 : Int) ^ k) = (((2 : Nat) ^ k : Nat) : Int) := by push_cast; rfl
    rw [this, Int.toNat_ofNat]
  have hnat : (2 : Nat) ^ k < 2147483648 := by exact_mod_cast hpow
  have hkey : ∀ n : Nat, n < 4294967296 →
      (wrap32 (Int.ofNat (Nat.land n (2 ^ k))) ≠ 0 ↔ n.testBit k = true) := by
    intro n _
    have : Nat.land n (2 ^ k) = (n.testBit k).toNat * 2 ^ k := Nat.and_two_pow n k
    rw [this]
    cases n.testBit k
    · simp only [Bool.toNat_false, Nat.zero_mul, Bool.false_eq_true, iff_false, not_not]
      decide
    · simp only [Bool.toNat_true, Nat.one_mul, iff_true]
      rw [Int.ofNat_eq_coe, wrap32_id (by omega) (by exact_mod_cast hnat)]
      exact_mod_cast (by positivity : (2 : Nat) ^ k ≠ 0)
  by_cases c : w = 2147483648
  · subst c
    have e1 : bits32 (wrap32 2147483648) = 2147483648 := by decide
    unfold and32
    rw [e1, e2]
    exact hkey 2147483648 (by decide)
  · have hlt : w < 2147483648 := by omega
    have e1 : bits32 (wrap32 w) = w.toNat := by
      rw [wrap32_id (by omega) hlt]
      unfold bits32
      rw [Int.emod_eq_of_lt hw0 (by omega)]
    unfold and32
    rw [e1, e2]
    exact hkey w.toNat (by omega)

/-- The cells that consume one of the bits `0 .. 30` of their random word: for a word
`w` in the range `0 .. 2^31` the cell is `+1` exactly when that bit of `w` is set. -/
theorem init_with_randoms_low_bits (dr : Draws F) (L : Lattice F) (h : L.WF) (i : Nat)
    (w : Int) (hi : (i : Int) < L.volume) (hlow : i % 32 < 31)
    (hw : dr.ints (L.ints_used + i / 32) = w) (hw0 : 0 ≤ w) (hw1 : w ≤ 2147483648) :
    ∃ L1, L.init_with_randoms dr = some L1 ∧
      (L1.points[i]? = some 1 ↔ w.toNat.testBit (i % 32) = true) ∧
      (L1.points[i]? = some (-1) ↔ w.toNat.testBit (i % 32) = false) := by
  obtain ⟨L1, e, _, _, _, _, hc⟩ := init_with_randoms_cells dr L h
  refine ⟨L1, e, ?_⟩
  rw [hc i hi]
  unfold Lattice.word_bit
  rw [hw]
  have key := and32_low_bit w (i % 32) hlow hw0 hw1
  by_cases c : w.toNat.testBit (i % 32) = true
  · rw [if_pos (key.mpr c)]
    simp only [c, iff_true, Bool.true_eq_false, iff_false]
    decide
  · rw [if_neg (fun hh => c (key.mp hh))]
    have c2 : w.toNat.testBit (i % 32) = false := by simpa using c
    simp only [c2, Bool.false_eq_true, iff_false, iff_true]
    decide

theorem bits32_wrap32 (d : Int) : bits32 (wrap32 d) = bits32 d := by
  unfold bits32 wrap32
  congr 1
  omega

theorem bits32_pow (k : Nat) (hk : k < 32) : bits32 (wrap32 (2 ^ k)) = 2 ^ k := by
  interval_cases k <;> decide

/-- The test `cur_rand & cur_bit` reads the bit `k` of the 32-bit pattern of the word. -/
theorem and32_bit (d : Int) (k : Nat) (hk : k < 32) :
    and32 (wrap32 d) (wrap32 (2 ^ k)) ≠ 0 ↔ (bits32 d).testBit k = true := by
  unfold and32
  rw [bits32_wrap32, bits32_pow k hk]
  have : Nat.land (bits32 d) (2 ^ k) = ((bits32 d).testBit k).toNat * 2 ^ k :=
    Nat.and_two_pow _ k
  rw [this]
  cases (bits32 d).testBit k
  · simp only [Bool.toNat_false, Nat.zero_mul, Bool.false_eq_true, iff_false, not_not]
    decide
  · simp only [Bool.toNat_true, Nat.one_mul, iff_true]
    have := wrap32_pow_ne_zero k hk
    rw [Int.ofNat_eq_coe]
    push_cast
    exact this

theorem cell_of_word_eq (d : Int) (k : Nat) (hk : k < 32) :
    cell_of_word d k = if (bits32 d).testBit k = true then 1 else -1 := by
  unfold cell_of_word
  by_cases c : (bits32 d).testBit k = true
  · rw [if_pos ((and32_bit d k hk).mpr c), if_pos c]
  · rw [if_neg (fun h => c ((and32_bit d k hk).mp h)), if_neg c]

theorem bits32_natCast (n : Nat) (hn : n < 4294967296) : bits32 (n : Int) = n := by
  unfold bits32
  omega

theorem xor_pow_lt (n k : Nat) (hn : n < 4294967296) (hk : k < 32) :
    n ^^^ 2 ^ k < 4294967296 := by
  have h1 : n < 2 ^ 32 := by omega
  have h2 : 2 ^ k < 2 ^ 32 := Nat.pow_lt_pow_right (by decide) hk
  have := Nat.xor_lt_two_pow h1 h2
  omega

theorem testBit_xor_pow (n k : Nat) : (n ^^^ 2 ^ k).testBit k = !n.testBit k := by
  rw [Nat.testBit_xor, Nat.testBit_two_pow_self]
  cases n.testBit k <;> rfl

/-- Half of the `2^32` bit patterns have the bit `k` set. -/
theorem card_testBit (k : Nat) (hk : k < 32) :
    ((Finset.range 4294967296).filter (fun n => n.testBit k = true)).card = 2147483648 := by
  have hsum := Finset.filter_card_add_filter_neg_card_eq_card (s := Finset.range 4294967296)
    (fun n => n.testBit k = true)
  have hbij : ((Finset.range 4294967296).filter (fun n => n.testBit k = true)).card =
      ((Finset.range 4294967296).filter (fun n => ¬ n.testBit k = true)).card := by
    apply Finset.card_bij (fun n _ => n ^^^ 2 ^ k)
    · intro n hn
      simp only [Finset.mem_filter, Finset.mem_range] at hn ⊢
      exact ⟨xor_pow_lt n k hn.1 hk, by rw [testBit_xor_pow, hn.2]; decide⟩
    · intro a _ b _ hab
      have := congrArg (fun v => v ^^^ 2 ^ k) hab
      simpa [Nat.xor_assoc] using this
    · intro b hb
      simp only [Finset.mem_filter, Finset.mem_range] at hb
      refine ⟨b ^^^ 2 ^ k, ?_, ?_⟩
      · simp only [Finset.mem_filter, Finset.mem_range]
        refine ⟨xor_pow_lt b k hb.1 hk, ?_⟩
        rw [testBit_xor_pow]
        cases h : b.testBit k
        · rfl
        · exact absurd h hb.2
      · simp [Nat.xor_assoc]
  rw [Finset.card_range] at hsum
  omega

theorem pattern_spec (s : Nat → Bool) (m : Nat) :
    pattern s m < 2 ^ m ∧ ∀ k, k < m → (pattern s m).testBit k = s k := by
  induction m with
  | zero => exact ⟨Nat.one_pos, fun k hk => absurd hk (Nat.not_lt_zero k)⟩
  | succ m ih =>
    obtain ⟨hlt, hbits⟩ := ih
    have hpow : 2 ^ (m + 1) = 2 * 2 ^ m := by rw [Nat.pow_succ, Nat.mul_comm]
    cases hs : s m with
    | false =>
      have e : pattern s (m + 1) = pattern s m := by
        rw [pattern, hs]
        simp
      rw [e]
      refine ⟨by omega, fun k hk => ?_⟩
      by_cases hkm : k < m
      · exact hbits k hkm
      · have : k = m := by omega
        rw [this, hs]
        exact Nat.testBit_lt_two_pow hlt
    | true =>
      have e : pattern s (m + 1) = 2 ^ m + pattern s m := by
        rw [pattern, hs]
        simp
      rw [e]
      refine ⟨by omega, fun k hk => ?_⟩
      by_cases hkm : k < m
      · rw [Nat.testBit_two_pow_add_gt hkm]
        exact hbits k hkm
      · have : k = m := by omega
        rw [this, hs, Nat.testBit_two_pow_add_eq, Nat.testBit_lt_two_pow hlt]
        rfl

/-- Every assignment of 32 bits is the bit pattern of exactly one number below `2^32`. -/
theorem exists_unique_pattern (s : Nat → Bool) :
    ∃! n : Nat, n < 4294967296 ∧ ∀ k, k < 32 → n.testBit k = s k := by
  obtain ⟨hlt, hbits⟩ := pattern_spec s 32
  refine ⟨pattern s 32, ⟨by omega, hbits⟩, ?_⟩
  rintro m ⟨hm, hmb⟩
  apply Nat.eq_of_testBit_eq
  intro i
  by_cases hi : i < 32
  · rw [hmb i hi, hbits i hi]
  · have h1 : m < 2 ^ i := lt_of_lt_of_le (by omega : m < 2 ^ 32)
      (Nat.pow_le_pow_right (by decide) (by omega))
    have h2 : pattern s 32 < 2 ^ i := lt_of_lt_of_le hlt
      (Nat.pow_le_pow_right (by decide) (by omega))
    rw [Nat.testBit_lt_two_pow h1, Nat.testBit_lt_two_pow h2]

/-- C9 (amended): on every lattice with positive dimensions and a cell count below
`2^31` (buffer as the constructor allocates it), `init_with_randoms` returns, and the
cell of flat index `i`
holds the value `(cur_rand & cur_bit) ? 1 : -1` for the bit `i mod 32` of the word
number `i div 32`, narrowed to `int`. Over the `2^32` values of that `int` (listed by
their 32-bit patterns `n`), for each of the bit positions `0 .. 31` a cell is `+1` for
exactly `2^31` values and `-1` for the other `2^31`; and the 32 cells of one word are
independent: every assignment of `+1` and `-1` to the 32 bit positions arises from
exactly one value of the word. -/
theorem init_with_randoms_uniform (dr : Draws F) (L : Lattice F) (h : L.Sized) :
    (∃ L1, L.init_with_randoms dr = some L1 ∧
      ∀ i : Nat, (i : Int) < L.volume →
        L1.points[i]? = some (cell_of_word (dr.ints (L.ints_used + i / 32)) (i % 32))) ∧
    (∀ k : Nat, k < 32 →
      ((Finset.range 4294967296).filter (fun n : Nat => cell_of_word (n : Int) k = 1)).card
        = 2147483648 ∧
      ((Finset.range 4294967296).filter (fun n : Nat => cell_of_word (n : Int) k = -1)).card
        = 2147483648) ∧
    (∀ s : Nat → Int, (∀ k, k < 32 → s k = 1 ∨ s k = -1) →
      ∃! n : Nat, n < 4294967296 ∧ ∀ k, k < 32 → cell_of_word (n : Int) k = s k) := by
  refine ⟨?_, ?_, ?_⟩
  · obtain ⟨L1, e, _, _, _, _, hc⟩ := init_with_randoms_cells_sized dr L h
    refine ⟨L1, e, fun i hi => ?_⟩
    rw [hc i hi]
    rfl
  · intro k hk
    have hone : ∀ n : Nat, n ∈ Finset.range 4294967296 →
        (cell_of_word (n : Int) k = 1 ↔ n.testBit k = true) := by
      intro n hn
      rw [cell_of_word_eq _ k hk, bits32_natCast n (Finset.mem_range.mp hn)]
      cases n.testBit k <;> decide
    have hminus : ∀ n : Nat, n ∈ Finset.range 4294967296 →
        (cell_of_word (n : Int) k = -1 ↔ ¬ n.testBit k = true) := by
      intro n hn
      rw [cell_of_word_eq _ k hk, bits32_natCast n (Finset.mem_range.mp hn)]
      cases n.testBit k <;> decide
    have hsum := Finset.filter_card_add_filter_neg_card_eq_card
      (s := Finset.range 4294967296) (fun n => n.testBit k = true)
    rw [Finset.card_range, card_testBit k hk] at hsum
    rw [Finset.filter_congr hone, Finset.filter_congr hminus, card_testBit k hk]
    exact ⟨rfl, by omega⟩
  · intro s hs
    obtain ⟨n, ⟨hn, hb⟩, huniq⟩ := exists_unique_pattern (fun k => decide (s k = 1))
    have conv : ∀ (m : Nat), m < 4294967296 → ∀ k, k < 32 →
        (cell_of_word (m : Int) k = s k ↔ m.testBit k = decide (s k = 1)) := by
      intro m hm k hk
      rw [cell_of_word_eq _ k hk, bits32_natCast m hm]
      rcases hs k hk with e | e <;> rw [e] <;> cases m.testBit k <;> decide
    refine ⟨n, ⟨hn, fun k hk => (conv n hn k hk).mpr (hb k hk)⟩, ?_⟩
    rintro m ⟨hm, hmb⟩
    exact huniq m ⟨hm, fun k hk => (conv m hm k hk).mp (hmb k hk)⟩

theorem lattice_word_WF : lattice_word.WF :=
  new_WF 1 1 32 _ _ _ _ (by decide) (by decide) (by decide) (by decide) (by decide)
    (by decide) (by decide)

/-- Witness of `init_with_randoms_uniform`: the `1 x 1 x 32` lattice with the word
`2^31 - 1`; the cells `0 .. 30` are `+1` and the cell `31` is `-1`. -/
theorem init_with_randoms_uniform_witness :
    lattice_word.Sized ∧
    (lattice_word.init_with_randoms (draws_const 2147483647)).map
      (fun L => L.points.take 32) = some (List.replicate 31 1 ++ [-1]) ∧
    ∃ L1, lattice_word.init_with_randoms (draws_const 2147483647) = some L1 ∧
      L1.points[31]? = some (cell_of_word 2147483647 31) :=
  ⟨WF.sized lattice_word_WF, by decide,
    (init_with_randoms_uniform (draws_const 2147483647) lattice_word
      (WF.sized lattice_word_WF)).1.imp
      (fun _ hL => ⟨hL.1, hL.2 31 (by decide)⟩)⟩

/-- C9 (as stated, refuted): on the `1 x 1 x 32` lattice the cell `31` consumes the bit
`31` of the word. For the words `0`, `1` and `2^31 - 1` of the range `0 .. 2^31` the
cell is `-1`; among all the `2^31 + 1` words of that range it is `+1` only for the
single word `2^31`, not for half of them. And on the `1291 x 1291 x 1291` lattice
(cell count above `2^31`) `init_with_randoms` writes outside the buffer, whatever the
words. -/
theorem bit31_not_half_on_declared_range :
    (lattice_word.init_with_randoms (draws_const 0)).map (fun L => L.points[31]?)
      = some (some (-1)) ∧
    (lattice_word.init_with_randoms (draws_const 1)).map (fun L => L.points[31]?)
      = some (some (-1)) ∧
    (lattice_word.init_with_randoms (draws_const 2147483647)).map (fun L => L.points[31]?)
      = some (some (-1)) ∧
    (lattice_word.init_with_randoms (draws_const 2147483648)).map (fun L => L.points[31]?)
      = some (some 1) ∧
    (∀ w : Int, 0 ≤ w → w ≤ 2147483648 →
      ∃ L1, lattice_word.init_with_randoms (draws_const w) = some L1 ∧
        (L1.points[31]? = some 1 ↔ w = 2147483648) ∧
        (L1.points[31]? = some (-1) ↔ w < 2147483648)) ∧
    (0 < lattice_1291.size_x ∧ 0 < lattice_1291.size_y ∧ 0 < lattice_1291.size_z) ∧
    ∀ w : Int, lattice_1291.init_with_randoms (draws_const w) = none :=
  ⟨by decide, by decide, by decide, by decide, fun w hw0 hw1 =>
    init_with_randoms_bit31 (draws_const w) lattice_word lattice_word_WF 31 w (by decide)
      (by decide) rfl hw0 hw1,
    ⟨by decide, by decide, by decide⟩,
    fun w => init_with_randoms_none (draws_const w) lattice_1291 1288 671 0 (by decide)
      (by decide) (by decide) (by decide) (by decide) (by decide)
      (fun h => absurd h.1 (by decide))⟩

/-! ## C7: site selection -/

/-- C7 (code defect): on the `1 x 1 x 3` lattice the non-negative drawn integer
`r = 2^31 - 1` selects `z = 0`, the site of flat index `0`, although
`r mod size_z = r mod 3 = 1`: the sum `size_z + random_num` wraps to a negative `int`
before the remainder is taken. -/
theorem site_selection_wraps :
    (Lattice.new 1 1 3 (fun _ => 1) () () ()).altered 2147483647 = (0, 0, 0) ∧
    (Lattice.new 1 1 3 (fun _ => 1) () () ()).get 0 0 0 = 0 ∧
    (2147483647 : Int) % (Lattice.new 1 1 3 (fun _ => 1) () () ()).size_z = 1 ∧
    (2147483647 : Int) % (Lattice.new 1 1 3 (fun _ => 1) () () ()).volume = 1 := by
  decide

theorem ediv_ediv_pos (r a b : Int) (ha : 0 < a) (hb : 0 < b) : r / a / b = r / (a * b) := by
  have e1 := Int.ediv_add_emod r a
  have e2 := Int.ediv_add_emod (r / a) b
  have z0 := Int.emod_nonneg r (ne_of_gt ha)
  have z1 := Int.emod_lt_of_pos r ha
  have y0 := Int.emod_nonneg (r / a) (ne_of_gt hb)
  have y1 := Int.emod_lt_of_pos (r / a) hb
  have hab : 0 < a * b := by positivity
  have key := (Int.ediv_emod_unique (a := r) (b := a * b) (r := r % a + a * (r / a % b))
    (q := r / a / b) hab).mpr ⟨by linear_combination e1 + a * e2, by positivity, by nlinarith⟩
  exact key.1.symm

/-- Site selection for a draw on which no `int` sum wraps: the selected coordinates
are `z = r mod size_z`, `y = (r div size_z) mod size_y`,
`x = (r div (size_z*size_y)) mod size_x`, and the flat index of the selected site is
`r mod (size_x*size_y*size_z)`. -/
theorem site_selection_in_range (L : Lattice F) (h : L.WF) (r : Int) (hr0 : 0 ≤ r)
    (hz : r + L.size_z < 2147483648) (hy : r / L.size_z + L.size_y < 2147483648)
    (hx : r / (L.size_z * L.size_y) + L.size_x < 2147483648) :
    L.altered r =
      (r / (L.size_z * L.size_y) % L.size_x, r / L.size_z % L.size_y, r % L.size_z) ∧
    L.get (L.altered r).1 (L.altered r).2.1 (L.altered r).2.2 = r % L.volume := by
  have px := h.pos_x
  have py := h.pos_y
  have pz := h.pos_z
  have hq1 : 0 ≤ r / L.size_z := Int.ediv_nonneg hr0 (le_of_lt pz)
  have hq2 : 0 ≤ r / L.size_z / L.size_y := Int.ediv_nonneg hq1 (le_of_lt py)
  have hdd := ediv_ediv_pos r L.size_z L.size_y pz py
  have w0 : wrap32 r = r := wrap32_id (by omega) (by omega)
  have wz : wrap32 (L.size_z + r) = L.size_z + r := wrap32_id (by omega) (by omega)
  have wy : wrap32 (L.size_y + r / L.size_z) = L.size_y + r / L.size_z :=
    wrap32_id (by omega) (by omega)
  have wx : wrap32 (L.size_x + r / L.size_z / L.size_y) = L.size_x + r / L.size_z / L.size_y :=
    wrap32_id (by omega) (by rw [hdd]; omega)
  have d1 : Int.tdiv r L.size_z = r / L.size_z := Int.tdiv_eq_ediv hr0 (le_of_lt pz)
  have d2 : Int.tdiv (r / L.size_z) L.size_y = r / L.size_z / L.size_y :=
    Int.tdiv_eq_ediv hq1 (le_of_lt py)
  have ealt : L.altered r =
      (r / (L.size_z * L.size_y) % L.size_x, r / L.size_z % L.size_y, r % L.size_z) := by
    unfold Lattice.altered
    simp only [w0, d1, d2, wz, wy, wx]
    rw [tmod_nonneg_eq (by omega) pz, tmod_nonneg_eq (by omega) py,
      tmod_nonneg_eq (by omega) px, Int.add_emod_self_left, Int.add_emod_self_left,
      Int.add_emod_self_left, hdd]
  refine ⟨ealt, ?_⟩
  rw [ealt]
  simp only
  have x0 := Int.emod_nonneg (r / (L.size_z * L.size_y)) (ne_of_gt px)
  have x1 := Int.emod_lt_of_pos (r / (L.size_z * L.size_y)) px
  have y0 := Int.emod_nonneg (r / L.size_z) (ne_of_gt py)
  have y1 := Int.emod_lt_of_pos (r / L.size_z) py
  have z0 := Int.emod_nonneg r (ne_of_gt pz)
  have z1 := Int.emod_lt_of_pos r pz
  obtain ⟨g, _, _⟩ := get_eq L h (x := r / (L.size_z * L.size_y) % L.size_x)
    (y := r / L.size_z % L.size_y) (z := r % L.size_z) (by omega) (by omega) (by omega)
    (by omega) (by omega) (by omega)
  rw [g, Int.emod_emod_of_dvd _ (dvd_refl _), Int.emod_emod_of_dvd _ (dvd_refl _),
    Int.emod_emod_of_dvd _ (dvd_refl _)]
  obtain ⟨_, f0, f1⟩ := flat_eq L h x0 x1 y0 y1 z0 z1
  have e1 := Int.ediv_add_emod r L.size_z
  have e2 := Int.ediv_add_emod (r / L.size_z) L.size_y
  have e3 := Int.ediv_add_emod (r / L.size_z / L.size_y) L.size_x
  rw [hdd] at e3
  have hN : 0 < L.volume := by unfold Lattice.volume; positivity
  have key := (Int.ediv_emod_unique (a := r) (b := L.volume)
    (r := (r / (L.size_z * L.size_y) % L.size_x * L.size_y + r / L.size_z % L.size_y)
      * L.size_z + r % L.size_z)
    (q := r / (L.size_z * L.size_y) / L.size_x) hN).mpr
    ⟨by
      unfold Lattice.volume
      rw [← hdd] at e3 ⊢
      linear_combination e1 + L.size_z * e2 + L.size_z * L.size_y * e3, f0, f1⟩
  exact key.2.symm

/-! ## Counting online harts -/

theorem below_zero (ci : CpuInfo) : ci.below 0 = 0 := rfl

theorem below_succ (ci : CpuInfo) (h : Nat) :
    ci.below (h + 1) = ci.below h + if CPU_ISSET h ci.online_harts then 1 else 0 := by
  unfold CpuInfo.below
  rw [List.range_succ, List.filter_append, List.length_append]
  by_cases c : CPU_ISSET h ci.online_harts = true
  · simp [c]
  · simp [c]

theorem below_mono (ci : CpuInfo) {a b : Nat} (hab : a ≤ b) : ci.below a ≤ ci.below b := by
  induction b with
  | zero =>
    have : a = 0 := by omega
    rw [this]
  | succ b ih =>
    by_cases c : a = b + 1
    · rw [c]
    · have := ih (by omega)
      rw [below_succ]
      omega

theorem below_eq_of_none (ci : CpuInfo) {a b : Nat} (hab : a ≤ b)
    (hoff : ∀ x, a ≤ x → x < b → CPU_ISSET x ci.online_harts = false) :
    ci.below b = ci.below a := by
  induction b with
  | zero =>
    have : a = 0 := by omega
    rw [this]
  | succ b ih =>
    by_cases c : a = b + 1
    · rw [c]
    · have e := ih (by omega) (fun x h1 h2 => hoff x h1 (by omega))
      rw [below_succ, hoff b (by omega) (by omega), e]
      simp

/-- The first online hart at or after `a`, when there is an online hart in `a .. b-1`. -/
theorem exists_first_online (ci : CpuInfo) {a b : Nat} (hlt : ci.below a < ci.below b) :
    ∃ h, a ≤ h ∧ h < b ∧ CPU_ISSET h ci.online_harts = true ∧
      (∀ x, a ≤ x → x < h → CPU_ISSET x ci.online_harts = false) ∧
      ci.below h = ci.below a := by
  have hab : a ≤ b := by
    by_contra hc
    have := below_mono ci (show b ≤ a by omega)
    omega
  have hex : ∃ h, a ≤ h ∧ h < b ∧ CPU_ISSET h ci.online_harts = true := by
    by_contra hne
    push_neg at hne
    have := below_eq_of_none ci hab (fun x h1 h2 => by simpa using hne x h1 h2)
    omega
  refine ⟨Nat.find hex, (Nat.find_spec hex).1, (Nat.find_spec hex).2.1,
    (Nat.find_spec hex).2.2, ?_, ?_⟩
  · intro x h1 h2
    have := Nat.find_min hex h2
    have hxb : x < b := lt_trans h2 (Nat.find_spec hex).2.1
    simp only [not_and] at this
    simpa using this h1 hxb
  · apply below_eq_of_none ci (Nat.find_spec hex).1
    intro x h1 h2
    have := Nat.find_min hex h2
    have hxb : x < b := lt_trans h2 (Nat.find_spec hex).2.1
    simp only [not_and] at this
    simpa using this h1 hxb

theorem online_list_length (ci : CpuInfo) : ci.online_list.length = ci.below ci.hart_arr_size :=
  rfl

/-- The online hart `h` is the element number `below h` of the ascending list. -/
theorem online_list_getElem (ci : CpuInfo) {h : Nat}
    (hon : CPU_ISSET h ci.online_harts = true) (hlt : h < ci.hart_arr_size) :
    ci.online_list[ci.below h]? = some h := by
  have e : List.range ci.hart_arr_size
      = List.range h ++ (h :: List.range' (h + 1) (ci.hart_arr_size - h - 1)) := by
    rw [List.range_eq_range', List.range_eq_range', ← List.range'_succ,
      show ci.hart_arr_size - h - 1 + 1 = ci.hart_arr_size - h by omega]
    have := List.range'_append 0 h (ci.hart_arr_size - h) 1
    simp only [zero_add, one_mul] at this
    rw [this]
    congr 1
    omega
  unfold CpuInfo.online_list CpuInfo.below
  rw [e, List.filter_append, List.getElem?_append_right (le_refl _), Nat.sub_self,
    List.filter_cons_of_pos (p := fun x => CPU_ISSET x ci.online_harts) hon]
  exact List.getElem?_cons_zero

/-! ## `assign_hardware_thread` -/

theorem isset_lt_cap {h : Nat} {s : Finset Nat} (hon : CPU_ISSET h s = true) :
    h < CPU_SETSIZE := by
  unfold CPU_ISSET at hon
  simp only [Bool.and_eq_true, decide_eq_true_eq] at hon
  exact hon.1

theorem cpu_set_single {h : Nat} {s : Finset Nat} (hon : CPU_ISSET h s = true) :
    CPU_SET h CPU_ZERO = {h} := by
  unfold CPU_SET CPU_ZERO
  rw [if_pos (isset_lt_cap hon)]
  rfl

theorem advance_current (ci : CpuInfo) (hs : ci.hart_arr_size < 4294967296)
    (hc : ci.current_hart < ci.hart_arr_size) :
    ci.advance = { ci with current_hart := (ci.current_hart + 1) % ci.hart_arr_size } := by
  unfold CpuInfo.advance
  rw [Nat.mod_eq_of_lt (show ci.current_hart + 1 < 4294967296 by omega)]

/-- The loop of `assign_hardware_thread` passes `t` offline harts. -/
theorem assign_scan_skip (t : Nat) : ∀ (left : Nat) (ci : CpuInfo),
    ci.hart_arr_size < 4294967296 → ci.current_hart < ci.hart_arr_size →
    ci.current_hart + t ≤ ci.hart_arr_size → t ≤ left →
    (∀ x, ci.current_hart ≤ x → x < ci.current_hart + t →
      CPU_ISSET x ci.online_harts = false) →
    assign_scan left ci =
      assign_scan (left - t)
        { ci with current_hart := (ci.current_hart + t) % ci.hart_arr_size } := by
  induction t with
  | zero =>
    intro left ci _ hc _ _ _
    simp only [Nat.add_zero, Nat.sub_zero, Nat.mod_eq_of_lt hc]
  | succ t ih =>
    intro left ci hs hc hct hl hoff
    obtain ⟨l, rfl⟩ : ∃ l, left = l + 1 := ⟨left - 1, by omega⟩
    have h0 := hoff ci.current_hart (le_refl _) (by omega)
    rw [assign_scan, if_neg (by rw [h0]; decide), advance_current ci hs hc]
    by_cases hc1 : ci.current_hart + 1 < ci.hart_arr_size
    · have hmod : (ci.current_hart + 1) % ci.hart_arr_size = ci.current_hart + 1 :=
        Nat.mod_eq_of_lt hc1
      rw [hmod]
      have := ih l { ci with current_hart := ci.current_hart + 1 } hs hc1
        (by simp only; omega) (by omega)
        (fun x h1 h2 => hoff x (by simp only at h1; omega) (by simp only at h2; omega))
      rw [this]
      simp only [Nat.add_sub_add_right, Nat.add_assoc, Nat.add_comm 1 t]
    · have ht : t = 0 := by omega
      subst ht
      simp only [Nat.add_sub_cancel, Nat.zero_add]

/-- The loop of `assign_hardware_thread` stops at the first online hart. -/
theorem assign_scan_hit (left : Nat) (ci : CpuInfo) (hs : ci.hart_arr_size < 4294967296)
    (hc : ci.current_hart < ci.hart_arr_size)
    (hon : CPU_ISSET ci.current_hart ci.online_harts = true) :
    assign_scan (left + 1) ci =
      ({ ci with assigned_harts := wrap32 (ci.assigned_harts + 1),
                 current_hart := (ci.current_hart + 1) % ci.hart_arr_size },
        {ci.current_hart}) := by
  rw [assign_scan, if_pos hon, cpu_set_single hon,
    advance_current _ (by exact hs) (by exact hc)]

/-- The loop of `assign_hardware_thread`, started at or before the online hart `h`
with no online hart in between and enough iterations left, returns `h`. -/
theorem assign_scan_first (left : Nat) (ci : CpuInfo) (h : Nat)
    (hs : ci.hart_arr_size < 4294967296) (hc : ci.current_hart ≤ h)
    (hh : h < ci.hart_arr_size) (hl : h - ci.current_hart < left)
    (hon : CPU_ISSET h ci.online_harts = true)
    (hoff : ∀ x, ci.current_hart ≤ x → x < h → CPU_ISSET x ci.online_harts = false) :
    assign_scan left ci =
      ({ ci with assigned_harts := wrap32 (ci.assigned_harts + 1),
                 current_hart := (h + 1) % ci.hart_arr_size }, {h}) := by
  have e := assign_scan_skip (h - ci.current_hart) left ci hs (by omega) (by omega) (by omega)
    (fun x h1 h2 => hoff x h1 (by omega))
  have e2 : ci.current_hart + (h - ci.current_hart) = h := by omega
  rw [e, e2, Nat.mod_eq_of_lt hh]
  obtain ⟨l, hl2⟩ : ∃ l, left - (h - ci.current_hart) = l + 1 :=
    ⟨left - (h - ci.current_hart) - 1, by omega⟩
  rw [hl2, assign_scan_hit l _ (by exact hs) (by exact hh) (by exact hon)]

theorem below_congr {ci cj : CpuInfo} (h : cj.online_harts = ci.online_harts) (n : Nat) :
    cj.below n = ci.below n := by
  unfold CpuInfo.below
  rw [h]

theorem online_list_nodup (ci : CpuInfo) : ci.online_list.Nodup :=
  List.Nodup.filter _ (List.nodup_range _)

theorem online_list_sorted (ci : CpuInfo) : ci.online_list.Sorted (· ≤ ·) :=
  ((List.pairwise_lt_range _).filter _).imp (fun h => le_of_lt h)

theorem online_list_toFinset (ci : CpuInfo) (hwf : ci.WF) :
    ci.online_list.toFinset = ci.online_harts := by
  ext h
  simp only [CpuInfo.online_list, List.mem_toFinset, List.mem_filter, List.mem_range, CPU_ISSET,
    Bool.and_eq_true, decide_eq_true_eq]
  constructor
  · intro hh; exact hh.2.2
  · intro hh; exact ⟨hwf.online_lt h hh, hwf.online_cap h hh, hh⟩

/-- On a well-formed topology the ascending list of the online harts below
`hart_arr_size` is the sorted list of all online harts. -/
theorem online_list_eq_sort (ci : CpuInfo) (hwf : ci.WF) :
    ci.online_list = ci.online_harts.sort (· ≤ ·) := by
  have := (List.toFinset_sort (· ≤ ·) (online_list_nodup ci)).mpr (online_list_sorted ci)
  rw [online_list_toFinset ci hwf] at this
  exact this.symm

theorem online_list_length_card (ci : CpuInfo) (hwf : ci.WF) :
    ci.online_list.length = ci.online_harts.card := by
  rw [online_list_eq_sort ci hwf, Finset.length_sort]

/-- One call of `assign_hardware_thread`, for a cursor below `hart_arr_size` and at
least one online hart: with `c` online harts below the cursor, the call returns the
online hart number `c mod m` and leaves the cursor behind it. -/
theorem assign_hardware_thread_spec (ci : CpuInfo) (hs : ci.hart_arr_size < 4294967296)
    (hc : ci.current_hart < ci.hart_arr_size) (hm : 0 < ci.below ci.hart_arr_size) :
    ∃ h, ci.online_list[ci.below ci.current_hart % ci.below ci.hart_arr_size]? = some h ∧
      h < ci.hart_arr_size ∧ CPU_ISSET h ci.online_harts = true ∧
      ci.below h = ci.below ci.current_hart % ci.below ci.hart_arr_size ∧
      assign_hardware_thread ci =
        ({ ci with assigned_harts := wrap32 (ci.assigned_harts + 1),
                   current_hart := (h + 1) % ci.hart_arr_size }, {h}) ∧
      ci.below ((h + 1) % ci.hart_arr_size) % ci.below ci.hart_arr_size =
        (ci.below ci.current_hart + 1) % ci.below ci.hart_arr_size := by
  have hle : ci.below ci.current_hart ≤ ci.below ci.hart_arr_size := below_mono ci (le_of_lt hc)
  by_cases hlt : ci.below ci.current_hart < ci.below ci.hart_arr_size
  · obtain ⟨h, h1, h2, hon, hoff, hb⟩ := exists_first_online ci hlt
    refine ⟨h, ?_, h2, hon, ?_, ?_, ?_⟩
    · rw [Nat.mod_eq_of_lt hlt, ← hb]
      exact online_list_getElem ci hon h2
    · rw [Nat.mod_eq_of_lt hlt, hb]
    · exact assign_scan_first _ ci h hs h1 h2 (by omega) hon hoff
    · have hs1 := below_succ ci h
      rw [if_pos hon] at hs1
      by_cases hend : h + 1 < ci.hart_arr_size
      · rw [Nat.mod_eq_of_lt hend, hs1, hb]
      · have he : h + 1 = ci.hart_arr_size := by omega
        rw [he, Nat.mod_self, below_zero, Nat.zero_mod]
        rw [he] at hs1
        rw [← hb, ← hs1, Nat.mod_self]
  · have heq : ci.below ci.current_hart = ci.below ci.hart_arr_size := by omega
    have hnone : ∀ x, ci.current_hart ≤ x → x < ci.hart_arr_size →
        CPU_ISSET x ci.online_harts = false := by
      intro x h1 h2
      by_contra hx
      have hx1 : CPU_ISSET x ci.online_harts = true := by simpa using hx
      have hs1 := below_succ ci x
      rw [if_pos hx1] at hs1
      have m1 := below_mono ci h1
      have m2 := below_mono ci (show x + 1 ≤ ci.hart_arr_size by omega)
      omega
    have h0 : ci.below 0 < ci.below ci.current_hart := by rw [below_zero, heq]; exact hm
    obtain ⟨h, _, h2, hon, hoff, hb⟩ := exists_first_online ci h0
    rw [below_zero] at hb
    refine ⟨h, ?_, by omega, hon, ?_, ?_, ?_⟩
    · rw [heq, Nat.mod_self, ← hb]
      exact online_list_getElem ci hon (by omega)
    · rw [heq, Nat.mod_self, hb]
    · have e := assign_scan_skip (ci.hart_arr_size - ci.current_hart) ci.hart_arr_size ci hs hc
        (by omega) (by omega) (fun x h1 h2 => hnone x h1 (by omega))
      have e2 : ci.current_hart + (ci.hart_arr_size - ci.current_hart) = ci.hart_arr_size := by
        omega
      unfold assign_hardware_thread
      rw [e, e2, Nat.mod_self]
      exact assign_scan_first _ _ h (by exact hs) (Nat.zero_le _)
        (show h < ci.hart_arr_size by omega)
        (show h - 0 < ci.hart_arr_size - (ci.hart_arr_size - ci.current_hart) by omega)
        hon (fun x h1 h3 => hoff x (Nat.zero_le _) h3)
    · have hs1 := below_succ ci h
      rw [if_pos hon, hb] at hs1
      rw [Nat.mod_eq_of_lt (show h + 1 < ci.hart_arr_size by omega), hs1, heq,
        Nat.add_mod_left]

theorem wrap32_wrap32_add (a b : Int) : wrap32 (wrap32 a + b) = wrap32 (a + b) := by
  unfold wrap32
  omega

theorem online_list_congr {ci cj : CpuInfo} (h : cj.online_harts = ci.online_harts)
    (hs : cj.hart_arr_size = ci.hart_arr_size) : cj.online_list = ci.online_list := by
  unfold CpuInfo.online_list
  rw [h, hs]

/-- The state after `j` calls of `assign_hardware_thread` on a topology with a fresh
cursor and at least one online hart below `hart_arr_size`. -/
theorem assign_calls_inv (ci : CpuInfo) (hs : ci.hart_arr_size < 4294967296)
    (hm : 0 < ci.below ci.hart_arr_size) (hfresh : ci.current_hart = 0) (j : Nat) :
    (assign_calls j ci).1.online_harts = ci.online_harts ∧
    (assign_calls j ci).1.hart_arr_size = ci.hart_arr_size ∧
    (assign_calls j ci).1.current_hart < ci.hart_arr_size ∧
    (assign_calls j ci).1.assigned_harts =
      (fun a => wrap32 (a + 1))^[j] ci.assigned_harts ∧
    ci.below (assign_calls j ci).1.current_hart % ci.below ci.hart_arr_size =
      j % ci.below ci.hart_arr_size ∧
    (assign_calls j ci).2 =
      (List.range j).map (fun i => {ci.online_list.getD (i % ci.below ci.hart_arr_size) 0}) := by
  have hpos : 0 < ci.hart_arr_size := by
    by_contra hc
    have : ci.hart_arr_size = 0 := by omega
    rw [this, below_zero] at hm
    omega
  induction j with
  | zero =>
    refine ⟨rfl, rfl, ?_, ?_, ?_, rfl⟩
    · show ci.current_hart < _
      omega
    · rfl
    · show ci.below ci.current_hart % _ = _
      rw [hfresh, below_zero]
  | succ j ih =>
    obtain ⟨e1, e2, e3, e4, e5, e6⟩ := ih
    have hb : ∀ n, (assign_calls j ci).1.below n = ci.below n := below_congr e1
    obtain ⟨h, g1, g2, g3, g4, g5, g6⟩ := assign_hardware_thread_spec (assign_calls j ci).1
      (by rw [e2]; exact hs) (by rw [e2]; exact e3) (by rw [hb, e2]; exact hm)
    rw [hb, hb, e2, e5, online_list_congr e1 e2] at g1
    rw [hb, hb, hb, e2] at g6
    have hstep : assign_calls (j + 1) ci =
        (({ (assign_calls j ci).1 with
            assigned_harts := wrap32 ((assign_calls j ci).1.assigned_harts + 1),
            current_hart := (h + 1) % (assign_calls j ci).1.hart_arr_size } : CpuInfo),
          (assign_calls j ci).2 ++ [{h}]) := by
      rw [assign_calls, g5]
    rw [hstep]
    refine ⟨e1, e2, ?_, ?_, ?_, ?_⟩
    · show (h + 1) % (assign_calls j ci).1.hart_arr_size < _
      rw [e2]
      exact Nat.mod_lt _ hpos
    · rw [Function.iterate_succ_apply', ← e4]
    · show ci.below ((h + 1) % (assign_calls j ci).1.hart_arr_size) % _ = _
      rw [e2, g6, Nat.add_mod, e5, ← Nat.add_mod]
    · show (assign_calls j ci).2 ++ [{h}] = _
      rw [e6, List.range_succ, List.map_append]
      simp only [List.map_cons, List.map_nil]
      rw [List.getD_eq_getElem?_getD, g1]
      simp only [Option.getD_some]

theorem iterate_wrap32_succ (j : Nat) :
    (fun a => wrap32 (a + 1))^[j] 0 = wrap32 j := by
  induction j with
  | zero => decide
  | succ j ih =>
    rw [Function.iterate_succ_apply', ih]
    simp only [Nat.cast_add, Nat.cast_one]
    exact wrap32_wrap32_add _ 1

/-! ## C5: round-robin assignment -/

/-- C5: on a topology with `m ≥ 1` online harts, all of index below `hart_arr_size`,
and a cursor starting at hart `0`, the call number `j` (counted from `0`) of
`assign_hardware_thread` returns the mask that contains only the online hart number
`j mod m` in ascending order, whatever the gaps in the hart numbering. -/
theorem round_robin_assignment (ci : CpuInfo) (hwf : ci.WF)
    (hm : 1 ≤ ci.online_harts.card) (hfresh : ci.current_hart = 0) (j : Nat) :
    ∃ h, (ci.online_harts.sort (· ≤ ·))[j % ci.online_harts.card]? = some h ∧
      (assign_hardware_thread (assign_calls j ci).1).2 = {h} ∧
      ∀ k, j < k → (assign_calls k ci).2[j]? = some {h} := by
  have hlen := online_list_length_card ci hwf
  have hm1 : 0 < ci.below ci.hart_arr_size := by
    rw [← online_list_length, hlen]; exact hm
  have hjm : j % ci.online_harts.card < ci.online_list.length := by
    rw [hlen]; exact Nat.mod_lt _ hm
  refine ⟨ci.online_list[j % ci.online_harts.card], ?_, ?_, ?_⟩
  · rw [← online_list_eq_sort ci hwf]
    exact List.getElem?_eq_getElem hjm
  · have h1 := (assign_calls_inv ci hwf.size_lt hm1 hfresh (j + 1)).2.2.2.2.2
    have h0 := (assign_calls_inv ci hwf.size_lt hm1 hfresh j).2.2.2.2.2
    rw [assign_calls, List.range_succ, List.map_append, ← h0] at h1
    have := List.append_cancel_left h1
    simp only [List.map_cons, List.map_nil, List.cons.injEq, and_true] at this
    rw [this, List.getD_eq_getElem?_getD, ← online_list_length, hlen,
      List.getElem?_eq_getElem hjm]
    rfl
  · intro k hk
    rw [(assign_calls_inv ci hwf.size_lt hm1 hfresh k).2.2.2.2.2, List.getElem?_map,
      List.getElem?_range hk]
    simp only [Option.map_some']
    rw [List.getD_eq_getElem?_getD, ← online_list_length, hlen, List.getElem?_eq_getElem hjm]
    rfl

/-- Witness of `round_robin_assignment`: harts `0 .. 3` all online; five calls return
`0, 1, 2, 3, 0`. With the online harts `0, 1, 3, 6` of eight, six calls return
`0, 1, 3, 6, 0, 1`. -/
theorem round_robin_assignment_witness :
    (assign_calls 5 topology4).2 = [{0}, {1}, {2}, {3}, {0}] ∧
    (assign_calls 6 topology_gaps).2 = [{0}, {1}, {3}, {6}, {0}, {1}] ∧
    ∃ h, (topology4.online_harts.sort (· ≤ ·))[4 % topology4.online_harts.card]? = some h ∧
      (assign_calls 5 topology4).2[4]? = some {h} :=
  ⟨by decide, by decide,
    (round_robin_assignment topology4 ⟨by decide, by decide, by decide⟩ (by decide) rfl 4).imp
      (fun _ hh => ⟨hh.1, hh.2.2 5 (by decide)⟩)⟩

/-! ## `fill_with_parasite_threads` -/

theorem below_le (ci : CpuInfo) (h : Nat) : ci.below h ≤ h := by
  unfold CpuInfo.below
  exact (List.length_filter_le _ _).trans (by rw [List.length_range])

theorem below_le_cap (ci : CpuInfo) (h : Nat) : ci.below h ≤ CPU_SETSIZE := by
  by_cases c : h ≤ CPU_SETSIZE
  · exact (below_le ci h).trans c
  · have := below_eq_of_none ci (show CPU_SETSIZE ≤ h by omega) (fun x h1 _ => by
      unfold CPU_ISSET
      simp only [Bool.and_eq_false_imp, decide_eq_true_eq]
      intro hx; omega)
    rw [this]
    exact below_le ci _

theorem online_from_length (ci : CpuInfo) (a : Nat) (ha : a ≤ ci.hart_arr_size) :
    ci.below a + (ci.online_from a).length = ci.below ci.hart_arr_size := by
  have e : List.range ci.hart_arr_size = List.range a ++ List.range' a (ci.hart_arr_size - a) := by
    rw [List.range_eq_range', List.range_eq_range']
    have := List.range'_append 0 a (ci.hart_arr_size - a) 1
    simp only [zero_add, one_mul] at this
    rw [this]
    congr 1
    omega
  unfold CpuInfo.below CpuInfo.online_from
  rw [e, List.filter_append, List.length_append]

theorem online_from_step (ci : CpuInfo) (a : Nat) (ha : a < ci.hart_arr_size) :
    ci.online_from a =
      if CPU_ISSET a ci.online_harts then a :: ci.online_from (a + 1)
      else ci.online_from (a + 1) := by
  unfold CpuInfo.online_from
  have e : ci.hart_arr_size - a = (ci.hart_arr_size - (a + 1)) + 1 := by omega
  rw [e, List.range'_succ, List.filter_cons]

/-- The loop of `fill_with_parasite_threads` when every thread setup succeeds: it
creates one thread, pinned to the single hart, on each online hart from the cursor
on. `assigned_harts + parasites_spawned` is the number of online harts below the
cursor throughout. -/
theorem parasite_loop_spec (n : Nat) : ∀ (fuel : Nat) (ci : CpuInfo) (s : Int)
    (threads : List (Finset Nat)), ci.WF → ci.hart_arr_size - ci.current_hart = n →
    ci.current_hart ≤ ci.hart_arr_size → n + 1 ≤ fuel →
    ci.assigned_harts + s = (ci.below ci.current_hart : Int) →
    0 ≤ ci.assigned_harts → 0 ≤ s →
    ci.online_harts.card = ci.below ci.hart_arr_size →
    ∃ cur, parasite_loop pthreads_ok fuel ci s threads =
      some ({ ci with current_hart := cur }, s + (ci.online_from ci.current_hart).length,
        threads ++ (ci.online_from ci.current_hart).map (fun h => {h})) := by
  induction n with
  | zero =>
    intro fuel ci s threads hwf hn hle hf hinv ha0 hs0 hcard
    obtain ⟨f, rfl⟩ : ∃ f, fuel = f + 1 := ⟨fuel - 1, by omega⟩
    have hcur : ci.current_hart = ci.hart_arr_size := by omega
    refine ⟨ci.current_hart, ?_⟩
    rw [parasite_loop, if_neg (by omega)]
    have : ci.online_from ci.current_hart = [] := by
      unfold CpuInfo.online_from
      rw [hcur, Nat.sub_self]
      rfl
    rw [this]
    simp
  | succ n ih =>
    intro fuel ci s threads hwf hn hle hf hinv ha0 hs0 hcard
    obtain ⟨f, rfl⟩ : ∃ f, fuel = f + 1 := ⟨fuel - 1, by omega⟩
    have hlt : ci.current_hart < ci.hart_arr_size := by omega
    have hsz := hwf.size_lt
    have hcap := below_le_cap ci ci.current_hart
    have hlen := online_from_length ci ci.current_hart hle
    have hw : wrap32 (ci.assigned_harts + s) = (ci.below ci.current_hart : Int) := by
      rw [hinv]
      apply wrap32_id <;> simp only [CPU_SETSIZE] at hcap <;> omega
    rw [parasite_loop, hw]
    unfold CPU_COUNT
    rw [hcard]
    by_cases hmore : ci.below ci.current_hart < ci.below ci.hart_arr_size
    · rw [if_pos ⟨by exact_mod_cast hmore, hlt⟩]
      have hmod : (ci.current_hart + 1) % 4294967296 = ci.current_hart + 1 :=
        Nat.mod_eq_of_lt (by omega)
      rw [hmod, online_from_step ci _ hlt]
      have hb := below_succ ci ci.current_hart
      by_cases hon : CPU_ISSET ci.current_hart ci.online_harts = true
      · rw [if_neg (by simp [hon])]
        have p1 : ∀ h, pthreads_ok.attr_init h = true := fun _ => rfl
        have p2 : ∀ h, pthreads_ok.attr_setaffinity_np h = true := fun _ => rfl
        have p3 : ∀ h, pthreads_ok.attr_setdetachstate h = true := fun _ => rfl
        have p4 : ∀ h, pthreads_ok.create h = true := fun _ => rfl
        simp only [p1, p2, p3, p4, not_true_eq_false, if_false]
        rw [cpu_set_single hon, if_pos hon]
        rw [if_pos hon] at hb
        have hw2 : wrap32 (s + 1) = s + 1 := by
          apply wrap32_id <;> simp only [CPU_SETSIZE] at hcap <;> omega
        rw [hw2]
        obtain ⟨cur, e⟩ := ih f { ci with current_hart := ci.current_hart + 1 } (s + 1)
          (threads ++ [{ci.current_hart}]) ⟨hwf.online_lt, hwf.online_cap, hwf.size_lt⟩
          (by simp only; omega) (by simp only; omega) (by omega)
          (by
            show ci.assigned_harts + (s + 1) = ((ci.below (ci.current_hart + 1) : Nat) : Int)
            rw [hb]; push_cast; omega)
          ha0 (by omega) hcard
        refine ⟨cur, ?_⟩
        rw [e]
        have eo : ({ ci with current_hart := ci.current_hart + 1 } : CpuInfo).online_from
            (ci.current_hart + 1) = ci.online_from (ci.current_hart + 1) := rfl
        simp only [eo, List.length_cons, List.map_cons, List.append_assoc,
          List.singleton_append, Nat.cast_add, Nat.cast_one, add_assoc, add_comm (1 : Int)]
      · rw [if_pos (by simp [hon])]
        have hoff : CPU_ISSET ci.current_hart ci.online_harts = false := by simpa using hon
        rw [hoff] at hb
        obtain ⟨cur, e⟩ := ih f { ci with current_hart := ci.current_hart + 1 } s threads
          ⟨hwf.online_lt, hwf.online_cap, hwf.size_lt⟩
          (by simp only; omega) (by simp only; omega) (by omega)
          (by
            show ci.assigned_harts + s = ((ci.below (ci.current_hart + 1) : Nat) : Int)
            rw [hb]; simp only [Bool.false_eq_true, if_false, Nat.add_zero]; exact hinv)
          ha0 hs0 hcard
        refine ⟨cur, ?_⟩
        rw [e, if_neg (by simp [hoff])]
        rfl
    · rw [if_neg (by
        intro hh
        exact hmore (by exact_mod_cast hh.1))]
      have hz : (ci.online_from ci.current_hart).length = 0 := by omega
      have : ci.online_from ci.current_hart = [] := List.length_eq_zero.mp hz
      rw [this]
      exact ⟨ci.current_hart, by simp⟩

theorem isset_iff_mem (ci : CpuInfo) (hwf : ci.WF) (h : Nat) :
    CPU_ISSET h ci.online_harts = true ↔ h ∈ ci.online_harts := by
  unfold CPU_ISSET
  simp only [Bool.and_eq_true, decide_eq_true_eq]
  exact ⟨fun hh => hh.2, fun hh => ⟨hwf.online_cap h hh, hh⟩⟩

/-- With no online hart, the loop of `assign_hardware_thread` returns the empty mask
and changes only the cursor. -/
theorem assign_scan_none (left : Nat) : ∀ ci : CpuInfo, ci.online_harts = ∅ →
    (assign_scan left ci).1.online_harts = ci.online_harts ∧
    (assign_scan left ci).1.hart_arr_size = ci.hart_arr_size ∧
    (assign_scan left ci).1.assigned_harts = ci.assigned_harts ∧
    (assign_scan left ci).2 = ∅ := by
  induction left with
  | zero => intro ci _; exact ⟨rfl, rfl, rfl, rfl⟩
  | succ l ih =>
    intro ci he
    have hoff : CPU_ISSET ci.current_hart ci.online_harts = false := by
      unfold CPU_ISSET
      rw [he]
      simp
    rw [assign_scan, if_neg (by rw [hoff]; decide)]
    exact ih ci.advance he

theorem assign_calls_none (ci : CpuInfo) (he : ci.online_harts = ∅) (k : Nat) :
    (assign_calls k ci).1.online_harts = ci.online_harts ∧
    (assign_calls k ci).1.hart_arr_size = ci.hart_arr_size ∧
    (assign_calls k ci).1.assigned_harts = ci.assigned_harts := by
  induction k with
  | zero => exact ⟨rfl, rfl, rfl⟩
  | succ k ih =>
    obtain ⟨e1, e2, e3⟩ := ih
    obtain ⟨g1, g2, g3, _⟩ := assign_scan_none (assign_calls k ci).1.hart_arr_size
      (assign_calls k ci).1 (by rw [e1, he])
    rw [assign_calls]
    unfold assign_hardware_thread
    exact ⟨g1.trans e1, g2.trans e2, g3.trans e3⟩

/-- An online hart has been returned by one of the first `k` calls exactly when
fewer than `k` online harts lie below it. -/
theorem returned_iff (ci : CpuInfo) (hwf : ci.WF) (hm : 0 < ci.below ci.hart_arr_size)
    (hfresh : ci.current_hart = 0) (k h : Nat) (hon : h ∈ ci.online_harts) :
    (∃ t ∈ (assign_calls k ci).2, h ∈ t) ↔ ci.below h < k := by
  have hlt := hwf.online_lt h hon
  have hset := (isset_iff_mem ci hwf h).mpr hon
  have hget := online_list_getElem ci hset hlt
  have hbm : ci.below h < ci.below ci.hart_arr_size := by
    have h1 := below_succ ci h
    rw [if_pos hset] at h1
    have := below_mono ci (show h + 1 ≤ ci.hart_arr_size by omega)
    omega
  rw [(assign_calls_inv ci hwf.size_lt hm hfresh k).2.2.2.2.2]
  constructor
  · rintro ⟨t, ht, hmem⟩
    obtain ⟨i, hi, rfl⟩ := List.mem_map.mp ht
    rw [Finset.mem_singleton] at hmem
    have hik : i < k := List.mem_range.mp hi
    have him : i % ci.below ci.hart_arr_size < ci.online_list.length := Nat.mod_lt _ hm
    have e : ci.online_list[i % ci.below ci.hart_arr_size]? = some h := by
      rw [List.getElem?_eq_getElem him]
      rw [List.getD_eq_getElem?_getD, List.getElem?_eq_getElem him] at hmem
      simp only [Option.getD_some] at hmem
      rw [hmem]
    have := List.getElem?_inj him (online_list_nodup ci) (e.trans hget.symm)
    have hle : i % ci.below ci.hart_arr_size ≤ i := Nat.mod_le _ _
    omega
  · intro hk
    refine ⟨{h}, List.mem_map.mpr ⟨ci.below h, List.mem_range.mpr hk, ?_⟩,
      Finset.mem_singleton.mpr rfl⟩
    rw [Nat.mod_eq_of_lt hbm, List.getD_eq_getElem?_getD, hget]
    rfl

theorem mem_online_from (ci : CpuInfo) (a h : Nat) :
    h ∈ ci.online_from a ↔
      a ≤ h ∧ h < ci.hart_arr_size ∧ CPU_ISSET h ci.online_harts = true := by
  unfold CpuInfo.online_from
  rw [List.mem_filter, List.mem_range']
  constructor
  · rintro ⟨⟨i, hi, rfl⟩, hon⟩
    exact ⟨by omega, by omega, hon⟩
  · rintro ⟨h1, h2, hon⟩
    exact ⟨⟨h - a, by omega, by omega⟩, hon⟩

theorem online_from_nodup (ci : CpuInfo) (a : Nat) : (ci.online_from a).Nodup :=
  List.Nodup.filter _ (List.nodup_range' _ _)

/-! ## C10: the parasite threads cover the unassigned harts -/

/-- C10: on a topology whose online harts are all below `hart_arr_size`, with a fresh
cursor, after `k` calls of `assign_hardware_thread` (`k` an `int`) and when every
thread setup succeeds, `fill_with_parasite_threads` returns having created threads
that are each pinned to a single-hart mask: exactly one on each online hart that none
of the `k` calls returned, none on an offline hart or on a returned one; their number
is `m - k` (zero when `k ≥ m`) for `m` online harts. -/
theorem parasite_threads_cover (ci : CpuInfo) (hwf : ci.WF) (hfresh : ci.current_hart = 0)
    (hass : ci.assigned_harts = 0) (k : Nat) (hk : (k : Int) < 2147483648) :
    ∃ ci1 threads,
      fill_with_parasite_threads pthreads_ok (assign_calls k ci).1 = some (ci1, threads) ∧
      (∀ t ∈ threads, ∃ h, t = {h}) ∧
      (∀ h, h ∈ ci.online_harts → (∀ t ∈ (assign_calls k ci).2, h ∉ t) →
        threads.count {h} = 1) ∧
      (∀ h, (h ∉ ci.online_harts ∨ ∃ t ∈ (assign_calls k ci).2, h ∈ t) →
        threads.count {h} = 0) ∧
      threads.length = ci.online_harts.card - k := by
  have hcard : ci.online_harts.card = ci.below ci.hart_arr_size := by
    rw [← online_list_length_card ci hwf, online_list_length]
  by_cases hm : ci.online_harts.card = 0
  · -- no online hart at all
    have he : ci.online_harts = ∅ := Finset.card_eq_zero.mp hm
    obtain ⟨e1, e2, e3⟩ := assign_calls_none ci he k
    have hnot : ¬ ((assign_calls k ci).1.assigned_harts
        > CPU_COUNT (assign_calls k ci).1.online_harts) := by
      unfold CPU_COUNT
      rw [e1, e3, hass, hm]
      decide
    have hstop : ¬ (wrap32 ((assign_calls k ci).1.assigned_harts + 0)
          < CPU_COUNT (assign_calls k ci).1.online_harts ∧
        (assign_calls k ci).1.current_hart < (assign_calls k ci).1.hart_arr_size) := by
      unfold CPU_COUNT
      rw [e1, e3, hass, hm]
      intro hh
      exact absurd hh.1 (by decide)
    refine ⟨_, [], by
      unfold fill_with_parasite_threads
      rw [if_neg hnot, parasite_loop, if_neg hstop]
      rfl, ?_, ?_, ?_, ?_⟩
    · intro t ht; cases ht
    · intro h hon; rw [he] at hon; cases hon
    · intro h _; rfl
    · rw [hm]; simp
  · have hm1 : 0 < ci.below ci.hart_arr_size := by omega
    have hcap := below_le_cap ci ci.hart_arr_size
    simp only [CPU_SETSIZE] at hcap
    obtain ⟨e1, e2, e3, e4, e5, e6⟩ := assign_calls_inv ci hwf.size_lt hm1 hfresh k
    rw [hass, iterate_wrap32_succ, wrap32_id (by omega) hk] at e4
    have hwf1 : (assign_calls k ci).1.WF :=
      ⟨by rw [e1, e2]; exact hwf.online_lt, by rw [e1]; exact hwf.online_cap,
        by rw [e2]; exact hwf.size_lt⟩
    have hret := returned_iff ci hwf hm1 hfresh k
    have hbelow_lt : ∀ h, h ∈ ci.online_harts → ci.below h < ci.below ci.hart_arr_size := by
      intro h hon
      have h1 := below_succ ci h
      rw [if_pos ((isset_iff_mem ci hwf h).mpr hon)] at h1
      have := below_mono ci (show h + 1 ≤ ci.hart_arr_size from hwf.online_lt h hon)
      omega
    by_cases hkm : ci.below ci.hart_arr_size ≤ k
    · -- every online hart has been assigned
      have hnone : ∀ h, h ∈ ci.online_harts → ∃ t ∈ (assign_calls k ci).2, h ∈ t :=
        fun h hon => (hret h hon).mpr (lt_of_lt_of_le (hbelow_lt h hon) hkm)
      have hfill : ∃ ci1, fill_with_parasite_threads pthreads_ok (assign_calls k ci).1
          = some (ci1, []) := by
        unfold fill_with_parasite_threads
        by_cases hgt : (assign_calls k ci).1.assigned_harts
            > CPU_COUNT (assign_calls k ci).1.online_harts
        · rw [if_pos hgt]; exact ⟨_, rfl⟩
        · have hstop : ¬ (wrap32 ((assign_calls k ci).1.assigned_harts + 0)
                < CPU_COUNT (assign_calls k ci).1.online_harts ∧
              (assign_calls k ci).1.current_hart < (assign_calls k ci).1.hart_arr_size) := by
            unfold CPU_COUNT
            rw [e1, e4, hcard, add_zero, wrap32_id (by omega) (by omega)]
            intro hh
            have := hh.1
            omega
          rw [if_neg hgt, parasite_loop, if_neg hstop]
          exact ⟨_, rfl⟩
      obtain ⟨ci1, hf⟩ := hfill
      refine ⟨ci1, [], hf, ?_, ?_, ?_, ?_⟩
      · intro t ht; cases ht
      · intro h hon hnot
        obtain ⟨t, ht, hmem⟩ := hnone h hon
        exact absurd hmem (hnot t ht)
      · intro h _; rfl
      · rw [hcard]
        simp only [List.length_nil]
        omega
    · -- `k` harts assigned, `m - k` left
      have hkm1 : k < ci.below ci.hart_arr_size := by omega
      have hbcur : ci.below (assign_calls k ci).1.current_hart = k := by
        have hle := below_mono ci (le_of_lt e3)
        rw [Nat.mod_eq_of_lt hkm1] at e5
        by_cases hk0 : k = 0
        · subst hk0
          show ci.below (assign_calls 0 ci).1.current_hart = 0
          rw [show (assign_calls 0 ci).1 = ci from rfl, hfresh, below_zero]
        · by_cases hbm : ci.below (assign_calls k ci).1.current_hart
              = ci.below ci.hart_arr_size
          · rw [hbm, Nat.mod_self] at e5
            omega
          · rw [Nat.mod_eq_of_lt (by omega)] at e5
            exact e5
      obtain ⟨cur, hloop⟩ := parasite_loop_spec
        ((assign_calls k ci).1.hart_arr_size - (assign_calls k ci).1.current_hart)
        ((assign_calls k ci).1.hart_arr_size - (assign_calls k ci).1.current_hart + 1)
        (assign_calls k ci).1 0 [] hwf1 rfl (by rw [e2]; exact le_of_lt e3) (le_refl _)
        (by rw [e4, below_congr e1, hbcur]; simp) (by rw [e4]; omega) (le_refl _)
        (by rw [e1, e2, below_congr e1, hcard])
      have hof : (assign_calls k ci).1.online_from (assign_calls k ci).1.current_hart
          = ci.online_from (assign_calls k ci).1.current_hart := by
        unfold CpuInfo.online_from
        rw [e1, e2]
      rw [hof] at hloop
      have hcount := online_from_length ci (assign_calls k ci).1.current_hart (le_of_lt e3)
      have hmemfrom : ∀ h, h ∈ ci.online_harts →
          (h ∈ ci.online_from (assign_calls k ci).1.current_hart ↔ ¬ ci.below h < k) := by
        intro h hon
        have hset := (isset_iff_mem ci hwf h).mpr hon
        rw [mem_online_from]
        constructor
        · rintro ⟨h1, _, _⟩
          have := below_mono ci h1
          omega
        · intro hnk
          refine ⟨?_, hwf.online_lt h hon, hset⟩
          by_contra hc
          have h1 := below_succ ci h
          rw [if_pos hset] at h1
          have := below_mono ci (show h + 1 ≤ (assign_calls k ci).1.current_hart by omega)
          omega
      have hnot : ¬ ((assign_calls k ci).1.assigned_harts
          > CPU_COUNT (assign_calls k ci).1.online_harts) := by
        unfold CPU_COUNT
        rw [e1, e4, hcard]
        omega
      refine ⟨_, _, by
        unfold fill_with_parasite_threads
        rw [if_neg hnot, hloop]
        rfl, ?_, ?_, ?_, ?_⟩
      · intro t ht
        simp only [List.nil_append, List.mem_map] at ht
        obtain ⟨h, _, rfl⟩ := ht
        exact ⟨h, rfl⟩
      · intro h hon hnot
        simp only [List.nil_append]
        rw [List.count_map_of_injective _ _ Finset.singleton_injective]
        apply List.count_eq_one_of_mem (online_from_nodup ci _)
        rw [hmemfrom h hon, ← hret h hon]
        rintro ⟨t, ht, hmem⟩
        exact hnot t ht hmem
      · intro h hh
        simp only [List.nil_append]
        rw [List.count_map_of_injective _ _ Finset.singleton_injective, List.count_eq_zero]
        intro hmem
        have hon : h ∈ ci.online_harts :=
          (isset_iff_mem ci hwf h).mp ((mem_online_from ci _ h).mp hmem).2.2
        rcases hh with hh | hh
        · exact hh hon
        · exact (hmemfrom h hon).mp hmem ((hret h hon).mp hh)
      · simp only [List.nil_append, List.length_map]
        rw [hbcur] at hcount
        rw [hcard]
        omega

/-- Witness of `parasite_threads_cover`: the online harts `0, 1, 3, 6` of eight; after
two calls of `assign_hardware_thread` (harts `0` and `1`) the parasite threads are
created on the harts `3` and `6`. -/
theorem parasite_threads_cover_witness :
    (assign_calls 2 topology_gaps).2 = [{0}, {1}] ∧
    (fill_with_parasite_threads pthreads_ok (assign_calls 2 topology_gaps).1).map
      (fun r => r.2) = some [{3}, {6}] ∧
    ∃ ci1 threads,
      fill_with_parasite_threads pthreads_ok (assign_calls 2 topology_gaps).1
        = some (ci1, threads) ∧
      threads.length = topology_gaps.online_harts.card - 2 :=
  ⟨by decide, by decide,
    (parasite_threads_cover topology_gaps ⟨by decide, by decide, by decide⟩ rfl rfl 2
      (by decide)).imp (fun _ h => h.imp (fun _ hh => ⟨hh.1, hh.2.2.2.2⟩))⟩

/-! ## C6: topology parse -/

/-- C6 (code defect): on the well-formed text `0-3,5,7-8` (with or without the final
line feed of the file) `online_hardware_threads` ends in `exit(EXIT_FAILURE)`: after
the single index `5` the cursor is advanced twice, past the `7`, and the next token
is read as `-8`. On `0-1,3` followed by a line feed the hart `3` is dropped and the
hart count is `2`; on `0,1` the hart `1` is skipped. The two examples of the
specification do parse when a zero byte follows the text. -/
theorem parse_fails_after_single_index :
    online_hardware_threads (online_file ("0-3,5,7-8").toList []) = Discovery.exit_failure ∧
    online_hardware_threads (online_file (("0-3,5,7-8").toList ++ [line_feed]) [])
      = Discovery.exit_failure ∧
    (online_hardware_threads (online_file (("0-1,3").toList ++ [line_feed]) [])).harts
      = some ([0, 1], 2) ∧
    (online_hardware_threads (online_file ("0,1").toList [])).harts = some ([0], 1) ∧
    (online_hardware_threads (online_file ("0-1,3").toList [])).harts = some ([0, 1, 3], 4) ∧
    (online_hardware_threads (online_file ("2-2").toList [])).harts = some ([2], 3) := by
  decide

/-! ## C4: static partition of the sample space -/

theorem owned_writes_nil (nt t : Int) (c : Nat) :
    owned_writes nt t c ([] : List (F × F)) = [] := rfl

theorem owned_writes_append (nt t : Int) (c : Nat) (l1 l2 : List (F × F)) :
    owned_writes nt t c (l1 ++ l2) =
      owned_writes nt t c l1 ++ owned_writes nt t (c + l1.length) l2 := by
  unfold owned_writes
  rw [List.enumFrom_append, List.filter_append, List.flatMap_append]

theorem owned_writes_singleton (nt t : Int) (c : Nat) (s : F × F) :
    owned_writes nt t c [s] = if (c : Int) % nt = t then triple c s else [] := by
  unfold owned_writes
  by_cases h : (c : Int) % nt = t
  · simp [h, List.enumFrom]
  · simp [h, List.enumFrom]

theorem sample_step_eq (p : ComputationParams F) (t : Int) (hnt : 0 < p.num_threads)
    (N : Nat) (hN : 3 * (N : Int) ≤ 2147483648) (temp fld : F) (c : Nat)
    (W : List (Int × Stored F)) (a : Nat) (hc : c + 1 ≤ N) :
    sample_step p t temp fld ((c : Int), W) a =
      (((c + 1 : Nat) : Int), W ++ owned_writes p.num_threads t c [(temp, fld)]) := by
  have hmod : Int.tmod (c : Int) p.num_threads = (c : Int) % p.num_threads :=
    Int.tmod_eq_emod (by omega) (le_of_lt hnt)
  have w1 : wrap32 ((c : Int) + 1) = ((c + 1 : Nat) : Int) := by
    rw [wrap32_id (by omega) (by omega)]; push_cast; rfl
  have w3 : wrap32 (3 * (c : Int)) = 3 * (c : Int) := wrap32_id (by omega) (by omega)
  unfold sample_step
  simp only [hmod, w1, w3]
  rw [owned_writes_singleton]
  by_cases hmine : (c : Int) % p.num_threads = t
  · rw [if_neg (by simp [hmine]), if_pos hmine, add_zero, w3,
      wrap32_id (by omega) (by omega), wrap32_id (by omega) (by omega)]
    rfl
  · rw [if_pos (by simp [hmine]), if_neg hmine, List.append_nil]

/-- The innermost loop: `k` replicates of one `(temperature, field)` point. -/
theorem replicate_loop_eq (p : ComputationParams F) (t : Int) (hnt : 0 < p.num_threads)
    (N : Nat) (hN : 3 * (N : Int) ≤ 2147483648) (temp fld : F) (k : Nat) :
    ∀ (c : Nat) (W : List (Int × Stored F)), c + k ≤ N →
      (List.range k).foldl (sample_step p t temp fld) ((c : Int), W) =
        (((c + k : Nat) : Int),
          W ++ owned_writes p.num_threads t c (List.replicate k (temp, fld))) := by
  induction k with
  | zero =>
    intro c W _
    simp [owned_writes_nil]
  | succ k ih =>
    intro c W hc
    rw [List.range_succ, List.foldl_append, ih c W (by omega), List.replicate_succ',
      owned_writes_append, List.length_replicate]
    simp only [List.foldl_cons, List.foldl_nil]
    rw [sample_step_eq p t hnt N hN temp fld (c + k) _ k (by omega), List.append_assoc]
    rfl

/-- A loop over `l` whose body for the element `a` processes the block of samples
`block a`. -/
theorem block_loop_eq {α : Type} (nt t : Int) (N : Nat) (block : α → List (F × F))
    (g : Int × List (Int × Stored F) → α → Int × List (Int × Stored F))
    (hg : ∀ (a : α) (c : Nat) (W : List (Int × Stored F)), c + (block a).length ≤ N →
      g ((c : Int), W) a =
        (((c + (block a).length : Nat) : Int), W ++ owned_writes nt t c (block a)))
    (l : List α) :
    ∀ (c : Nat) (W : List (Int × Stored F)), c + (l.flatMap block).length ≤ N →
      l.foldl g ((c : Int), W) =
        (((c + (l.flatMap block).length : Nat) : Int),
          W ++ owned_writes nt t c (l.flatMap block)) := by
  induction l with
  | nil =>
    intro c W _
    simp [owned_writes_nil]
  | cons a l ih =>
    intro c W hc
    rw [List.flatMap_cons, List.length_append] at hc
    rw [List.foldl_cons, hg a c W (by omega), ih _ _ (by omega), List.flatMap_cons,
      owned_writes_append, List.length_append, List.append_assoc, Nat.add_assoc]

theorem mem_owned_writes (nt t : Int) (l : List (F × F)) (w : Int × Stored F) :
    w ∈ owned_writes nt t 0 l ↔
      ∃ (i : Nat) (s : F × F), l[i]? = some s ∧ (i : Int) % nt = t ∧ w ∈ triple i s := by
  unfold owned_writes
  simp only [List.mem_flatMap, List.mem_filter, decide_eq_true_eq]
  constructor
  · rintro ⟨⟨i, s⟩, ⟨hmem, hmod⟩, hw⟩
    have := List.mk_mem_enumFrom_iff_le_and_getElem?_sub.mp hmem
    exact ⟨i, s, by simpa using this.2, hmod, hw⟩
  · rintro ⟨i, s, hget, hmod, hw⟩
    exact ⟨(i, s), ⟨List.mk_mem_enumFrom_iff_le_and_getElem?_sub.mpr
      ⟨Nat.zero_le _, by simpa using hget⟩, hmod⟩, hw⟩

theorem length_flatMap_const {α β : Type} (l : List α) (block : α → List β) (k : Nat)
    (hk : ∀ a, (block a).length = k) : (l.flatMap block).length = l.length * k := by
  induction l with
  | nil => simp
  | cons a l ih =>
    rw [List.flatMap_cons, List.length_append, ih, hk, List.length_cons, Nat.succ_mul,
      Nat.add_comm]

theorem samples_length (p : ComputationParams F) : p.samples.length = p.num_samples := by
  unfold ComputationParams.samples ComputationParams.num_samples
  rw [length_flatMap_const _ _ (p.fields.length * p.samples_per_point) (fun temp =>
    length_flatMap_const _ _ p.samples_per_point (fun fld => List.length_replicate _ _)),
    Nat.mul_assoc]

/-- C4 (amended): for `num_threads > 0` and a sample space of `n` samples enumerated
temperature-major, then field, then replicate, with `3*n ≤ 2^31` (every offset
`3*i + 2` for `i < n` is an `int`), the worker with thread index `t` stores exactly
the output triples (cells `3*i`, `3*i+1`, `3*i+2`) of the sample indices `i < n` with
`i mod num_threads = t`, in order; so the triple of every sample index below `n` is
written by exactly one of the workers `0 .. num_threads-1`. -/
theorem static_partition (p : ComputationParams F) (hnt : 0 < p.num_threads)
    (hn : 3 * (p.num_samples : Int) ≤ 2147483648) :
    p.samples.length = p.num_samples ∧
    (∀ t : Int, compute_ising_model_sample p t = owned_writes p.num_threads t 0 p.samples) ∧
    (∀ (t : Int) (w : Int × Stored F), w ∈ compute_ising_model_sample p t ↔
      ∃ (i : Nat) (s : F × F), p.samples[i]? = some s ∧ (i : Int) % p.num_threads = t ∧
        w ∈ triple i s) ∧
    (∀ (i : Nat) (s : F × F), p.samples[i]? = some s →
      ∃! t : Int, 0 ≤ t ∧ t < p.num_threads ∧
        ∀ w ∈ triple i s, w ∈ compute_ising_model_sample p t) := by
  have hlen := samples_length p
  have main : ∀ t : Int,
      compute_ising_model_sample p t = owned_writes p.num_threads t 0 p.samples := by
    intro t
    have outer := block_loop_eq p.num_threads t p.num_samples
      (fun temp => p.fields.flatMap (fun fld => List.replicate p.samples_per_point (temp, fld)))
      (fun st temp_cur => p.fields.foldl (fun st field_cur =>
        (List.range p.samples_per_point).foldl (sample_step p t temp_cur field_cur) st) st)
      (fun temp c W hc =>
        block_loop_eq p.num_threads t p.num_samples
          (fun fld => List.replicate p.samples_per_point (temp, fld))
          (fun st field_cur =>
            (List.range p.samples_per_point).foldl (sample_step p t temp field_cur) st)
          (fun fld c W hc => by
            rw [List.length_replicate] at hc ⊢
            exact replicate_loop_eq p t hnt p.num_samples hn temp fld p.samples_per_point
              c W hc)
          p.fields c W hc)
      p.temps 0 [] (by
        show 0 + p.samples.length ≤ p.num_samples
        omega)
    unfold compute_ising_model_sample
    have e : ((0 : Nat) : Int) = 0 := rfl
    rw [← e, outer]
    rfl
  refine ⟨hlen, main, ?_, ?_⟩
  · intro t w
    rw [main t]
    exact mem_owned_writes _ _ _ _
  · intro i s hs
    have hown : ∀ w ∈ triple i s,
        w ∈ compute_ising_model_sample p ((i : Int) % p.num_threads) := by
      intro w hw
      rw [main, mem_owned_writes]
      exact ⟨i, s, hs, rfl, hw⟩
    refine ⟨(i : Int) % p.num_threads, ⟨Int.emod_nonneg _ (ne_of_gt hnt),
      Int.emod_lt_of_pos _ hnt, hown⟩, ?_⟩
    rintro t ⟨_, _, hall⟩
    have h0 := hall (3 * (i : Int), Stored.temperature s.1) (by simp [triple])
    rw [main, mem_owned_writes] at h0
    obtain ⟨j, s1, _, hj, hw⟩ := h0
    simp only [triple, List.mem_cons, Prod.mk.injEq, List.mem_singleton, List.not_mem_nil,
      or_false] at hw
    have hji : j = i := by
      rcases hw with hw | hw | hw <;> omega
    rw [← hj, hji]

/-- Witness of `static_partition`: three threads and seven samples; the workers own
the sample indices `0, 3, 6`, then `1, 4`, then `2, 5`. -/
theorem static_partition_witness :
    (compute_ising_model_sample partition_3_7 0).map (fun w => w.1)
      = [0, 1, 2, 9, 10, 11, 18, 19, 20] ∧
    (compute_ising_model_sample partition_3_7 1).map (fun w => w.1)
      = [3, 4, 5, 12, 13, 14] ∧
    (compute_ising_model_sample partition_3_7 2).map (fun w => w.1)
      = [6, 7, 8, 15, 16, 17] ∧
    ∀ t : Int, compute_ising_model_sample partition_3_7 t
      = owned_writes partition_3_7.num_threads t 0 partition_3_7.samples :=
  ⟨by decide, by decide, by decide,
    (static_partition partition_3_7 (by decide) (by decide)).2.1⟩

/-- The iteration of the worker loop for the sample of index `715827882`. -/
theorem sample_step_wraps (W : List (Int × Stored Unit)) (a : Nat) :
    sample_step partition_overflow 0 () () (715827882, W) a =
      (715827883, W ++ [(2147483646, Stored.temperature ()), (2147483647, Stored.field ()),
        (-2147483648, Stored.magnetization () ())]) := by
  have c : ¬ (Int.tmod (715827882 : Int) partition_overflow.num_threads ≠ 0) := by decide
  have w1 : wrap32 (715827882 + 1) = 715827883 := by decide
  have w2 : wrap32 (wrap32 (3 * 715827882) + 0) = 2147483646 := by decide
  have w3 : wrap32 (wrap32 (3 * 715827882) + 1) = 2147483647 := by decide
  have w4 : wrap32 (wrap32 (3 * 715827882) + 2) = -2147483648 := by decide
  unfold sample_step
  simp only [c, if_false, w1, w2, w3, w4]

/-- A worker over one temperature and one field value with `n + 1` replicates: its
stores are those of the first `n` samples followed by the last iteration. -/
theorem worker_last_step (p : ComputationParams Unit) (t : Int) (n : Nat)
    (h1 : p.temps = [()]) (h2 : p.fields = [()]) (h3 : p.samples_per_point = n + 1)
    (hnt : 0 < p.num_threads) (hn : 3 * (n : Int) ≤ 2147483648) :
    ∃ W, compute_ising_model_sample p t = (sample_step p t () () ((n : Int), W) n).2 := by
  have h := replicate_loop_eq p t hnt n hn () () n 0 [] (by omega)
  rw [Nat.zero_add] at h
  unfold compute_ising_model_sample
  rw [h1, h2, h3]
  simp only [List.foldl_cons, List.foldl_nil]
  rw [List.range_succ, List.foldl_append]
  have e0 : ((0 : Nat) : Int) = 0 := rfl
  rw [e0] at h
  rw [h]
  exact ⟨_, rfl⟩

/-- C4 (as stated, refuted): with one worker and `715827883` samples, the worker
stores the triple of the last sample, of index `715827882`, at the offsets
`2147483646`, `2147483647` and `-2147483648`: the third offset `3*i + 2` is not an
`int` and wraps, so the magnetization of the sample is not written to the cell
`3*i + 2`. -/
theorem last_triple_wraps :
    partition_overflow.num_samples = 715827883 ∧
    0 < partition_overflow.num_threads ∧
    ∃ W, compute_ising_model_sample partition_overflow 0 =
      W ++ [(2147483646, Stored.temperature ()), (2147483647, Stored.field ()),
        (-2147483648, Stored.magnetization () ())] := by
  refine ⟨rfl, by decide, ?_⟩
  obtain ⟨W, hW⟩ := worker_last_step partition_overflow 0 715827882 rfl rfl rfl (by decide)
    (by decide)
  refine ⟨W, ?_⟩
  rw [hW]
  simp only [Nat.cast_ofNat]
  rw [sample_step_wraps]

/-! ## C15: cell accesses of an update attempt are in bounds -/

/-- C15 (as stated, refuted): the lattice of dimensions `65536 x 65536 x 1` has
positive dimensions of at most `2^30`, yet for the drawn number `0` (site `(0, 0, 0)`)
the call `get(altered_x - 1, altered_y, altered_z)` computes the flat index
`65535 * 65536` on `int`s, which wraps to `-65536`: the access is outside the buffer
(of `128` cells, the cell count `2^32` having wrapped to `0`). -/
theorem accesses_wrap_on_wide_lattice :
    0 < lattice_wide.size_x ∧ lattice_wide.size_x ≤ 1073741824 ∧
    0 < lattice_wide.size_y ∧ lattice_wide.size_y ≤ 1073741824 ∧
    0 < lattice_wide.size_z ∧ lattice_wide.size_z ≤ 1073741824 ∧
    lattice_wide.points.length = 128 ∧
    lattice_wide.altered 0 = (0, 0, 0) ∧
    (lattice_wide.accesses 0).map (fun c => lattice_wide.get c.1 c.2.1 c.2.2) =
      [0, -65536, 65536, 65535, 1, 0, 0] ∧
    lattice_wide.load (lattice_wide.get (-1) 0 0) = none := by
  decide

/-- C15 (amended): on every lattice with positive dimensions of at most `2^30` whose
cell count `size_x*size_y*size_z` is an `int` (the buffer as the constructor allocates
it), for every value of the drawn random number, each selected coordinate lies
strictly between `-size` and `size` on its axis; the seven calls of `get` receive the
site and its six neighbours at distance one (no coordinate wraps), all coordinates
are at least `-size`, and every call computes a flat index in
`0 .. size_x*size_y*size_z - 1`, inside the buffer. -/
theorem update_accesses_in_bounds (L : Lattice F) (h : L.WF) (draw : Int) :
    ((-L.size_x < (L.altered draw).1 ∧ (L.altered draw).1 < L.size_x) ∧
      (-L.size_y < (L.altered draw).2.1 ∧ (L.altered draw).2.1 < L.size_y) ∧
      (-L.size_z < (L.altered draw).2.2 ∧ (L.altered draw).2.2 < L.size_z)) ∧
    L.accesses draw =
      [((L.altered draw).1, (L.altered draw).2.1, (L.altered draw).2.2),
       ((L.altered draw).1 - 1, (L.altered draw).2.1, (L.altered draw).2.2),
       ((L.altered draw).1 + 1, (L.altered draw).2.1, (L.altered draw).2.2),
       ((L.altered draw).1, (L.altered draw).2.1 - 1, (L.altered draw).2.2),
       ((L.altered draw).1, (L.altered draw).2.1 + 1, (L.altered draw).2.2),
       ((L.altered draw).1, (L.altered draw).2.1, (L.altered draw).2.2 - 1),
       ((L.altered draw).1, (L.altered draw).2.1, (L.altered draw).2.2 + 1)] ∧
    ∀ c ∈ L.accesses draw,
      (-L.size_x ≤ c.1 ∧ -L.size_y ≤ c.2.1 ∧ -L.size_z ≤ c.2.2) ∧
      0 ≤ L.get c.1 c.2.1 c.2.2 ∧
      L.get c.1 c.2.1 c.2.2 ≤ L.size_x * L.size_y * L.size_z - 1 ∧
      (L.load (L.get c.1 c.2.1 c.2.2)).isSome = true := by
  have hr := altered_range L h draw
  obtain ⟨⟨x0, x1⟩, ⟨y0, y1⟩, ⟨z0, z1⟩⟩ := hr
  have bx := h.le_x
  have by1 := h.le_y
  have bz := h.le_z
  have e : L.accesses draw =
      [((L.altered draw).1, (L.altered draw).2.1, (L.altered draw).2.2),
       ((L.altered draw).1 - 1, (L.altered draw).2.1, (L.altered draw).2.2),
       ((L.altered draw).1 + 1, (L.altered draw).2.1, (L.altered draw).2.2),
       ((L.altered draw).1, (L.altered draw).2.1 - 1, (L.altered draw).2.2),
       ((L.altered draw).1, (L.altered draw).2.1 + 1, (L.altered draw).2.2),
       ((L.altered draw).1, (L.altered draw).2.1, (L.altered draw).2.2 - 1),
       ((L.altered draw).1, (L.altered draw).2.1, (L.altered draw).2.2 + 1)] := by
    simp only [Lattice.accesses]
    rw [wrap32_id (v := (L.altered draw).1 - 1) (by omega) (by omega),
      wrap32_id (v := (L.altered draw).1 + 1) (by omega) (by omega),
      wrap32_id (v := (L.altered draw).2.1 - 1) (by omega) (by omega),
      wrap32_id (v := (L.altered draw).2.1 + 1) (by omega) (by omega),
      wrap32_id (v := (L.altered draw).2.2 - 1) (by omega) (by omega),
      wrap32_id (v := (L.altered draw).2.2 + 1) (by omega) (by omega)]
  refine ⟨⟨⟨x0, x1⟩, ⟨y0, y1⟩, ⟨z0, z1⟩⟩, e, ?_⟩
  have key : ∀ x y z : Int, -L.size_x ≤ x → x ≤ L.size_x → -L.size_y ≤ y → y ≤ L.size_y →
      -L.size_z ≤ z → z ≤ L.size_z →
      (-L.size_x ≤ x ∧ -L.size_y ≤ y ∧ -L.size_z ≤ z) ∧
      0 ≤ L.get x y z ∧ L.get x y z ≤ L.size_x * L.size_y * L.size_z - 1 ∧
      (L.load (L.get x y z)).isSome = true := by
    intro x y z hx0 hx1 hy0 hy1 hz0 hz1
    obtain ⟨_, g0, g1⟩ := get_eq L h hx0 hx1 hy0 hy1 hz0 hz1
    have hl := load_get L h hx0 hx1 hy0 hy1 hz0 hz1
    simp only [Lattice.volume] at g1
    exact ⟨⟨hx0, hy0, hz0⟩, g0, by omega, by rw [hl]; rfl⟩
  intro c hc
  rw [e] at hc
  simp only [List.mem_cons, List.mem_singleton, List.not_mem_nil, or_false] at hc
  rcases hc with rfl | rfl | rfl | rfl | rfl | rfl | rfl <;>
    exact key _ _ _ (by simp only; omega) (by simp only; omega) (by simp only; omega)
      (by simp only; omega) (by simp only; omega) (by simp only; omega)

/-- Witness of `update_accesses_in_bounds`: the `2 x 2 x 2` lattice and the drawn
number `2^31 - 1`, for which `size_z + random_num` wraps and the selected `z` is
`-1`. -/
theorem update_accesses_in_bounds_witness :
    lattice222.WF ∧ lattice222.altered 2147483647 = (1, 1, -1) ∧
    ∀ c ∈ lattice222.accesses 2147483647,
      (-lattice222.size_x ≤ c.1 ∧ -lattice222.size_y ≤ c.2.1 ∧ -lattice222.size_z ≤ c.2.2) ∧
      0 ≤ lattice222.get c.1 c.2.1 c.2.2 ∧
      lattice222.get c.1 c.2.1 c.2.2 ≤
        lattice222.size_x * lattice222.size_y * lattice222.size_z - 1 ∧
      (lattice222.load (lattice222.get c.1 c.2.1 c.2.2)).isSome = true :=
  ⟨lattice222_WF, by decide, (update_accesses_in_bounds lattice222 lattice222_WF 2147483647).2.2⟩

/-! ## C13: failure of the parasite thread setup -/

/-- The loop of `fill_with_parasite_threads` under failing thread setup, against the
run in which every setup succeeds: it exits when the setup fails on a hart on which
that run creates a thread, and otherwise returns the same state. -/
theorem parasite_loop_fail (pt : Pthreads) : ∀ (fuel : Nat) (ci : CpuInfo) (s : Int)
    (threads : List (Finset Nat)),
    ∃ ci1 s1 created,
      parasite_loop pthreads_ok fuel ci s threads = some (ci1, s1, threads ++ created) ∧
      ((∃ t ∈ created, ∃ h ∈ t, pt.ok h = false) →
        parasite_loop pt fuel ci s threads = none) ∧
      ((∀ t ∈ created, ∀ h ∈ t, pt.ok h = true) →
        parasite_loop pt fuel ci s threads = some (ci1, s1, threads ++ created)) := by
  intro fuel
  induction fuel with
  | zero =>
    intro ci s threads
    exact ⟨ci, s, [], by simp [parasite_loop], by simp, by simp [parasite_loop]⟩
  | succ f ih =>
    intro ci s threads
    by_cases hc : wrap32 (ci.assigned_harts + s) < CPU_COUNT ci.online_harts ∧
        ci.current_hart < ci.hart_arr_size
    · by_cases hon : CPU_ISSET ci.current_hart ci.online_harts = true
      · obtain ⟨ci1, s1, created, e, hfail, hok⟩ :=
          ih { ci with current_hart := (ci.current_hart + 1) % 4294967296 } (wrap32 (s + 1))
            (threads ++ [CPU_SET ci.current_hart CPU_ZERO])
        have p1 : ∀ h, pthreads_ok.attr_init h = true := fun _ => rfl
        have p2 : ∀ h, pthreads_ok.attr_setaffinity_np h = true := fun _ => rfl
        have p3 : ∀ h, pthreads_ok.attr_setdetachstate h = true := fun _ => rfl
        have p4 : ∀ h, pthreads_ok.create h = true := fun _ => rfl
        have hset : CPU_SET ci.current_hart CPU_ZERO = {ci.current_hart} := cpu_set_single hon
        refine ⟨ci1, s1, CPU_SET ci.current_hart CPU_ZERO :: created, ?_, ?_, ?_⟩
        · rw [parasite_loop, if_pos hc, if_neg (by simp [hon])]
          simp only [p1, p2, p3, p4, not_true_eq_false, if_false]
          rw [e, List.append_assoc]
          rfl
        · rintro ⟨t, ht, h, hh, hbad⟩
          rw [parasite_loop, if_pos hc, if_neg (by simp [hon])]
          by_cases hcur : pt.ok ci.current_hart = true
          · simp only [Pthreads.ok, Bool.and_eq_true] at hcur
            obtain ⟨⟨⟨c1, c2⟩, c3⟩, c4⟩ := hcur
            simp only [c1, c2, c3, c4, not_true_eq_false, if_false]
            apply hfail
            rcases List.mem_cons.mp ht with rfl | ht1
            · rw [hset, Finset.mem_singleton] at hh
              subst hh
              simp only [Pthreads.ok, c1, c2, c3, c4] at hbad
              exact absurd hbad (by decide)
            · exact ⟨t, ht1, h, hh, hbad⟩
          · simp only [Pthreads.ok, Bool.and_eq_true, not_and_or, Bool.not_eq_true] at hcur
            rcases hcur with ((c1 | c2) | c3) | c4
            · simp [c1]
            · by_cases c1 : pt.attr_init ci.current_hart = true <;> simp [c1, c2]
            · by_cases c1 : pt.attr_init ci.current_hart = true <;>
                by_cases c2 : pt.attr_setaffinity_np ci.current_hart = true <;>
                simp [c1, c2, c3]
            · by_cases c1 : pt.attr_init ci.current_hart = true <;>
                by_cases c2 : pt.attr_setaffinity_np ci.current_hart = true <;>
                by_cases c3 : pt.attr_setdetachstate ci.current_hart = true <;>
                simp [c1, c2, c3, c4]
        · intro hall
          have hcur : pt.ok ci.current_hart = true :=
            hall _ (List.mem_cons_self _ _) _ (by rw [hset]; exact Finset.mem_singleton_self _)
          simp only [Pthreads.ok, Bool.and_eq_true] at hcur
          obtain ⟨⟨⟨c1, c2⟩, c3⟩, c4⟩ := hcur
          rw [parasite_loop, if_pos hc, if_neg (by simp [hon])]
          simp only [c1, c2, c3, c4, not_true_eq_false, if_false]
          rw [hok (fun t ht h hh => hall t (List.mem_cons_of_mem _ ht) h hh), List.append_assoc]
          rfl
      · obtain ⟨ci1, s1, created, e, hfail, hok⟩ :=
          ih { ci with current_hart := (ci.current_hart + 1) % 4294967296 } s threads
        refine ⟨ci1, s1, created, ?_, ?_, ?_⟩
        · rw [parasite_loop, if_pos hc, if_pos (by simp [hon])]
          exact e
        · intro hbad
          rw [parasite_loop, if_pos hc, if_pos (by simp [hon])]
          exact hfail hbad
        · intro hall
          rw [parasite_loop, if_pos hc, if_pos (by simp [hon])]
          exact hok hall
    · refine ⟨ci, s, [], ?_, by simp, ?_⟩
      · rw [parasite_loop, if_neg hc, List.append_nil]
      · intro _
        rw [parasite_loop, if_neg hc, List.append_nil]

/-- C13 (as stated, refuted): on the topology with the online harts `0, 1, 3, 6`, after
two calls of `assign_hardware_thread` (harts `0` and `1`), a failure of any one of the
four pthread calls for the hart `3` makes `fill_with_parasite_threads` call
`exit(EXIT_FAILURE)`; it does not skip the hart `3` and go on to the hart `6`. The
same holds for a failure on the hart `6`, after the thread on hart `3` was created. -/
theorem parasite_failure_exits :
    (assign_calls 2 topology_gaps).2 = [{0}, {1}] ∧
    (fill_with_parasite_threads pthreads_ok (assign_calls 2 topology_gaps).1).map
      (fun r => r.2) = some [{3}, {6}] ∧
    (∀ call ∈ [0, 1, 2, 3], (pthreads_failing call 3).ok 3 = false ∧
      (pthreads_failing call 3).ok 6 = true ∧
      fill_with_parasite_threads (pthreads_failing call 3) (assign_calls 2 topology_gaps).1
        = none) ∧
    (∀ call ∈ [0, 1, 2, 3],
      fill_with_parasite_threads (pthreads_failing call 6) (assign_calls 2 topology_gaps).1
        = none) := by
  decide

/-- C13 (amended): a failure of the thread setup is fatal. For every topology and
cursor and every behaviour of the pthread calls, let `threads` be the parasite
threads `fill_with_parasite_threads` creates when every call succeeds (it then
returns). If one of the four pthread calls fails for a hart of one of these threads,
`fill_with_parasite_threads` ends in `exit(EXIT_FAILURE)`; if none fails for these
harts, it returns the same state and the same threads. No hart is skipped. -/
theorem parasite_failure_is_fatal (pt : Pthreads) (ci : CpuInfo) :
    ∃ ci1 threads,
      fill_with_parasite_threads pthreads_ok ci = some (ci1, threads) ∧
      ((∃ t ∈ threads, ∃ h ∈ t, pt.ok h = false) →
        fill_with_parasite_threads pt ci = none) ∧
      ((∀ t ∈ threads, ∀ h ∈ t, pt.ok h = true) →
        fill_with_parasite_threads pt ci = some (ci1, threads)) := by
  by_cases hgt : ci.assigned_harts > CPU_COUNT ci.online_harts
  · refine ⟨ci, [], ?_, ?_, ?_⟩
    · unfold fill_with_parasite_threads
      rw [if_pos hgt]
    · rintro ⟨t, ht, _⟩
      cases ht
    · intro _
      unfold fill_with_parasite_threads
      rw [if_pos hgt]
  · obtain ⟨ci1, s1, created, e, hfail, hok⟩ :=
      parasite_loop_fail pt (ci.hart_arr_size - ci.current_hart + 1) ci 0 []
    rw [List.nil_append] at e hok
    refine ⟨{ ci1 with assigned_harts := wrap32 (ci1.assigned_harts + s1), current_hart := 0 },
      created, ?_, ?_, ?_⟩
    · unfold fill_with_parasite_threads
      rw [if_neg hgt, e]
      rfl
    · intro hbad
      unfold fill_with_parasite_threads
      rw [if_neg hgt, hfail hbad]
      rfl
    · intro hall
      unfold fill_with_parasite_threads
      rw [if_neg hgt, hok hall]
      rfl

/-- Witness of `parasite_failure_is_fatal`: the online harts `0, 1, 3, 6`, two harts
assigned, and `pthread_create` failing for the hart `6`. -/
theorem parasite_failure_is_fatal_witness :
    fill_with_parasite_threads (pthreads_failing 3 6) (assign_calls 2 topology_gaps).1
      = none ∧
    ∃ ci1 threads,
      fill_with_parasite_threads pthreads_ok (assign_calls 2 topology_gaps).1
        = some (ci1, threads) ∧
      ((∃ t ∈ threads, ∃ h ∈ t, (pthreads_failing 3 6).ok h = false) →
        fill_with_parasite_threads (pthreads_failing 3 6) (assign_calls 2 topology_gaps).1
          = none) ∧
      ((∀ t ∈ threads, ∀ h ∈ t, (pthreads_failing 3 6).ok h = true) →
        fill_with_parasite_threads (pthreads_failing 3 6) (assign_calls 2 topology_gaps).1
          = some (ci1, threads)) :=
  ⟨by decide, parasite_failure_is_fatal (pthreads_failing 3 6) (assign_calls 2 topology_gaps).1⟩

/-! ## C11, C12: what the topology parse accepts -/

/-- A `read` that fills the whole buffer of 256 bytes makes `online_hardware_threads`
end in `exit(EXIT_FAILURE)`. -/
theorem full_buffer_exits (content rest : List Char) (h : 256 ≤ content.length) :
    online_hardware_threads { open_ok := true, content := some content, rest := rest }
      = Discovery.exit_failure := by
  have e : (content.take 256).length = 256 := by
    rw [List.length_take]
    omega
  simp only [online_hardware_threads, e, not_true_eq_false, if_false, if_true]

/-- C11 (code defect): `online_hardware_threads` returns a topology for texts with a
malformed token or a negative index. On `3x` it returns no hart at all and the hart
count `0`; on `1-2-3` the harts `1, 2, 3`; on `0,,1` the harts `0, 1`; on `0,-1` the
harts `0, 1`; with the final line feed of the file, `1-2-3`, `0,,1` and `0,-1` are
accepted as well. The texts `a`, `-1`, `0-3,-5` and, with the line feed, `3x` do end
in `exit(EXIT_FAILURE)`, and so does every text that fills the 256-byte buffer. -/
theorem malformed_topology_accepted :
    (online_hardware_threads (online_file ("3x").toList [])).harts = some ([], 0) ∧
    (online_hardware_threads (online_file ("1-2-3").toList [])).harts
      = some ([1, 2, 3], 4) ∧
    (online_hardware_threads (online_file ("0,,1").toList [])).harts = some ([0, 1], 2) ∧
    (online_hardware_threads (online_file ("0,-1").toList [])).harts = some ([0, 1], 2) ∧
    (online_hardware_threads (online_file (("1-2-3").toList ++ [line_feed]) [])).harts
      = some ([1, 2], 3) ∧
    (online_hardware_threads (online_file (("0,,1").toList ++ [line_feed]) [])).harts
      = some ([0], 1) ∧
    (online_hardware_threads (online_file (("0,-1").toList ++ [line_feed]) [])).harts
      = some ([0], 1) ∧
    online_hardware_threads (online_file ("a").toList []) = Discovery.exit_failure ∧
    online_hardware_threads (online_file ("-1").toList []) = Discovery.exit_failure ∧
    online_hardware_threads (online_file ("0-3,-5").toList []) = Discovery.exit_failure ∧
    online_hardware_threads (online_file (("3x").toList ++ [line_feed]) [])
      = Discovery.exit_failure ∧
    ∀ content rest : List Char, 256 ≤ content.length →
      online_hardware_threads { open_ok := true, content := some content, rest := rest }
        = Discovery.exit_failure :=
  ⟨by decide, by decide, by decide, by decide, by decide, by decide, by decide, by decide,
    by decide, by decide, by decide, full_buffer_exits⟩

theorem assign_scan_fields (left : Nat) : ∀ ci : CpuInfo,
    (assign_scan left ci).1.online_harts = ci.online_harts ∧
    (assign_scan left ci).1.hart_arr_size = ci.hart_arr_size := by
  induction left with
  | zero => intro ci; exact ⟨rfl, rfl⟩
  | succ n ih =>
    intro ci
    rw [assign_scan]
    by_cases hon : CPU_ISSET ci.current_hart ci.online_harts = true
    · rw [if_pos hon]
      exact ⟨rfl, rfl⟩
    · rw [if_neg hon]
      exact ih ci.advance

theorem parasite_loop_fields (pt : Pthreads) : ∀ (fuel : Nat) (ci : CpuInfo) (s : Int)
    (threads : List (Finset Nat)), ∀ r ∈ parasite_loop pt fuel ci s threads,
      r.1.online_harts = ci.online_harts ∧ r.1.hart_arr_size = ci.hart_arr_size := by
  intro fuel
  induction fuel with
  | zero =>
    intro ci s threads r hr
    simp only [parasite_loop, Option.mem_def, Option.some.injEq] at hr
    subst hr
    exact ⟨rfl, rfl⟩
  | succ f ih =>
    intro ci s threads r hr
    rw [parasite_loop] at hr
    split_ifs at hr with h1 h2 h3 h4 h5 h6
    · have := ih _ _ _ r hr
      exact this
    · cases hr
    · cases hr
    · cases hr
    · cases hr
    · have := ih _ _ _ r hr
      exact this
    · simp only [Option.mem_def, Option.some.injEq] at hr
      subst hr
      exact ⟨rfl, rfl⟩

/-- C12 (code defect): `online_hardware_threads` accepts texts for which an online
hart is not below `hart_arr_size`. On the ascending list `0-1,5,12,20` (with the
final line feed) it returns the harts `0, 1, 2, 5` and the hart count `3`; on
`5,12,20` (with the line feed) and on `5,12` the harts `2, 5` and the hart count `3`; on
`5-7,1-2` (with the line feed) the harts `1, 2, 5, 6, 7` and the hart count `3`. On
the topology returned for `5,12,20` two calls of `assign_hardware_thread` both return
the hart `2`. The second part of the claim holds: `assign_hardware_thread` and
`fill_with_parasite_threads` change neither `online_harts` nor `hart_arr_size`. -/
theorem online_hart_not_below_hart_count :
    (online_hardware_threads (online_file (("0-1,5,12,20").toList ++ [line_feed]) [])).harts
      = some ([0, 1, 2, 5], 3) ∧
    (online_hardware_threads (online_file (("5,12,20").toList ++ [line_feed]) [])).harts
      = some ([2, 5], 3) ∧
    (online_hardware_threads (online_file ("5,12").toList [])).harts = some ([2, 5], 3) ∧
    (online_hardware_threads (online_file (("5-7,1-2").toList ++ [line_feed]) [])).harts
      = some ([1, 2, 5, 6, 7], 3) ∧
    (online_hardware_threads (online_file (("5,12,20").toList ++ [line_feed]) [])).assigned 2
      = some [{2}, {2}] ∧
    (∀ ci : CpuInfo,
      (assign_hardware_thread ci).1.online_harts = ci.online_harts ∧
      (assign_hardware_thread ci).1.hart_arr_size = ci.hart_arr_size) ∧
    (∀ (pt : Pthreads) (ci : CpuInfo), ∀ r ∈ fill_with_parasite_threads pt ci,
      r.1.online_harts = ci.online_harts ∧ r.1.hart_arr_size = ci.hart_arr_size) := by
  refine ⟨by decide, by decide, by decide, by decide, by decide,
    fun ci => assign_scan_fields _ ci, ?_⟩
  intro pt ci r hr
  unfold fill_with_parasite_threads at hr
  split_ifs at hr with h
  · simp only [Option.mem_def, Option.some.injEq] at hr
    subst hr
    exact ⟨rfl, rfl⟩
  · simp only [Option.mem_def, Option.map_eq_some'] at hr
    obtain ⟨a, ha, rfl⟩ := hr
    exact parasite_loop_fields pt _ ci 0 [] a ha

/-! ## C14: the check of the number of threads in `main` -/

theorem digit_toNat {c : Char} (h : c.isDigit = true) : 48 ≤ c.toNat ∧ c.toNat ≤ 57 := by
  simp only [Char.isDigit, Bool.and_eq_true, decide_eq_true_eq, ge_iff_le] at h
  have h1 : (48 : UInt32).toNat ≤ c.val.toNat := h.1
  have h2 : c.val.toNat ≤ (57 : UInt32).toNat := h.2
  exact ⟨h1, h2⟩

theorem digit_not_space {c : Char} (h : c.isDigit = true) : isspace c = false := by
  have := digit_toNat h
  simp only [isspace, Bool.or_eq_false_iff, decide_eq_false_iff_not, Bool.and_eq_false_iff,
    decide_eq_false_iff_not]
  omega

theorem takeWhile_all {α : Type} (p : α → Bool) : ∀ l : List α, (∀ x ∈ l, p x = true) →
    l.takeWhile p = l
  | [], _ => rfl
  | x :: l, h => by
    rw [List.takeWhile_cons, if_pos (h x (List.mem_cons_self _ _)),
      takeWhile_all p l (fun y hy => h y (List.mem_cons_of_mem _ hy))]

theorem strtol_digits (c : Char) (cs : List Char) (h : ∀ x ∈ c :: cs, x.isDigit = true) :
    strtol (c :: cs) = (min (decimal (c :: cs)) LONG_MAX, (c :: cs).length) := by
  have hc := h c (List.mem_cons_self _ _)
  have hn := digit_toNat hc
  have hs : (c :: cs).takeWhile isspace = [] := by
    rw [List.takeWhile_cons, digit_not_space hc]
    rfl
  have hminus : c ≠ '-' := by
    intro e; rw [e] at hn; revert hn; decide
  have hplus : c ≠ '+' := by
    intro e; rw [e] at hn; revert hn; decide
  have hd : (c :: cs).takeWhile Char.isDigit = c :: cs := takeWhile_all _ _ h
  unfold strtol
  simp only [hs, List.length_nil, List.drop_zero, List.head?_cons, Option.some.injEq, hminus,
    hplus, or_self, if_false, hd, zero_add, decimal]
  rfl

theorem getD_nul_iff (arg : List Char) (hstr : ∀ c ∈ arg, c ≠ Char.ofNat 0) (k : Nat) :
    arg.getD k (Char.ofNat 0) ≠ Char.ofNat 0 ↔ k < arg.length := by
  constructor
  · intro h
    by_contra hk
    exact h (by rw [List.getD_eq_default _ _ (by omega)])
  · intro hk
    rw [List.getD_eq_getElem _ _ hk]
    exact hstr _ (List.getElem_mem _)

theorem strtol_minus_digits (c : Char) (cs : List Char) (h : ∀ x ∈ c :: cs, x.isDigit = true) :
    strtol ('-' :: c :: cs) =
      (max (-decimal (c :: cs)) (-LONG_MAX - 1), ('-' :: c :: cs).length) := by
  have hd : (c :: cs).takeWhile Char.isDigit = c :: cs := takeWhile_all _ _ h
  have hs : ('-' :: c :: cs).takeWhile isspace = [] := by
    rw [List.takeWhile_cons]
    rfl
  unfold strtol
  simp only [hs, List.length_nil, List.drop_zero, List.head?_cons, true_or, if_true,
    List.drop_succ_cons, hd, zero_add, decimal]
  simp only [List.length_cons]
  rw [if_neg (by simp)]
  congr 1
  omega

theorem decimal_nonneg (ds : List Char) (h : ∀ x ∈ ds, x.isDigit = true) :
    0 ≤ decimal ds := by
  have key : ∀ (l : List Char) (acc : Int), (∀ x ∈ l, x.isDigit = true) → 0 ≤ acc →
      0 ≤ l.foldl (fun acc c => 10 * acc + ((c.toNat : Int) - 48)) acc := by
    intro l
    induction l with
    | nil => intro acc _ h0; exact h0
    | cons x l ih =>
      intro acc hx h0
      rw [List.foldl_cons]
      have := digit_toNat (hx x (List.mem_cons_self _ _))
      exact ih _ (fun y hy => hx y (List.mem_cons_of_mem _ hy)) (by omega)
  exact key ds 0 h (le_refl _)

/-- C14 (as stated, refuted): with the first argument `0`, `main` does not exit at the
check of the number of threads. When every call succeeds it allocates the three
buffers, starts no worker, creates parasite threads on all four harts, writes the
log with `Number of threads = 0` and returns `EXIT_SUCCESS`. -/
theorem main_accepts_zero_workers :
    main environment_ok (command_line ("0")) =
      ([Action.calloc_samples 21, Action.calloc_thread_params 0,
        Action.calloc_thread_table 0, Action.parasite {0}, Action.parasite {1},
        Action.parasite {2}, Action.parasite {3}, Action.log 0], Exit.success) := by
  decide

/-- C14 (amended): the number of threads must be a number whose `int` value is not
negative. For every invocation with four arguments, `main` exits with a failure
status before any allocation, thread or log exactly when the first argument is empty,
is not read to its end by `strtol`, or the value `strtol` returns, converted to
`int`, is negative (as for `-` followed by digits of a value from `1` to `2^31`); in
every other case `main` goes on with that `int` as the number of threads. In
particular, when the first argument consists of digits of a value below `2^31`, zero
included, `main` goes on with that number of threads; for the value `0` and calls
that all succeed it allocates the buffers, creates the parasite threads, writes the
log and returns `EXIT_SUCCESS`. -/
theorem main_checks_worker_count (env : Environment F) (argv : List (List Char))
    (h5 : argv.length = 5) (hstr : ∀ c ∈ argv.getD 1 [], c ≠ Char.ofNat 0) :
    ((argv.getD 1 [] = [] ∨ (strtol (argv.getD 1 [])).2 < (argv.getD 1 []).length ∨
        wrap32 (strtol (argv.getD 1 [])).1 < 0) →
      main env argv = ([], Exit.failure)) ∧
    (¬ (argv.getD 1 [] = [] ∨ (strtol (argv.getD 1 [])).2 < (argv.getD 1 []).length ∨
        wrap32 (strtol (argv.getD 1 [])).1 < 0) →
      main env argv = main_body env (wrap32 (strtol (argv.getD 1 [])).1)) ∧
    (∀ digits : List Char, argv.getD 1 [] = '-' :: digits → digits ≠ [] →
      (∀ c ∈ digits, c.isDigit = true) → 0 < decimal digits → decimal digits ≤ 2147483648 →
      main env argv = ([], Exit.failure)) ∧
    ((argv.getD 1 [] ≠ [] ∧ (∀ c ∈ argv.getD 1 [], c.isDigit = true) ∧
        decimal (argv.getD 1 []) < 2147483648) →
      main env argv = main_body env (decimal (argv.getD 1 []))) ∧
    ((argv.getD 1 [] ≠ [] ∧ (∀ c ∈ argv.getD 1 [], c.isDigit = true) ∧
        decimal (argv.getD 1 []) = 0) →
      ∀ comp_info online_harts filled, env.config = some comp_info →
        online_hardware_threads env.online = Discovery.topology online_harts →
        env.calloc_samples = true → env.calloc_thread_params = true →
        env.calloc_thread_table = true →
        fill_with_parasite_threads env.parasite_threads online_harts = some filled →
        env.log_file = true →
        main env argv =
          ([Action.calloc_samples (3 * (comp_info.num_samples % 4294967296) % 4294967296),
            Action.calloc_thread_params 0, Action.calloc_thread_table 0] ++
            filled.2.map Action.parasite ++ [Action.log 0], Exit.success)) := by
  have hend := getD_nul_iff (argv.getD 1 []) hstr
  have hreject : (argv.getD 1 [] = [] ∨ (strtol (argv.getD 1 [])).2 < (argv.getD 1 []).length ∨
      wrap32 (strtol (argv.getD 1 [])).1 < 0) → main env argv = ([], Exit.failure) := by
    intro hbad
    unfold main
    rw [if_neg (by omega)]
    have hc : (argv.getD 1 []).getD 0 (Char.ofNat 0) = Char.ofNat 0 ∨
        (argv.getD 1 []).getD (strtol (argv.getD 1 [])).2 (Char.ofNat 0) ≠ Char.ofNat 0 ∨
        wrap32 (strtol (argv.getD 1 [])).1 < 0 := by
      rcases hbad with h | h | h
      · left; rw [h]; rfl
      · right; left; exact (hend _).mpr h
      · right; right; exact h
    simp only [hc, if_true]
  have haccept : (argv.getD 1 [] ≠ [] ∧ (∀ c ∈ argv.getD 1 [], c.isDigit = true) ∧
      decimal (argv.getD 1 []) < 2147483648) →
      main env argv = main_body env (decimal (argv.getD 1 [])) := by
    rintro ⟨hne, hdig, hlt⟩
    obtain ⟨c, cs, e⟩ : ∃ c cs, argv.getD 1 [] = c :: cs := by
      cases hh : argv.getD 1 [] with
      | nil => exact absurd hh hne
      | cons c cs => exact ⟨c, cs, rfl⟩
    have h0 := decimal_nonneg _ hdig
    rw [e] at hdig hlt h0 hend ⊢
    have hst := strtol_digits c cs hdig
    have hmin : min (decimal (c :: cs)) LONG_MAX = decimal (c :: cs) := by
      simp only [LONG_MAX]
      omega
    have hw : wrap32 (decimal (c :: cs)) = decimal (c :: cs) := wrap32_id (by omega) hlt
    unfold main
    rw [if_neg (by omega)]
    simp only [e, hst, hmin, hw]
    rw [if_neg]
    rintro (h | h | h)
    · have := (hend 0).mpr (by simp)
      exact this h
    · exact absurd ((hend _).mp h) (by simp)
    · omega
  have hgo : ¬ (argv.getD 1 [] = [] ∨
      (strtol (argv.getD 1 [])).2 < (argv.getD 1 []).length ∨
      wrap32 (strtol (argv.getD 1 [])).1 < 0) →
      main env argv = main_body env (wrap32 (strtol (argv.getD 1 [])).1) := by
    intro hgood
    unfold main
    rw [if_neg (by omega)]
    have hc : ¬ ((argv.getD 1 []).getD 0 (Char.ofNat 0) = Char.ofNat 0 ∨
        (argv.getD 1 []).getD (strtol (argv.getD 1 [])).2 (Char.ofNat 0) ≠ Char.ofNat 0 ∨
        wrap32 (strtol (argv.getD 1 [])).1 < 0) := by
      rintro (h | h | h)
      · apply hgood
        left
        by_contra hne
        have hpos : 0 < (argv.getD 1 []).length := List.length_pos.mpr hne
        exact (hend 0).mpr hpos h
      · exact hgood (Or.inr (Or.inl ((hend _).mp h)))
      · exact hgood (Or.inr (Or.inr h))
    simp only [hc, if_false]
  refine ⟨hreject, hgo, ?_, haccept, ?_⟩
  · intro digits e hne hdig hpos hle
    apply hreject
    right; right
    obtain ⟨c, cs, rfl⟩ : ∃ c cs, digits = c :: cs := by
      cases digits with
      | nil => exact absurd rfl hne
      | cons c cs => exact ⟨c, cs, rfl⟩
    rw [e, strtol_minus_digits c cs hdig]
    have hmax : max (-decimal (c :: cs)) (-LONG_MAX - 1) = -decimal (c :: cs) := by
      simp only [LONG_MAX]
      omega
    simp only [hmax]
    unfold wrap32
    omega
  · rintro ⟨hne, hdig, hz⟩ comp_info online_harts filled hcfg htop ha1 ha2 ha3 hfill hlog
    rw [haccept ⟨hne, hdig, by rw [hz]; decide⟩, hz]
    unfold main_body
    simp only [hcfg, htop, ha1, ha2, ha3, hlog, hfill, not_true_eq_false, if_false,
      Int.toNat_zero, start_workers, join_workers, List.append_nil, List.nil_append,
      List.singleton_append, List.cons_append]

/-- Witness of `main_checks_worker_count`: the command line with the first argument
`-3` exits at once; with the first argument `0` it goes on with no worker; with the
first argument `-4294967295`, whose value is `1` as an `int`, it goes on with one
worker. -/
theorem main_checks_worker_count_witness :
    main environment_ok (command_line ("-3")) = ([], Exit.failure) ∧
    main environment_ok (command_line ("0")) = main_body environment_ok 0 ∧
    main environment_ok (command_line ("-4294967295")) = main_body environment_ok 1 :=
  ⟨(main_checks_worker_count environment_ok (command_line ("-3")) (by decide) (by decide)).1
      (by decide),
    (main_checks_worker_count environment_ok (command_line ("0")) (by decide)
      (by decide)).2.2.2.1 (by decide),
    (main_checks_worker_count environment_ok (command_line ("-4294967295")) (by decide)
      (by decide)).2.1 (by decide)⟩

end Ising
